import Mathlib

/-!
# Verification of `src/main/util.c` (mupen64plus-core)

A shallow embedding of the string helpers (`strpbrk_reverse`, `dirfrompath`,
`namefrompath`, `trim`, `formatstr`) and of the doubly-linked list (`list_prepend`,
`list_append`, `list_node_delete`, `list_delete`, `list_find_node`), followed by
theorems about them.

Conventions of the embedding.

* A `char *` argument is the region of memory it points to: a `List Nat`, one
  entry per byte.  The C string held by a region is the bytes before its first
  zero byte; whatever follows the terminator is part of the region as well.
* A result of type `Option _` is `none` when the execution has no defined
  result: an access outside the region (undefined behaviour in C), a use of
  memory that is not allocated, or a loop that used up its fuel.
* A pointer that may be `NULL` is an `Option`: `none` is `NULL`.
* Lengths of type `size_t` are natural numbers: a string that lies in memory has a
  length that fits `size_t`.  The narrower types are modelled with their range, for
  a platform with 32-bit `int` and 64-bit `size_t`: the `unsigned int` counter of
  `trim` wraps around at `UINT_MAX + 1`, and an `int` of `formatstr` that would
  exceed `INT_MAX` (signed overflow, undefined behaviour) gives no result.
-/

namespace Util

/-! ## C library functions used by the string helpers -/

/-- The function `strlen`: the offset of the first zero byte of the region `s`; no
result when the region holds no terminator. -/
def strlen : List Nat → Option Nat
  | [] => none
  | c :: cs => if c = 0 then some 0 else (strlen cs).map (· + 1)

/-- The function `strchr` on the string held by `s`: the offset of the first byte equal
to `c`, the terminator being part of the string (`strchr s 0` finds it), or
`NULL` when the string ends before `c` is met. -/
def strchr : List Nat → Nat → Option (Option Nat)
  | [], _ => none
  | x :: xs, c =>
    if x = c then some (some 0)
    else if x = 0 then some none
    else (strchr xs c).map (fun r => r.map (· + 1))

/-- The function `strncpy` into a fresh buffer: the `n` bytes it writes, which are the bytes
of `src` up to its terminator, padded with zero bytes. -/
def strncpy : List Nat → Nat → Option (List Nat)
  | _, 0 => some []
  | [], _ + 1 => none
  | c :: cs, n + 1 =>
    if c = 0 then some (List.replicate (n + 1) 0)
    else (strncpy cs n).map (c :: ·)

/-- The function `strdup`: a fresh buffer holding the string of `s`, terminator included,
or `NULL` when the allocation fails (`alloc = false`). -/
def strdup (s : List Nat) (alloc : Bool) : Option (Option (List Nat)) := do
  let n ← strlen s
  if alloc then some (some (s.take (n + 1))) else some none

/-! ## Path splitting (`util.c`, lines 325-379) -/

/-- The loop of `strpbrk_reverse`:
`for (counter = stringlength; counter > 0; --counter) if (strchr(needles, haystack[counter-1])) break;`
started at `counter`; the result is the value of `counter` when the loop is left. -/
def strpbrk_reverse_loop (needles haystack : List Nat) : Nat → Option Nat
  | 0 => some 0
  | counter + 1 => do
    let c ← haystack[counter]?
    let found ← strchr needles c
    if found.isSome then some (counter + 1)
    else strpbrk_reverse_loop needles haystack counter

/-- The function `strpbrk_reverse`: the offset in `haystack` of the position returned
(`haystack + counter - 1`), or `NULL`. -/
def strpbrk_reverse (needles haystack : List Nat) : Option (Option Nat) := do
  let stringlength ← strlen haystack
  let counter ← strpbrk_reverse_loop needles haystack stringlength
  if counter = 0 then some none else some (some (counter - 1))

/-- The function `dirfrompath`, the macro `OSAL_DIR_SEPARATORS` being the string held by
`seps`.  `alloc` tells whether the allocation (`malloc` or `calloc`) succeeds; the
result is the buffer returned, all its `dirlen + 1` bytes, or `NULL`. -/
def dirfrompath (seps path : List Nat) (alloc : Bool) : Option (Option (List Nat)) := do
  let last_separator_ptr ← strpbrk_reverse seps path
  match last_separator_ptr with
  | some last =>
    let dirlen := last + 1
    if alloc then do
      let buffer ← strncpy path dirlen
      some (some (buffer ++ [0]))
    else some none
  | none => if alloc then some (some [0]) else some none

/-- The function `namefrompath`, with the same conventions as `dirfrompath`. -/
def namefrompath (seps path : List Nat) (alloc : Bool) : Option (Option (List Nat)) := do
  let last_separator_ptr ← strpbrk_reverse seps path
  match last_separator_ptr with
  | some last => strdup (path.drop (last + 1)) alloc
  | none => strdup path alloc

/-! ## Trimming (`util.c`, lines 86-113) -/

/-- The function `isspace` in the "C" locale: space, `\t`, `\n`, `\v`, `\f`, `\r`. -/
def isspace (c : Nat) : Bool := c == 32 || (9 ≤ c && c ≤ 13)

/-- The buffer `str` points to, and the offsets (relative to `str`) of the bytes read
or written so far, the latest first. -/
structure Mem where
  buf : List Nat
  log : List Int
deriving DecidableEq

/-- Reading the byte at offset `i`. -/
def Mem.read (m : Mem) (i : Int) : Option (Nat × Mem) :=
  if 0 ≤ i then (m.buf[i.toNat]?).map (fun c => (c, { m with log := i :: m.log }))
  else none

/-- Writing the byte `v` at offset `i`. -/
def Mem.write (m : Mem) (i : Int) (v : Nat) : Option Mem :=
  if 0 ≤ i ∧ i.toNat < m.buf.length then
    some { buf := m.buf.set i.toNat v, log := i :: m.log }
  else none

/-- The call `strlen(str + p)`: it reads the bytes at offsets `p`, ..., `p + n`, where `n` is
the length it returns. -/
def Mem.strlen (m : Mem) (p : Int) : Option (Nat × Mem) :=
  if 0 ≤ p then
    (Util.strlen (m.buf.drop p.toNat)).map (fun n =>
      (n, { m with log := ((List.range (n + 1)).map (fun j : Nat => p + (j : Int))).reverse ++ m.log }))
  else none

/-- The loop `while (isspace(*p)) p++;`. -/
def trim_skip : Nat → Mem → Int → Option (Int × Mem)
  | 0, _, _ => none
  | fuel + 1, m, p => do
    let (c, m) ← m.read p
    if isspace c then trim_skip fuel m (p + 1) else some (p, m)

/-- The largest value of an `unsigned int` (32 bits). -/
def UINT_MAX : Nat := 4294967295

/-- The loop `for (i = 0; i <= strlen(p); ++i) str[i] = p[i];` from the test of `i` on;
`strlen(p)` is evaluated at every turn, on the buffer as it is then.  The counter `i`
is an `unsigned int`: `++i` wraps around to `0` after `UINT_MAX`.  The value of
`strlen(p)` is a `size_t` and `i` is converted to that wider type for the test, so
the comparison is that of the two numbers. -/
def trim_copy : Nat → Mem → Int → Nat → Option Mem
  | 0, _, _, _ => none
  | fuel + 1, m, p, i => do
    let (n, m) ← m.strlen p
    if i ≤ n then do
      let (c, m) ← m.read (p + (i : Int))
      let m ← m.write (i : Int) c
      trim_copy fuel m p ((i + 1) % (UINT_MAX + 1))
    else some m

/-- The loop `while (isspace(*p)) p--;`. -/
def trim_back : Nat → Mem → Int → Option (Int × Mem)
  | 0, _, _ => none
  | fuel + 1, m, p => do
    let (c, m) ← m.read p
    if isspace c then trim_back fuel m (p - 1) else some (p, m)

/-- The function `trim` on the buffer `str`.  Each loop may take `fuel` turns.  The result
is the pointer returned, as an offset from `str`, and the memory at the end. -/
def trim (fuel : Nat) (str : List Nat) : Option (Int × Mem) := do
  let m : Mem := { buf := str, log := [] }
  let (p, m) ← trim_skip fuel m 0
  let m ← if p ≠ 0 then trim_copy fuel m p 0 else some m
  let (n, m) ← m.strlen 0
  let p : Int := (n : Int) - 1
  let m ← if p > 0 then do
      let (p, m) ← trim_back fuel m p
      m.write (p + 1) 0
    else some m
  some (0, m)

/-- The buffer that holds a space, the letter `x`, `w` spaces and the terminator: the string
`" x"` followed by `w` spaces. -/
def spaced_x (w : Nat) : List Nat := 32 :: 120 :: (List.replicate w 32 ++ [0])

/-! ## Doubly-linked list (`util.c`, lines 115-250) -/

/-- Modelled from the spec: the type `list_node_t` is declared in `util.h`, which is not
among the sources.  A node "holds an opaque reference to caller-owned data, plus
back and forward links"; the fields are named as `util.c` uses them.  A data
reference is an address, a natural number; a link is `none` (`NULL`) or the address
of a node. -/
structure list_node_t where
  data : Nat
  prev : Option Nat
  next : Option Nat
deriving DecidableEq

/-- The type `list_t`: a pointer to the first node, `NULL` for the empty list. -/
abbrev list_t := Option Nat

/-- The memory the list functions work on: the allocated nodes by address, the variable
`*list` of the caller, and the addresses handed to `free` so far, the latest first. -/
structure ListState where
  heap : Nat → Option list_node_t
  head : list_t
  freed : List Nat

/-- The heap with the contents of address `a` replaced. -/
def heap_set (h : Nat → Option list_node_t) (a : Nat) (v : Option list_node_t) :
    Nat → Option list_node_t :=
  fun b => if b = a then v else h b

/-- Reading the node a pointer points to; no result for `NULL` and for an address that is
not allocated. -/
def load (h : Nat → Option list_node_t) (p : Option Nat) : Option list_node_t :=
  p.bind h

/-- The assignment `p->data = v`. -/
def set_data (s : ListState) (p : Option Nat) (v : Nat) : Option ListState := do
  let a ← p
  let n ← s.heap a
  some { s with heap := heap_set s.heap a (some { n with data := v }) }

/-- The assignment `p->prev = v`. -/
def set_prev (s : ListState) (p : Option Nat) (v : Option Nat) : Option ListState := do
  let a ← p
  let n ← s.heap a
  some { s with heap := heap_set s.heap a (some { n with prev := v }) }

/-- The assignment `p->next = v`. -/
def set_next (s : ListState) (p : Option Nat) (v : Option Nat) : Option ListState := do
  let a ← p
  let n ← s.heap a
  some { s with heap := heap_set s.heap a (some { n with next := v }) }

/-- A call `malloc(sizeof(list_node_t))` that returns `new`: `NULL`, or the address of a
block that was not allocated, whose contents `junk` are indeterminate. -/
def malloc (s : ListState) (new : Option Nat) (junk : list_node_t) : ListState :=
  match new with
  | none => s
  | some a => { s with heap := heap_set s.heap a (some junk) }

/-- The call `free(p)` for a pointer that is not `NULL`; no result when `p` is not the address of
an allocated node. -/
def free (s : ListState) (p : Option Nat) : Option ListState := do
  let a ← p
  let _ ← s.heap a
  some { s with heap := heap_set s.heap a none, freed := a :: s.freed }

/-- The function `list_empty`. -/
def list_empty (list : list_t) : Bool := list.isNone

/-- The function `list_prepend`; `new` and `junk` are what its call of `malloc` returns.  The result
is the pointer returned and the memory at the end. -/
def list_prepend (s : ListState) (data : Nat) (new : Option Nat) (junk : list_node_t) :
    Option (Option Nat × ListState) :=
  if list_empty s.head then do
    let s := { malloc s new junk with head := new }
    let s ← set_data s s.head data
    let s ← set_prev s s.head none
    let s ← set_next s s.head none
    some (s.head, s)
  else do
    let first_node := s.head
    let s := malloc s new junk
    let new_node := new
    let s ← set_prev s first_node new_node
    let s := { s with head := new_node }
    let s ← set_data s new_node data
    let s ← set_prev s new_node none
    let s ← set_next s new_node first_node
    some (new_node, s)

/-- The loop `while (last_node->next != NULL) last_node = last_node->next;` of `list_append`; the
result is the value of `last_node` when the loop is left. -/
def list_append_loop (h : Nat → Option list_node_t) : Nat → Option Nat → Option (Option Nat)
  | 0, _ => none
  | fuel + 1, last_node => do
    let n ← load h last_node
    if n.next ≠ none then list_append_loop h fuel n.next else some last_node

/-- The function `list_append`; its loop may take `fuel` turns. -/
def list_append (fuel : Nat) (s : ListState) (data : Nat) (new : Option Nat)
    (junk : list_node_t) : Option (Option Nat × ListState) :=
  if list_empty s.head then do
    let s := { malloc s new junk with head := new }
    let s ← set_data s s.head data
    let s ← set_prev s s.head none
    let s ← set_next s s.head none
    some (s.head, s)
  else do
    let last_node ← list_append_loop s.heap fuel s.head
    let s := malloc s new junk
    let new_node := new
    let s ← set_next s last_node new_node
    let s ← set_data s new_node data
    let s ← set_prev s new_node last_node
    let s ← set_next s new_node none
    some (new_node, s)

/-- The function `list_node_delete`. -/
def list_node_delete (s : ListState) (node : Option Nat) : Option ListState :=
  if node = none ∨ s.head = none then some s
  else do
    let n ← load s.heap node
    let s ← if n.prev ≠ none then set_next s n.prev n.next
      else some { s with head := n.next }
    let n ← load s.heap node
    let s ← if n.next ≠ none then set_prev s n.next n.prev else some s
    free s node

/-- Modelled from the spec: the macro `list_foreach` is defined in `util.h`, which is not
among the sources; "traversal always proceeds head→tail via `next` links", that is
`for (curr = list; curr != NULL; curr = curr->next)`.  This is the loop of
`list_delete` from the test of `curr` on; the result is the memory and the value of
`prev` when the loop is left. -/
def list_delete_loop : Nat → ListState → Option Nat → Option Nat → Option (ListState × Option Nat)
  | 0, _, _, _ => none
  | fuel + 1, s, prev, curr =>
    if curr = none then some (s, prev)
    else do
      let s ← if prev ≠ none then free s prev else some s
      let prev := curr
      let n ← load s.heap curr
      list_delete_loop fuel s prev n.next

/-- The function `list_delete`; its loop may take `fuel` turns. -/
def list_delete (fuel : Nat) (s : ListState) : Option ListState := do
  let (s, prev) ← list_delete_loop fuel s none s.head
  let s ← if prev ≠ none then free s prev else some s
  some { s with head := none }

/-- The loop of `list_find_node`, `list_foreach(list, node) if (node->data == data) break;`, from
the test of `node` on (for `list_foreach` see `list_delete_loop`); the result is the
value of `node` when the loop is left. -/
def list_find_node_loop (h : Nat → Option list_node_t) (data : Nat) :
    Nat → Option Nat → Option (Option Nat)
  | 0, _ => none
  | fuel + 1, node =>
    if node = none then some none
    else do
      let n ← load h node
      if n.data = data then some node
      else list_find_node_loop h data fuel n.next

/-- The function `list_find_node`; its loop may take `fuel` turns. -/
def list_find_node (fuel : Nat) (h : Nat → Option list_node_t) (list : list_t) (data : Nat) :
    Option (Option Nat) :=
  list_find_node_loop h data fuel list

/-- The list that starts at the pointer `p` in the heap `h`, as a sequence of nodes from head to
tail, each with its address and its data reference: `p` points to the first node,
whose `prev` link is `prev`, every `next` link points to the node that follows, whose
`prev` link points back, and the last `next` link is `NULL`. -/
def IsList (h : Nat → Option list_node_t) : Option Nat → Option Nat → List (Nat × Nat) → Prop
  | p, _, [] => p = none
  | p, prev, (a, d) :: l =>
    p = some a ∧
      match h a with
      | none => False
      | some n => n.data = d ∧ n.prev = prev ∧ IsList h n.next (some a) l

/-- The predicate `IsList` can be decided by following the links. -/
def decIsList (h : Nat → Option list_node_t) :
    (l : List (Nat × Nat)) → (p prev : Option Nat) → Decidable (IsList h p prev l)
  | [], p, _ => inferInstanceAs (Decidable (p = none))
  | (a, d) :: l, p, prev =>
    match hn : h a with
    | none => isFalse (by simp [IsList, hn])
    | some n =>
      have := decIsList h l n.next (some a)
      if h1 : p = some a ∧ n.data = d ∧ n.prev = prev ∧ IsList h n.next (some a) l then
        isTrue (by simpa [IsList, hn] using h1)
      else isFalse (by simpa [IsList, hn] using h1)

instance (h : Nat → Option list_node_t) (p prev : Option Nat) (l : List (Nat × Nat)) :
    Decidable (IsList h p prev l) :=
  decIsList h l p prev

/-- A segment of a list: as `IsList`, but the last `next` link is `q` instead of `NULL`, and
`last` is the address of the last node of the segment (`prev` for an empty one). -/
def IsSeg (h : Nat → Option list_node_t) :
    Option Nat → Option Nat → List (Nat × Nat) → Option Nat → Option Nat → Prop
  | p, prev, [], q, last => p = q ∧ prev = last
  | p, prev, (a, d) :: l, q, last =>
    p = some a ∧
      match h a with
      | none => False
      | some n => n.data = d ∧ n.prev = prev ∧ IsSeg h n.next (some a) l q last

/-- The shape of a buffer handed to `trim`, byte by byte: `k` bytes of white space, `lt`
bytes that are not zero and begin and end with one that is not white space, `lb`
bytes of white space, and the terminator. -/
structure TrimInput (orig : List Nat) (k lt lb : Nat) : Prop where
  sp_a : ∀ i, i < k → ∃ c, orig[i]? = some c ∧ isspace c = true
  nz_t : ∀ i, i < lt → ∃ c, orig[k + i]? = some c ∧ c ≠ 0
  sp_b : ∀ i, i < lb → ∃ c, orig[k + lt + i]? = some c ∧ isspace c = true
  term : orig[k + lt + lb]? = some 0
  head : 0 < lt → ∃ c, orig[k]? = some c ∧ isspace c = false
  last : 0 < lt → ∃ c, orig[k + lt - 1]? = some c ∧ isspace c = false
  empty : lt = 0 → lb = 0

/-- What the comment of `trim` asks for, on the bytes of a string: the string without its
leading and trailing white space. -/
def trimmed (s : List Nat) : List Nat :=
  (s.dropWhile isspace).rdropWhile isspace

/-- A heap with a list of three nodes: address 1 (data 10), address 2 (data 20), address 3
(data 10 again), and the memory that holds it, with `*list` pointing to node 1. -/
def heap3 : Nat → Option list_node_t := fun a =>
  if a = 1 then some ⟨10, none, some 2⟩
  else if a = 2 then some ⟨20, some 1, some 3⟩
  else if a = 3 then some ⟨10, some 2, none⟩
  else none

/-- The memory that holds the list of `heap3`. -/
def state3 : ListState := ⟨heap3, some 1, []⟩

/-- The memory with no node allocated and the empty list. -/
def state0 : ListState := ⟨fun _ => none, none, []⟩

/-- The forward traversal of a list, `list_foreach` (see `list_delete_loop`) from the pointer
`p` on: the address and the data reference of each node met, following the `next`
links, in at most `fuel` turns. -/
def list_traverse (h : Nat → Option list_node_t) : Nat → Option Nat → Option (List (Nat × Nat))
  | 0, _ => none
  | _ + 1, none => some []
  | fuel + 1, some a => do
    let n ← h a
    let rest ← list_traverse h fuel n.next
    some ((a, n.data) :: rest)

/-- The backward traversal of a list from the pointer `p` on: as `list_traverse`, following the
`prev` links.  No function of `util.c` walks a list backwards; this is the traversal
the invariant of the links speaks of. -/
def list_traverse_back (h : Nat → Option list_node_t) :
    Nat → Option Nat → Option (List (Nat × Nat))
  | 0, _ => none
  | _ + 1, none => some []
  | fuel + 1, some a => do
    let n ← h a
    let rest ← list_traverse_back h fuel n.prev
    some ((a, n.data) :: rest)

/-- A caller that appends data references one after the other.  Each entry of the list is the
address that `malloc` returns for the call and the data reference appended. -/
def append_all (fuel : Nat) (junk : list_node_t) : ListState → List (Nat × Nat) → Option ListState
  | s, [] => some s
  | s, (a, d) :: xs => do
    let (_, s) ← list_append fuel s d (some a) junk
    append_all fuel junk s xs

/-- A caller that prepends data references one after the other, as `append_all`. -/
def prepend_all (junk : list_node_t) : ListState → List (Nat × Nat) → Option ListState
  | s, [] => some s
  | s, (a, d) :: xs => do
    let (_, s) ← list_prepend s d (some a) junk
    prepend_all junk s xs

/-- The memories that finite sequences of calls of `list_prepend`, `list_append` and
`list_node_delete` lead to, from any memory whose list is empty: each insertion gets
from `malloc` an address that is not allocated, and each deletion is of a node that
the traversal of the list meets. -/
inductive Reachable : ListState → Prop
  | empty (s : ListState) : s.head = none → Reachable s
  | prepend (s s' : ListState) (d a : Nat) (junk : list_node_t) (r : Option Nat) :
      Reachable s → s.heap a = none → list_prepend s d (some a) junk = some (r, s') →
      Reachable s'
  | append (fuel : Nat) (s s' : ListState) (d a : Nat) (junk : list_node_t) (r : Option Nat) :
      Reachable s → s.heap a = none → list_append fuel s d (some a) junk = some (r, s') →
      Reachable s'
  | delete (fuel : Nat) (s s' : ListState) (n : Nat) (l : List (Nat × Nat)) :
      Reachable s → list_traverse s.heap fuel s.head = some l → n ∈ l.map Prod.fst →
      list_node_delete s (some n) = some s' → Reachable s'

/-- The memory that a call of `list_prepend` or `list_append` leaves (`state0` for a call without
result). -/
def memory_after (r : Option (Option Nat × ListState)) : ListState :=
  (r.map Prod.snd).getD state0

/-- The memory after prepending the data reference 10, at the address 1, to the empty list. -/
def demo1 : ListState := memory_after (list_prepend state0 10 (some 1) ⟨0, none, none⟩)

/-- The memory after appending the data reference 20, at the address 2, in `demo1`. -/
def demo2 : ListState := memory_after (list_append 1 demo1 20 (some 2) ⟨0, none, none⟩)

/-- The memory after deleting the node at the address 1 in `demo2`. -/
def demo3 : ListState := (list_node_delete demo2 (some 1)).getD state0

/-! ## Formatting into a growing buffer (`util.c`, lines 381-417) -/

/-- The two versions of `vsnprintf` that the comment in `formatstr` tells apart. -/
inductive Convention where
  | c99
  | windows
deriving DecidableEq

/-- The largest value of an `int` (32 bits). -/
def INT_MAX : Int := 2147483647

/-- The call `vsnprintf(str, size, fmt, args)`, where `r` is the complete rendering of `fmt` with
its arguments: the value returned, an `int`, and the bytes written to `str`.  When
`r` and its terminator fit in `size` bytes both versions write them and return the
length of `r`.  Otherwise, as the comment in `formatstr` says, the C99 version
returns the length of `r`, "the number of characters which would have been written
if the buffer had been large enough", and the Windows version returns `-1`, "on
failure or truncation".  A length above `INT_MAX` is not a value of the result:
the C99 version then fails and returns `-1`.  No other failure of the rendering is
modelled. -/
def vsnprintf (conv : Convention) (r : List Nat) (size : Int) : Int × List Nat :=
  if (r.length : Int) < size then ((r.length : Int), r ++ [0])
  else
    match conv with
    | Convention.c99 =>
      (if (r.length : Int) ≤ INT_MAX then (r.length : Int) else -1,
        r.take (size.toNat - 1) ++ [0])
    | Convention.windows => (-1, r.take size.toNat)

/-- The memory `formatstr` works on: the blocks that are allocated and not released, the
blocks handed to `free`, the capacities `vsnprintf` was called with (the latest
first in both lists) and the number of calls of `malloc` and `realloc` so far. -/
structure FmtState where
  held : List Nat
  freed : List Nat
  sizes : List Int
  calls : Nat
deriving DecidableEq

/-- The call `realloc(str, size)` for the block `b` of `str`, which returns `newstr`: a failure
leaves the block as it is; a success gives the block `newstr` in its place (the
same address or another one). -/
def fmt_realloc (st : FmtState) (b : Nat) (newstr : Option Nat) : FmtState :=
  { st with
    calls := st.calls + 1
    held := match newstr with
      | none => st.held
      | some b' => b' :: st.held.erase b }

/-- The call `free(str)` for the block `b` of `str`. -/
def fmt_free (st : FmtState) (b : Nat) : FmtState :=
  { st with held := st.held.erase b, freed := b :: st.freed }

/-- The loop `while (str != NULL)` of `formatstr`, from its test on, and the `return NULL` after
it.  `alloc k` is what the call number `k` of `malloc` or `realloc` returns.  The
variables `size` and `ret` are of type `int`: when `ret + 1` or `size * 2` is
above `INT_MAX` the assignment to `size` overflows, which is undefined
behaviour, and the loop has no result.  The result is the pointer returned, with
the bytes that the last call of `vsnprintf` wrote to it, and the memory at the
end. -/
def formatstr_loop (conv : Convention) (r : List Nat) (alloc : Nat → Option Nat) :
    Nat → Option Nat → Int → FmtState → Option (Option (Nat × List Nat) × FmtState)
  | 0, _, _, _ => none
  | _ + 1, none, _, st => some (none, st)
  | fuel + 1, some b, size, st =>
    let out := vsnprintf conv r size
    let ret := out.1
    let st := { st with sizes := size :: st.sizes }
    if ret ≥ 0 ∧ ret < size then some (some (b, out.2), st)
    else
      let size := if ret ≥ size then ret + 1 else size * 2
      if INT_MAX < size then none
      else
        let newstr := alloc st.calls
        let st := fmt_realloc st b newstr
        let st := if newstr = none then fmt_free st b else st
        formatstr_loop conv r alloc fuel newstr size st

/-- The capacity that the loop of `formatstr` goes on with after a rendering of at most
`INT_MAX` bytes that does not fit: `ret + 1` for the C99 version, twice the
capacity for the Windows version. -/
def next_size (conv : Convention) (r : List Nat) (size : Int) : Int :=
  match conv with
  | Convention.c99 => (r.length : Int) + 1
  | Convention.windows => size * 2

/-- The longest rendering for which no `int` of `formatstr` overflows: `INT_MAX - 1` bytes with
the C99 version of `vsnprintf`, where `size = ret + 1` has to be at most `INT_MAX`,
and `2 ^ 30 - 1` bytes with the Windows version, where the capacities are
`128 * 2 ^ i` and `2 ^ 30` is the last of them that can be doubled. -/
def max_len : Convention → Nat
  | Convention.c99 => 2147483646
  | Convention.windows => 1073741823

/-- The function `formatstr`, for a template and arguments whose complete rendering is `r`; its
loop may take `fuel` turns. -/
def formatstr (conv : Convention) (r : List Nat) (alloc : Nat → Option Nat) (fuel : Nat) :
    Option (Option (Nat × List Nat) × FmtState) :=
  let size : Int := 128
  let str := alloc 0
  formatstr_loop conv r alloc fuel str size
    { held := str.toList, freed := [], sizes := [], calls := 1 }

/-! # Theorems -/

/-! ## Facts about the C library functions -/

theorem strlen_cstr (p r : List Nat) (hp : 0 ∉ p) : strlen (p ++ 0 :: r) = some p.length := by
  induction p with
  | nil => simp [strlen]
  | cons c cs ih =>
    have hc : c ≠ 0 := fun h => hp (by simp [h])
    have hcs : 0 ∉ cs := fun h => hp (by simp [h])
    simp [strlen, hc, ih hcs]

theorem strchr_cstr (seps r : List Nat) (c : Nat) (hs : 0 ∉ seps) (hc : c ≠ 0) :
    ∃ found, strchr (seps ++ 0 :: r) c = some found ∧ (found.isSome = true ↔ c ∈ seps) := by
  induction seps with
  | nil => exact ⟨none, by simp [strchr, Ne.symm hc], by simp⟩
  | cons x xs ih =>
    have hx : x ≠ 0 := fun h => hs (by simp [h])
    have hxs : 0 ∉ xs := fun h => hs (by simp [h])
    obtain ⟨found, hf, hiff⟩ := ih hxs
    by_cases hxc : x = c
    · exact ⟨some 0, by simp [strchr, hxc], by simp [hxc]⟩
    · refine ⟨found.map (· + 1), by simp [strchr, hxc, hx, hf], ?_⟩
      have hcx : ¬ c = x := fun h => hxc h.symm
      simp [hcx, ← hiff]

theorem strncpy_cstr (p r : List Nat) (hp : 0 ∉ p) (n : Nat) (hn : n ≤ p.length) :
    strncpy (p ++ 0 :: r) n = some (p.take n) := by
  induction p generalizing n with
  | nil =>
    have : n = 0 := by simpa using hn
    subst this
    simp [strncpy]
  | cons c cs ih =>
    have hc : c ≠ 0 := fun h => hp (by simp [h])
    have hcs : 0 ∉ cs := fun h => hp (by simp [h])
    cases n with
    | zero => simp [strncpy]
    | succ m =>
      have hm : m ≤ cs.length := by simpa using hn
      simp [strncpy, hc, ih hcs m hm]

theorem strdup_cstr (p r : List Nat) (hp : 0 ∉ p) (k : Nat) (hk : k ≤ p.length) :
    strdup ((p ++ 0 :: r).drop k) true = some (some (p.drop k ++ [0])) := by
  have hd : (p ++ 0 :: r).drop k = p.drop k ++ 0 :: r := by
    rw [List.drop_append_of_le_length hk]
  have h0 : 0 ∉ p.drop k := fun h => hp (List.mem_of_mem_drop h)
  rw [hd]
  simp [strdup, strlen_cstr _ _ h0, List.take_append_eq_append_take]

/-- The loop of `strpbrk_reverse` stops at the last separator at or below its start. -/
theorem strpbrk_reverse_loop_cstr (seps r1 p r2 : List Nat) (hs : 0 ∉ seps) (hp : 0 ∉ p)
    (k : Nat) (hk : k ≤ p.length) :
    ∃ j, strpbrk_reverse_loop (seps ++ 0 :: r1) (p ++ 0 :: r2) k = some j ∧ j ≤ k ∧
      (∀ i c, j ≤ i → i < k → p[i]? = some c → c ∉ seps) ∧
      (j = 0 ∨ ∃ c, p[j - 1]? = some c ∧ c ∈ seps) := by
  induction k with
  | zero => exact ⟨0, by simp [strpbrk_reverse_loop], le_refl _, by intro i c h1 h2; omega, Or.inl rfl⟩
  | succ k ih =>
    have hk1 : k < p.length := hk
    obtain ⟨j, hj, hjk, hno, hlast⟩ := ih (Nat.le_of_lt hk1)
    have hget : (p ++ 0 :: r2)[k]? = some p[k] := by
      rw [List.getElem?_append_left hk1]
      exact List.getElem?_eq_getElem hk1
    have hc0 : p[k] ≠ 0 := fun h => hp (h ▸ List.getElem_mem hk1)
    obtain ⟨found, hf, hiff⟩ := strchr_cstr seps r1 p[k] hs hc0
    by_cases hmem : p[k] ∈ seps
    · refine ⟨k + 1, ?_, le_refl _, ?_, Or.inr ⟨p[k], ?_, hmem⟩⟩
      · have : found.isSome = true := hiff.mpr hmem
        simp [strpbrk_reverse_loop, hget, hf, this]
      · intro i c h1 h2; omega
      · simp [List.getElem?_eq_getElem hk1]
    · refine ⟨j, ?_, Nat.le_succ_of_le hjk, ?_, hlast⟩
      · have : ¬ found.isSome = true := fun h => hmem (hiff.mp h)
        simp [strpbrk_reverse_loop, hget, hf, this, hj]
      · intro i c h1 h2 hic
        by_cases hik : i = k
        · subst hik
          rw [List.getElem?_eq_getElem hk1] at hic
          cases hic
          exact hmem
        · exact hno i c h1 (by omega) hic

/-- Both splitters cut the path at the same offset `k`: just after the last separator,
or at the start when there is none. -/
theorem path_split (seps r1 p r2 : List Nat) (hs : 0 ∉ seps) (hp : 0 ∉ p) :
    ∃ k, k ≤ p.length ∧
      dirfrompath (seps ++ 0 :: r1) (p ++ 0 :: r2) true = some (some (p.take k ++ [0])) ∧
      namefrompath (seps ++ 0 :: r1) (p ++ 0 :: r2) true = some (some (p.drop k ++ [0])) ∧
      (∀ c ∈ p.drop k, c ∉ seps) ∧
      (k = 0 ∨ ∃ c, p[k - 1]? = some c ∧ c ∈ seps) := by
  obtain ⟨j, hj, hjk, hno, hlast⟩ :=
    strpbrk_reverse_loop_cstr seps r1 p r2 hs hp p.length (le_refl _)
  refine ⟨j, hjk, ?_, ?_, ?_, hlast⟩
  · by_cases h0 : j = 0
    · subst h0
      simp [dirfrompath, strpbrk_reverse, strlen_cstr _ _ hp, hj]
    · have hj1 : j - 1 + 1 = j := by omega
      simp [dirfrompath, strpbrk_reverse, strlen_cstr _ _ hp, hj, h0, hj1,
        strncpy_cstr p r2 hp j hjk]
  · by_cases h0 : j = 0
    · subst h0
      have := strdup_cstr p r2 hp 0 (Nat.zero_le _)
      simp only [List.drop_zero] at this
      simp [namefrompath, strpbrk_reverse, strlen_cstr _ _ hp, hj, this]
    · have hj1 : j - 1 + 1 = j := by omega
      have := strdup_cstr p r2 hp j hjk
      simp [namefrompath, strpbrk_reverse, strlen_cstr _ _ hp, hj, h0, hj1, this]
  · intro c hc
    obtain ⟨i, hi, rfl⟩ := List.getElem_of_mem hc
    have hi2 : j + i < p.length := by
      have := hi
      simp only [List.length_drop] at this
      omega
    apply hno (j + i) _ (Nat.le_add_right _ _) hi2
    rw [List.getElem_drop]
    exact List.getElem?_eq_getElem hi2

/-! ## Facts about the memory model of `trim` -/

theorem isspace_zero : isspace 0 = false := by decide

theorem strlen_drop_of_getElem? (buf : List Nat) (L a : Nat)
    (h1 : ∀ j, j < L → ∃ c, buf[a + j]? = some c ∧ c ≠ 0) (h2 : buf[a + L]? = some 0) :
    strlen (buf.drop a) = some L := by
  induction L generalizing a with
  | zero =>
    obtain ⟨ha, h0⟩ := List.getElem?_eq_some.mp h2
    simp only [Nat.add_zero] at ha h0
    rw [List.drop_eq_getElem_cons ha, h0]
    simp [strlen]
  | succ L ih =>
    obtain ⟨c, hc, hc0⟩ := h1 0 (Nat.succ_pos _)
    obtain ⟨ha, hca⟩ := List.getElem?_eq_some.mp hc
    simp only [Nat.add_zero] at ha hca
    rw [List.drop_eq_getElem_cons ha, hca]
    have ih2 := ih (a + 1)
      (fun j hj => by
        have := h1 (j + 1) (Nat.succ_lt_succ hj)
        rwa [show a + (j + 1) = a + 1 + j by omega] at this)
      (by rwa [show a + (L + 1) = a + 1 + L by omega] at h2)
    simp [strlen, hc0, ih2]

theorem strlen_drop_le (buf : List Nat) (M a : Nat) (h : buf[a + M]? = some 0) :
    ∃ L, L ≤ M ∧ strlen (buf.drop a) = some L := by
  induction M generalizing a with
  | zero => exact ⟨0, le_refl _, strlen_drop_of_getElem? buf 0 a (fun j hj => by omega) h⟩
  | succ M ih =>
    obtain ⟨hlen, _⟩ := List.getElem?_eq_some.mp h
    have ha : a < buf.length := by omega
    rw [List.drop_eq_getElem_cons ha]
    by_cases hc : buf[a] = 0
    · exact ⟨0, Nat.zero_le _, by simp [strlen, hc]⟩
    · obtain ⟨L, hL, hs⟩ := ih (a + 1) (by rwa [show a + (M + 1) = a + 1 + M by omega] at h)
      exact ⟨L + 1, Nat.succ_le_succ hL, by simp [strlen, hc, hs]⟩

theorem Mem.read_nat (buf : List Nat) (log : List Int) (j c : Nat) (h : buf[j]? = some c) :
    Mem.read ⟨buf, log⟩ (j : Int) = some (c, ⟨buf, (j : Int) :: log⟩) := by
  simp [Mem.read, h]

theorem Mem.write_nat (buf : List Nat) (log : List Int) (j v : Nat) (h : j < buf.length) :
    Mem.write ⟨buf, log⟩ (j : Int) v = some ⟨buf.set j v, (j : Int) :: log⟩ := by
  simp [Mem.write, h]

theorem Mem.strlen_nat (buf : List Nat) (log : List Int) (a L : Nat)
    (h : Util.strlen (buf.drop a) = some L) :
    Mem.strlen ⟨buf, log⟩ (a : Int) = some (L, ⟨buf,
      ((List.range (L + 1)).map (fun j : Nat => (a : Int) + (j : Int))).reverse ++ log⟩) := by
  simp [Mem.strlen, h]

/-- The forward scan stops at the first byte that is not white space. -/
theorem trim_skip_spec (buf : List Nat) (k : Nat)
    (hsp : ∀ i, i < k → ∃ c, buf[i]? = some c ∧ isspace c = true)
    (hk : ∃ c, buf[k]? = some c ∧ isspace c = false)
    (d j fuel : Nat) (log : List Int) (hd : j + d = k) (hf : d < fuel) :
    ∃ log', trim_skip fuel ⟨buf, log⟩ (j : Int) = some ((k : Int), ⟨buf, log'⟩) ∧
      ∀ x ∈ log', x ∈ log ∨ (0 ≤ x ∧ x ≤ (k : Int)) := by
  induction d generalizing j fuel log with
  | zero =>
    obtain ⟨c, hc, hcs⟩ := hk
    have hjk : j = k := by omega
    subst hjk
    obtain ⟨f, rfl⟩ : ∃ f, fuel = f + 1 := ⟨fuel - 1, by omega⟩
    refine ⟨(j : Int) :: log, by simp [trim_skip, Mem.read_nat buf log j c hc, hcs], ?_⟩
    intro x hx
    rcases List.mem_cons.mp hx with rfl | hx
    · exact Or.inr ⟨by omega, le_refl _⟩
    · exact Or.inl hx
  | succ d ih =>
    obtain ⟨c, hc, hcs⟩ := hsp j (by omega)
    obtain ⟨f, rfl⟩ : ∃ f, fuel = f + 1 := ⟨fuel - 1, by omega⟩
    obtain ⟨log', h1, h2⟩ := ih (j + 1) f ((j : Int) :: log) (by omega) (by omega)
    refine ⟨log', ?_, ?_⟩
    · have hcast : ((j : Int) + 1) = ((j + 1 : Nat) : Int) := by push_cast; rfl
      simp only [trim_skip, Mem.read_nat buf log j c hc, hcs, hcast, Option.bind_eq_bind,
        Option.some_bind, if_true]
      exact h1
    · intro x hx
      rcases h2 x hx with h | h
      · rcases List.mem_cons.mp h with rfl | h
        · exact Or.inr ⟨by omega, by omega⟩
        · exact Or.inl h
      · exact Or.inr h

/-- The backward scan stops at the last byte that is not white space, at offset `j`. -/
theorem trim_back_spec (buf : List Nat) (j : Nat)
    (hj : ∃ c, buf[j]? = some c ∧ isspace c = false)
    (d q fuel : Nat) (log : List Int) (hd : j + d = q) (hf : d < fuel)
    (hsp : ∀ i, j < i → i ≤ q → ∃ c, buf[i]? = some c ∧ isspace c = true) :
    ∃ log', trim_back fuel ⟨buf, log⟩ (q : Int) = some ((j : Int), ⟨buf, log'⟩) ∧
      ∀ x ∈ log', x ∈ log ∨ (0 ≤ x ∧ x ≤ (q : Int)) := by
  induction d generalizing q fuel log with
  | zero =>
    obtain ⟨c, hc, hcs⟩ := hj
    have hjq : j = q := by omega
    subst hjq
    obtain ⟨f, rfl⟩ : ∃ f, fuel = f + 1 := ⟨fuel - 1, by omega⟩
    refine ⟨(j : Int) :: log, by simp [trim_back, Mem.read_nat buf log j c hc, hcs], ?_⟩
    intro x hx
    rcases List.mem_cons.mp hx with rfl | hx
    · exact Or.inr ⟨by omega, le_refl _⟩
    · exact Or.inl hx
  | succ d ih =>
    obtain ⟨c, hc, hcs⟩ := hsp q (by omega) (le_refl _)
    obtain ⟨f, rfl⟩ : ∃ f, fuel = f + 1 := ⟨fuel - 1, by omega⟩
    obtain ⟨q', rfl⟩ : ∃ q', q = q' + 1 := ⟨q - 1, by omega⟩
    obtain ⟨log', h1, h2⟩ := ih q' f (((q' + 1 : Nat) : Int) :: log) (by omega) (by omega)
      (fun i h3 h4 => hsp i h3 (by omega))
    refine ⟨log', ?_, ?_⟩
    · have hcast : (((q' + 1 : Nat) : Int) - 1) = (q' : Int) := by push_cast; omega
      simp only [trim_back, Mem.read_nat buf log (q' + 1) c hc, hcs, hcast, Option.bind_eq_bind,
        Option.some_bind, if_true]
      exact h1
    · intro x hx
      rcases h2 x hx with h | h
      · rcases List.mem_cons.mp h with rfl | h
        · exact Or.inr ⟨by omega, le_refl _⟩
        · exact Or.inl h
      · exact Or.inr ⟨h.1, by omega⟩

/-- Membership in the log that a call of `strlen` leaves. -/
theorem mem_strlen_log (a L : Nat) (log : List Int) (x : Int)
    (hx : x ∈ ((List.range (L + 1)).map (fun j : Nat => (a : Int) + (j : Int))).reverse ++ log) :
    x ∈ log ∨ (0 ≤ x ∧ x ≤ ((a + L : Nat) : Int)) := by
  rcases List.mem_append.mp hx with h | h
  · right
    rw [List.mem_reverse] at h
    obtain ⟨j, hj, rfl⟩ := (List.mem_map (f := fun j : Nat => (a : Int) + (j : Int))).mp h
    have := List.mem_range.mp hj
    constructor <;> push_cast <;> omega
  · exact Or.inl h

/-- The copying loop of `trim` when the string to move is shorter than `UINT_MAX` bytes (the
counter does not wrap): from turn `i` on, with the bytes below `i` already moved down
by `k`, it moves the remaining bytes and the terminator and stops. -/
theorem trim_copy_spec (orig : List Nat) (n k : Nat) (hk : 0 < k) (hkn : k ≤ n)
    (hmax : n - k < UINT_MAX)
    (hnz : ∀ i, i < n → ∃ c, orig[i]? = some c ∧ c ≠ 0) (hn : orig[n]? = some 0)
    (d i fuel : Nat) (B : List Nat) (log : List Int)
    (hd : i + d = n - k + 1) (hf : d < fuel) (hlen : B.length = orig.length)
    (hB : ∀ j, B[j]? = if j < i then orig[k + j]? else orig[j]?) :
    ∃ F log', trim_copy fuel ⟨B, log⟩ (k : Int) i = some ⟨F, log'⟩ ∧
      F.length = orig.length ∧
      (∀ j, F[j]? = if j < n - k + 1 then orig[k + j]? else orig[j]?) ∧
      ∀ x ∈ log', x ∈ log ∨ (0 ≤ x ∧ x ≤ (n : Int)) := by
  induction d generalizing i fuel B log with
  | zero =>
    obtain ⟨f, rfl⟩ : ∃ f, fuel = f + 1 := ⟨fuel - 1, by omega⟩
    have hBn : B[k + (n - k)]? = some 0 := by
      rw [hB, if_neg (by omega), show k + (n - k) = n by omega]
      exact hn
    obtain ⟨L, hL, hs⟩ := strlen_drop_le B (n - k) k hBn
    refine ⟨B, ((List.range (L + 1)).map (fun j : Nat => (k : Int) + (j : Int))).reverse ++ log,
      ?_, hlen, ?_, ?_⟩
    · simp only [trim_copy, Mem.strlen_nat B log k L hs, Option.bind_eq_bind, Option.some_bind]
      rw [if_neg (by omega)]
    · intro j
      rw [hB j]
      have : i = n - k + 1 := by omega
      rw [this]
    · intro x hx
      rcases mem_strlen_log k L log x hx with h | h
      · exact Or.inl h
      · exact Or.inr ⟨h.1, by have := h.2; push_cast at this ⊢; omega⟩
  | succ d ih =>
    obtain ⟨f, rfl⟩ : ∃ f, fuel = f + 1 := ⟨fuel - 1, by omega⟩
    have him : i ≤ n - k := by omega
    have hs : Util.strlen (B.drop k) = some (n - k) := by
      apply strlen_drop_of_getElem?
      · intro j hj
        rw [hB]
        split
        · exact hnz _ (by omega)
        · exact hnz _ (by omega)
      · rw [hB, if_neg (by omega), show k + (n - k) = n by omega]
        exact hn
    have hread : ∃ c, orig[k + i]? = some c := by
      by_cases h : k + i < n
      · obtain ⟨c, hc, _⟩ := hnz _ h
        exact ⟨c, hc⟩
      · exact ⟨0, by rw [show k + i = n by omega]; exact hn⟩
    obtain ⟨c, hc⟩ := hread
    have hBc : B[k + i]? = some c := by rw [hB, if_neg (by omega)]; exact hc
    have hnlen : n < orig.length := (List.getElem?_eq_some.mp hn).1
    have hi : i < B.length := by omega
    obtain ⟨F, log', h1, h2, h3, h4⟩ := ih (i + 1) f (B.set i c)
      (((i : Nat) : Int) :: ((k + i : Nat) : Int) ::
        (((List.range (n - k + 1)).map (fun j : Nat => (k : Int) + (j : Int))).reverse ++ log))
      (by omega) (by omega) (by simpa using hlen)
      (by
        intro j
        rw [List.getElem?_set]
        by_cases hij : i = j
        · subst hij
          simp [hi, hc]
        · rw [if_neg hij, hB]
          by_cases hlt : j < i
          · rw [if_pos hlt, if_pos (by omega)]
          · rw [if_neg hlt, if_neg (by omega)])
    refine ⟨F, log', ?_, h2, h3, ?_⟩
    · have hcast : ((k : Int) + (i : Int)) = ((k + i : Nat) : Int) := by push_cast; rfl
      simp only [trim_copy, Mem.strlen_nat B log k (n - k) hs, Option.bind_eq_bind,
        Option.some_bind, if_pos him, hcast, Mem.read_nat B _ (k + i) c hBc,
        Mem.write_nat B _ i c hi]
      rw [Nat.mod_eq_of_lt (by omega)]
      exact h1
    · intro x hx
      rcases h4 x hx with h | h
      · rcases List.mem_cons.mp h with rfl | h
        · exact Or.inr ⟨by omega, by omega⟩
        rcases List.mem_cons.mp h with rfl | h
        · exact Or.inr ⟨by omega, by omega⟩
        rcases mem_strlen_log k (n - k) log x h with h | h
        · exact Or.inl h
        · exact Or.inr ⟨h.1, by have := h.2; push_cast at this ⊢; omega⟩
      · exact Or.inr h

theorem isspace_ne_zero (c : Nat) (h : isspace c = true) : c ≠ 0 := by
  rintro rfl
  simp [isspace_zero] at h

theorem TrimInput.nonzero {orig : List Nat} {k lt lb : Nat} (H : TrimInput orig k lt lb) :
    ∀ i, i < k + lt + lb → ∃ c, orig[i]? = some c ∧ c ≠ 0 := by
  intro i hi
  by_cases h1 : i < k
  · obtain ⟨c, hc, hs⟩ := H.sp_a i h1
    exact ⟨c, hc, isspace_ne_zero c hs⟩
  · by_cases h2 : i < k + lt
    · have := H.nz_t (i - k) (by omega)
      rwa [show k + (i - k) = i by omega] at this
    · obtain ⟨c, hc, hs⟩ := H.sp_b (i - k - lt) (by omega)
      rw [show k + lt + (i - k - lt) = i by omega] at hc
      exact ⟨c, hc, isspace_ne_zero c hs⟩

theorem TrimInput.stop {orig : List Nat} {k lt lb : Nat} (H : TrimInput orig k lt lb) :
    ∃ c, orig[k]? = some c ∧ isspace c = false := by
  by_cases h : 0 < lt
  · exact H.head h
  · have h0 : lt = 0 := by omega
    have hb := H.empty h0
    refine ⟨0, ?_, isspace_zero⟩
    have := H.term
    rwa [h0, hb] at this

/-- The function `trim` on a buffer of the shape `TrimInput`: it returns `str`, the buffer keeps
its length, holds the `lt` middle bytes followed by a terminator, is unchanged
beyond the old terminator, and only offsets from `0` to that of the old terminator
are accessed. -/
theorem trim_core (orig : List Nat) (k lt lb : Nat) (H : TrimInput orig k lt lb)
    (hmax : k + lt + lb ≤ UINT_MAX) (fuel : Nat) (hf : k + lt + lb + 1 < fuel) :
    ∃ G log, trim fuel orig = some (0, ⟨G, log⟩) ∧ G.length = orig.length ∧
      (∀ j, G[j]? = if j = lt then some 0 else if j < lt + lb + 1 then orig[k + j]? else orig[j]?) ∧
      ∀ x ∈ log, 0 ≤ x ∧ x ≤ ((k + lt + lb : Nat) : Int) := by
  have hnz := H.nonzero
  have hn := H.term
  have hnlen : k + lt + lb < orig.length := (List.getElem?_eq_some.mp hn).1
  -- the forward scan
  obtain ⟨log1, h1, hl1⟩ := trim_skip_spec orig k H.sp_a H.stop k 0 fuel [] (by omega) (by omega)
  -- the copy
  have h2 : ∃ F log2, (if (k : Int) ≠ 0 then trim_copy fuel ⟨orig, log1⟩ (k : Int) 0
        else some ⟨orig, log1⟩) = some ⟨F, log2⟩ ∧ F.length = orig.length ∧
      (∀ j, F[j]? = if j < lt + lb + 1 then orig[k + j]? else orig[j]?) ∧
      ∀ x ∈ log2, x ∈ log1 ∨ (0 ≤ x ∧ x ≤ ((k + lt + lb : Nat) : Int)) := by
    by_cases hk : k = 0
    · subst hk
      refine ⟨orig, log1, by simp, rfl, ?_, fun x hx => Or.inl hx⟩
      intro j
      simp
    · obtain ⟨F, log2, h, hlen, hF, hl⟩ := trim_copy_spec orig (k + lt + lb) k (by omega)
        (by omega) (by omega) hnz hn (lt + lb + 1) 0 fuel orig log1 (by omega) (by omega) rfl (by simp)
      refine ⟨F, log2, ?_, hlen, ?_, hl⟩
      · rw [if_pos (by exact_mod_cast hk)]
        exact h
      · intro j
        rw [hF j, show k + lt + lb - k + 1 = lt + lb + 1 by omega]
  obtain ⟨F, log2, h2, hFlen, hF, hl2⟩ := h2
  -- the length of what is left
  have h3 : Util.strlen (F.drop 0) = some (lt + lb) := by
    apply strlen_drop_of_getElem?
    · intro j hj
      rw [Nat.zero_add, hF, if_pos (by omega)]
      exact hnz _ (by omega)
    · rw [Nat.zero_add, hF, if_pos (by omega), ← Nat.add_assoc]
      exact hn
  have h3 := Mem.strlen_nat F log2 0 (lt + lb) h3
  -- the backward scan
  have h4 : ∃ G log4, (if (((lt + lb : Nat) : Int) - 1) > 0 then
        (trim_back fuel ⟨F, ((List.range (lt + lb + 1)).map
            (fun j : Nat => ((0 : Nat) : Int) + (j : Int))).reverse ++ log2⟩
          (((lt + lb : Nat) : Int) - 1)).bind (fun r => r.2.write (r.1 + 1) 0)
        else some ⟨F, ((List.range (lt + lb + 1)).map
            (fun j : Nat => ((0 : Nat) : Int) + (j : Int))).reverse ++ log2⟩) = some ⟨G, log4⟩ ∧
      G.length = orig.length ∧
      (∀ j, G[j]? = if j = lt then some 0 else F[j]?) ∧
      ∀ x ∈ log4, x ∈ log2 ∨ (0 ≤ x ∧ x ≤ ((k + lt + lb : Nat) : Int)) := by
    by_cases hm : 2 ≤ lt + lb
    · have hlt : 0 < lt := by
        by_contra h
        have := H.empty (by omega)
        omega
      obtain ⟨c, hc, hcs⟩ := H.last hlt
      have hj : ∃ c, F[lt - 1]? = some c ∧ isspace c = false := by
        refine ⟨c, ?_, hcs⟩
        rw [hF, if_pos (by omega), ← hc]
        congr 1
        omega
      obtain ⟨log4, hb, hl4⟩ := trim_back_spec F (lt - 1) hj lb (lt + lb - 1) fuel
        (((List.range (lt + lb + 1)).map
            (fun j : Nat => ((0 : Nat) : Int) + (j : Int))).reverse ++ log2)
        (by omega) (by omega)
        (by
          intro i hi1 hi2
          obtain ⟨c, hc, hcs⟩ := H.sp_b (i - lt) (by omega)
          refine ⟨c, ?_, hcs⟩
          rw [hF, if_pos (by omega), ← hc]
          congr 1
          omega)
      have hcast1 : (((lt + lb : Nat) : Int) - 1) = ((lt + lb - 1 : Nat) : Int) := by
        push_cast
        omega
      have hcast2 : (((lt - 1 : Nat) : Int) + 1) = ((lt : Nat) : Int) := by
        omega
      refine ⟨F.set lt 0, (lt : Int) :: log4, ?_, by simpa using hFlen, ?_, ?_⟩
      · rw [if_pos (by omega), hcast1, hb]
        simp only [Option.some_bind, hcast2]
        exact Mem.write_nat F log4 lt 0 (by omega)
      · intro j
        rw [List.getElem?_set]
        by_cases hj : lt = j
        · subst hj
          simp
          omega
        · rw [if_neg hj, if_neg (fun h => hj h.symm)]
      · intro x hx
        rcases List.mem_cons.mp hx with rfl | hx
        · exact Or.inr ⟨by omega, by push_cast; omega⟩
        rcases hl4 x hx with h | h
        · rcases mem_strlen_log 0 (lt + lb) log2 x h with h | h
          · exact Or.inl h
          · exact Or.inr ⟨h.1, by have := h.2; push_cast at this ⊢; omega⟩
        · exact Or.inr ⟨h.1, by have := h.2; push_cast at this ⊢; omega⟩
    · have hlb : lb = 0 := by
        by_contra h
        by_cases h0 : lt = 0
        · exact h (H.empty h0)
        · omega
      refine ⟨F, ((List.range (lt + lb + 1)).map
            (fun j : Nat => ((0 : Nat) : Int) + (j : Int))).reverse ++ log2, ?_, hFlen, ?_, ?_⟩
      · rw [if_neg (by omega)]
      · intro j
        by_cases hj : j = lt
        · subst hj
          rw [if_pos rfl, hF, if_pos (by omega)]
          have := hn
          rwa [hlb] at this
        · rw [if_neg hj]
      · intro x hx
        rcases mem_strlen_log 0 (lt + lb) log2 x hx with h | h
        · exact Or.inl h
        · exact Or.inr ⟨h.1, by have := h.2; push_cast at this ⊢; omega⟩
  obtain ⟨G, log4, h4, hGlen, hG, hl4⟩ := h4
  refine ⟨G, log4, ?_, hGlen, ?_, ?_⟩
  · have h1' : trim_skip fuel ⟨orig, []⟩ 0 = some ((k : Int), ⟨orig, log1⟩) := by
      simpa using h1
    have h3' : Mem.strlen ⟨F, log2⟩ 0 = some (lt + lb, ⟨F, ((List.range (lt + lb + 1)).map
            (fun j : Nat => ((0 : Nat) : Int) + (j : Int))).reverse ++ log2⟩) := by
      simpa using h3
    have hfin : ∀ y : Mem, y = ⟨F, log2⟩ →
        ((y.strlen 0).bind fun r =>
          if (r.1 : Int) - 1 > 0 then
            (trim_back fuel r.2 ((r.1 : Int) - 1)).bind fun r =>
              (r.2.write (r.1 + 1) 0).bind fun y => some ((0 : Int), y)
          else some ((0 : Int), r.2)) = some (0, ⟨G, log4⟩) := by
      intro y hy
      subst hy
      rw [h3']
      simp only [Option.some_bind]
      by_cases hc : (((lt + lb : Nat) : Int) - 1) > 0
      · rw [if_pos hc] at h4 ⊢
        cases hb : trim_back fuel ⟨F, ((List.range (lt + lb + 1)).map
            (fun j : Nat => ((0 : Nat) : Int) + (j : Int))).reverse ++ log2⟩
            (((lt + lb : Nat) : Int) - 1) with
        | none =>
          rw [hb] at h4
          simp at h4
        | some r =>
          rw [hb] at h4
          simp only [Option.some_bind] at h4 ⊢
          rw [h4]
          rfl
      · rw [if_neg hc] at h4 ⊢
        cases h4
        rfl
    simp only [trim, h1', Option.bind_eq_bind, Option.some_bind]
    by_cases hk : (k : Int) ≠ 0
    · rw [if_pos hk] at h2 ⊢
      rw [h2]
      exact hfin _ rfl
    · rw [if_neg hk] at h2 ⊢
      cases h2
      exact hfin _ rfl
  · intro j
    rw [hG j, hF j]
  · intro x hx
    rcases hl4 x hx with h | h
    · rcases hl2 x h with h | h
      · rcases hl1 x h with h | h
        · simp at h
        · exact ⟨h.1, by have := h.2; push_cast at this ⊢; omega⟩
      · exact h
    · exact h

theorem getElem?_append_add (l1 l2 : List Nat) (j : Nat) :
    (l1 ++ l2)[l1.length + j]? = l2[j]? := by
  rw [List.getElem?_append_right (Nat.le_add_right _ _), Nat.add_sub_cancel_left]

theorem rdropWhile_append_rtakeWhile (p : Nat → Bool) (l : List Nat) :
    l.rdropWhile p ++ l.rtakeWhile p = l := by
  have h := List.takeWhile_append_dropWhile p l.reverse
  unfold List.rdropWhile List.rtakeWhile
  rw [← List.reverse_append, h, List.reverse_reverse]

/-- A string written as white space, a middle part and white space, followed by its
terminator, has the shape `TrimInput`. -/
theorem trimInput_of_parts (a t b rest : List Nat)
    (ha : ∀ c ∈ a, isspace c = true) (hb : ∀ c ∈ b, isspace c = true) (ht0 : 0 ∉ t)
    (hhead : ∀ c, t.head? = some c → isspace c = false)
    (hlast : ∀ c, t.getLast? = some c → isspace c = false)
    (hemp : t = [] → b = []) :
    TrimInput (a ++ (t ++ (b ++ 0 :: rest))) a.length t.length b.length where
  sp_a := by
    intro i hi
    refine ⟨a[i], ?_, ha _ (List.getElem_mem hi)⟩
    rw [List.getElem?_append_left hi]
    exact List.getElem?_eq_getElem hi
  nz_t := by
    intro i hi
    refine ⟨t[i], ?_, fun h => ht0 (h ▸ List.getElem_mem hi)⟩
    rw [getElem?_append_add, List.getElem?_append_left hi]
    exact List.getElem?_eq_getElem hi
  sp_b := by
    intro i hi
    refine ⟨b[i], ?_, hb _ (List.getElem_mem hi)⟩
    rw [Nat.add_assoc, getElem?_append_add, getElem?_append_add, List.getElem?_append_left hi]
    exact List.getElem?_eq_getElem hi
  term := by
    rw [Nat.add_assoc, getElem?_append_add, getElem?_append_add]
    have := getElem?_append_add b (0 :: rest) 0
    simpa using this
  head := by
    intro hlt
    refine ⟨t[0], ?_, hhead _ (by rw [List.head?_eq_getElem?]; exact List.getElem?_eq_getElem hlt)⟩
    have := getElem?_append_add a (t ++ (b ++ 0 :: rest)) 0
    rw [Nat.add_zero] at this
    rw [this, List.getElem?_append_left hlt]
    exact List.getElem?_eq_getElem hlt
  last := by
    intro hlt
    have hl : t.length - 1 < t.length := by omega
    refine ⟨t[t.length - 1], ?_, hlast _ (by
      rw [List.getLast?_eq_getElem?]; exact List.getElem?_eq_getElem hl)⟩
    rw [show a.length + t.length - 1 = a.length + (t.length - 1) by omega,
      getElem?_append_add, List.getElem?_append_left hl]
    exact List.getElem?_eq_getElem hl
  empty := by
    intro h
    have := hemp (List.length_eq_zero.mp h)
    simp [this]

/-- The parts of a string that `trim` tells apart. -/
theorem trim_parts (s : List Nat) :
    ∃ a b, s = a ++ (trimmed s ++ b) ∧ (∀ c ∈ a, isspace c = true) ∧
      (∀ c ∈ b, isspace c = true) ∧
      (∀ c, (trimmed s).head? = some c → isspace c = false) ∧
      (∀ c, (trimmed s).getLast? = some c → isspace c = false) ∧
      (trimmed s = [] → b = []) := by
  have hsplit := rdropWhile_append_rtakeWhile isspace (s.dropWhile isspace)
  have hhd := List.head?_dropWhile_not isspace s
  refine ⟨s.takeWhile isspace, (s.dropWhile isspace).rtakeWhile isspace, ?_, ?_, ?_, ?_, ?_, ?_⟩
  · unfold trimmed
    rw [hsplit, List.takeWhile_append_dropWhile]
  · intro c hc
    exact List.mem_takeWhile_imp hc
  · intro c hc
    exact List.mem_rtakeWhile_imp hc
  · intro c hc
    have hne : trimmed s ≠ [] := by
      intro h
      rw [h] at hc
      simp at hc
    have : (s.dropWhile isspace).head? = some c := by
      rw [← hsplit]
      unfold trimmed at hc hne
      rw [List.head?_append_of_ne_nil _ hne]
      exact hc
    rw [this] at hhd
    exact hhd
  · intro c hc
    have hne : trimmed s ≠ [] := by
      intro h
      rw [h] at hc
      simp at hc
    have h1 := List.rdropWhile_last_not isspace (s.dropWhile isspace) hne
    have h2 : (trimmed s).getLast? = some ((trimmed s).getLast hne) :=
      List.getLast?_eq_getLast _ hne
    rw [h2] at hc
    cases hc
    simpa using h1
  · intro h
    unfold trimmed at h
    have hall := List.rdropWhile_eq_nil_iff.mp h
    have hnil : s.dropWhile isspace = [] := by
      cases hd : s.dropWhile isspace with
      | nil => rfl
      | cons x xs =>
        rw [hd] at hhd hall
        have h1 : isspace x = false := by simpa using hhd
        have h2 : isspace x = true := hall x (by simp)
        rw [h1] at h2
        cases h2
    rw [hnil]
    simp

theorem trimmed_subset (s : List Nat) : ∀ c ∈ trimmed s, c ∈ s := by
  intro c hc
  unfold trimmed at hc
  exact (List.dropWhile_sublist isspace).subset ((List.rdropWhile_prefix isspace _).subset hc)

/-- The function `trim` on a buffer that holds the string `s` (no zero byte in `s`), its terminator
and any bytes `rest` after it. -/
theorem trim_spec (s rest : List Nat) (hs : 0 ∉ s) (hmax : s.length ≤ UINT_MAX) (fuel : Nat)
    (hf : s.length + 1 < fuel) :
    ∃ M rest', trim fuel (s ++ 0 :: rest) = some (0, M) ∧
      M.buf = trimmed s ++ 0 :: rest' ∧
      M.buf.length = (s ++ 0 :: rest).length ∧
      M.buf.drop (s.length + 1) = rest ∧
      ∀ x ∈ M.log, 0 ≤ x ∧ x ≤ (s.length : Int) := by
  obtain ⟨a, b, hsplit, ha, hb, hhead, hlast, hemp⟩ := trim_parts s
  have ht0 : 0 ∉ trimmed s := fun h => hs (trimmed_subset s 0 h)
  generalize trimmed s = t at hsplit hhead hlast hemp ht0 ⊢
  subst hsplit
  have H := trimInput_of_parts a t b rest ha hb ht0 hhead hlast hemp
  have hlen : (a ++ (t ++ b)).length = a.length + t.length + b.length := by
    simp [Nat.add_assoc]
  have horig : (a ++ (t ++ b)) ++ 0 :: rest = a ++ (t ++ (b ++ 0 :: rest)) := by
    simp [List.append_assoc]
  obtain ⟨G, log, hG1, hG2, hG3, hG4⟩ := trim_core _ _ _ _ H (by omega) fuel (by omega)
  have hGt : G[t.length]? = some 0 := by rw [hG3, if_pos rfl]
  have hGlt : t.length < G.length := (List.getElem?_eq_some.mp hGt).1
  have hG0 : G[t.length] = 0 := (List.getElem?_eq_some.mp hGt).2
  have htake : G.take t.length = t := by
    apply List.ext_getElem?
    intro j
    rw [List.getElem?_take]
    by_cases hj : j < t.length
    · rw [if_pos hj, hG3, if_neg (by omega), if_pos (by omega), getElem?_append_add,
        List.getElem?_append_left hj]
    · rw [if_neg hj, List.getElem?_eq_none (by omega)]
  refine ⟨⟨G, log⟩, G.drop (t.length + 1), ?_, ?_, ?_, ?_, ?_⟩
  · rw [horig]
    exact hG1
  · show G = t ++ 0 :: G.drop (t.length + 1)
    rw [← hG0, ← List.drop_eq_getElem_cons hGlt]
    conv_lhs => rw [← List.take_append_drop t.length G]
    rw [htake]
  · rw [horig]
    exact hG2
  · show G.drop ((a ++ (t ++ b)).length + 1) = rest
    apply List.ext_getElem?
    intro j
    rw [List.getElem?_drop, hG3, if_neg (by omega), if_neg (by omega), hlen,
      show a.length + t.length + b.length + 1 + j
        = a.length + (t.length + (b.length + (j + 1))) by omega,
      getElem?_append_add, getElem?_append_add, getElem?_append_add]
    simp
  · intro x hx
    rw [hlen]
    exact hG4 x hx

/-! ## Facts about lists in the heap -/

theorem heap_set_same (h : Nat → Option list_node_t) (a : Nat) (v : Option list_node_t) :
    heap_set h a v a = v := by
  simp [heap_set]

theorem heap_set_other (h : Nat → Option list_node_t) (a b : Nat) (v : Option list_node_t)
    (hb : b ≠ a) : heap_set h a v b = h b := by
  simp [heap_set, hb]

theorem isList_nil (h : Nat → Option list_node_t) (p prev : Option Nat) :
    IsList h p prev [] ↔ p = none := by
  simp [IsList]

theorem isList_cons (h : Nat → Option list_node_t) (p prev : Option Nat) (a d : Nat)
    (l : List (Nat × Nat)) :
    IsList h p prev ((a, d) :: l) ↔
      p = some a ∧ ∃ n, h a = some n ∧ n.data = d ∧ n.prev = prev ∧
        IsList h n.next (some a) l := by
  cases hn : h a with
  | none => simp [IsList, hn]
  | some n => simp [IsList, hn]

theorem isSeg_nil (h : Nat → Option list_node_t) (p prev q last : Option Nat) :
    IsSeg h p prev [] q last ↔ p = q ∧ prev = last := by
  simp [IsSeg]

theorem isSeg_cons (h : Nat → Option list_node_t) (p prev q last : Option Nat) (a d : Nat)
    (l : List (Nat × Nat)) :
    IsSeg h p prev ((a, d) :: l) q last ↔
      p = some a ∧ ∃ n, h a = some n ∧ n.data = d ∧ n.prev = prev ∧
        IsSeg h n.next (some a) l q last := by
  cases hn : h a with
  | none => simp [IsSeg, hn]
  | some n => simp [IsSeg, hn]

/-- A list is a segment followed by a list. -/
theorem isList_append (h : Nat → Option list_node_t) (l1 l2 : List (Nat × Nat))
    (p prev : Option Nat) :
    IsList h p prev (l1 ++ l2) ↔ ∃ q last, IsSeg h p prev l1 q last ∧ IsList h q last l2 := by
  induction l1 generalizing p prev with
  | nil =>
    constructor
    · intro hl
      exact ⟨p, prev, (isSeg_nil _ _ _ _ _).mpr ⟨rfl, rfl⟩, hl⟩
    · rintro ⟨q, last, hseg, hl⟩
      obtain ⟨rfl, rfl⟩ := (isSeg_nil _ _ _ _ _).mp hseg
      exact hl
  | cons x l1 ih =>
    obtain ⟨a, d⟩ := x
    constructor
    · intro hl
      obtain ⟨hp, n, hn, hd, hpr, htl⟩ := (isList_cons _ _ _ _ _ _).mp hl
      obtain ⟨q, last, hseg, hl2⟩ := (ih _ _).mp htl
      exact ⟨q, last, (isSeg_cons _ _ _ _ _ _ _ _).mpr ⟨hp, n, hn, hd, hpr, hseg⟩, hl2⟩
    · rintro ⟨q, last, hseg, hl2⟩
      obtain ⟨hp, n, hn, hd, hpr, htl⟩ := (isSeg_cons _ _ _ _ _ _ _ _).mp hseg
      exact (isList_cons _ _ _ _ _ _).mpr ⟨hp, n, hn, hd, hpr, (ih _ _).mpr ⟨q, last, htl, hl2⟩⟩

/-- Every node of a list is allocated. -/
theorem isList_allocated (h : Nat → Option list_node_t) (l : List (Nat × Nat))
    (p prev : Option Nat) (hl : IsList h p prev l) :
    ∀ a ∈ l.map Prod.fst, ∃ n, h a = some n := by
  induction l generalizing p prev with
  | nil => intro a ha; simp at ha
  | cons x l ih =>
    obtain ⟨a, d⟩ := x
    obtain ⟨_, n, hn, _, _, htl⟩ := (isList_cons _ _ _ _ _ _).mp hl
    intro b hb
    rcases List.mem_cons.mp hb with rfl | hb
    · exact ⟨n, hn⟩
    · exact ih _ _ htl b hb

/-- The heap and the pointer determine the list. -/
theorem isList_unique (h : Nat → Option list_node_t) (l l' : List (Nat × Nat))
    (p prev prev' : Option Nat) (hl : IsList h p prev l) (hl' : IsList h p prev' l') :
    l = l' := by
  induction l generalizing p prev prev' l' with
  | nil =>
    have hp := (isList_nil _ _ _).mp hl
    cases l' with
    | nil => rfl
    | cons x l' =>
      obtain ⟨a, d⟩ := x
      obtain ⟨hp', _⟩ := (isList_cons _ _ _ _ _ _).mp hl'
      rw [hp] at hp'
      cases hp'
  | cons x l ih =>
    obtain ⟨a, d⟩ := x
    obtain ⟨hp, n, hn, hd, _, htl⟩ := (isList_cons _ _ _ _ _ _).mp hl
    cases l' with
    | nil =>
      have hp' := (isList_nil _ _ _).mp hl'
      rw [hp] at hp'
      cases hp'
    | cons x' l' =>
      obtain ⟨a', d'⟩ := x'
      obtain ⟨hp', n', hn', hd', _, htl'⟩ := (isList_cons _ _ _ _ _ _).mp hl'
      rw [hp] at hp'
      cases hp'
      rw [hn] at hn'
      cases hn'
      rw [← hd, ← hd', ih _ _ _ _ htl htl']

/-- No node occurs twice in a list. -/
theorem isList_nodup (h : Nat → Option list_node_t) (l : List (Nat × Nat))
    (p prev : Option Nat) (hl : IsList h p prev l) : (l.map Prod.fst).Nodup := by
  induction l generalizing p prev with
  | nil => simp
  | cons x l ih =>
    obtain ⟨a, d⟩ := x
    obtain ⟨hp, n, hn, hd, hpr, htl⟩ := (isList_cons _ _ _ _ _ _).mp hl
    rw [List.map_cons, List.nodup_cons]
    refine ⟨?_, ih _ _ htl⟩
    intro hmem
    obtain ⟨⟨a', d'⟩, hx, ha'⟩ := List.mem_map.mp hmem
    simp only at ha'
    subst ha'
    obtain ⟨l1, l2, rfl⟩ := List.append_of_mem hx
    obtain ⟨q, last, _, hl2⟩ := (isList_append _ _ _ _ _).mp htl
    obtain ⟨hq, _⟩ := (isList_cons _ _ _ _ _ _).mp hl2
    subst hq
    subst hp
    have := isList_unique _ _ _ _ _ _ hl hl2
    have hlen := congrArg List.length this
    simp at hlen
    omega

/-- A list is still a list in a heap that agrees on its nodes. -/
theorem isList_frame (h h' : Nat → Option list_node_t) (l : List (Nat × Nat))
    (p prev : Option Nat) (hl : IsList h p prev l)
    (hh : ∀ a ∈ l.map Prod.fst, h' a = h a) : IsList h' p prev l := by
  induction l generalizing p prev with
  | nil => exact (isList_nil _ _ _).mpr ((isList_nil _ _ _).mp hl)
  | cons x l ih =>
    obtain ⟨a, d⟩ := x
    obtain ⟨hp, n, hn, hd, hpr, htl⟩ := (isList_cons _ _ _ _ _ _).mp hl
    refine (isList_cons _ _ _ _ _ _).mpr ⟨hp, n, ?_, hd, hpr, ?_⟩
    · rw [hh a (by simp)]
      exact hn
    · exact ih _ _ htl (fun b hb => hh b (by simp [List.mem_map] at hb ⊢; exact Or.inr hb))

/-- A segment is still a segment in a heap that agrees on its nodes. -/
theorem isSeg_frame (h h' : Nat → Option list_node_t) (l : List (Nat × Nat))
    (p prev q last : Option Nat) (hl : IsSeg h p prev l q last)
    (hh : ∀ a ∈ l.map Prod.fst, h' a = h a) : IsSeg h' p prev l q last := by
  induction l generalizing p prev with
  | nil => exact (isSeg_nil _ _ _ _ _).mpr ((isSeg_nil _ _ _ _ _).mp hl)
  | cons x l ih =>
    obtain ⟨a, d⟩ := x
    obtain ⟨hp, n, hn, hd, hpr, htl⟩ := (isSeg_cons _ _ _ _ _ _ _ _).mp hl
    refine (isSeg_cons _ _ _ _ _ _ _ _).mpr ⟨hp, n, ?_, hd, hpr, ?_⟩
    · rw [hh a (by simp)]
      exact hn
    · exact ih _ _ htl (fun b hb => hh b (by simp [List.mem_map] at hb ⊢; exact Or.inr hb))

theorem isList_head (h : Nat → Option list_node_t) (l : List (Nat × Nat)) (p prev : Option Nat)
    (hl : IsList h p prev l) (hne : l ≠ []) : ∃ f, p = some f ∧ l.head? = some (f, (l.head hne).2) := by
  cases l with
  | nil => exact absurd rfl hne
  | cons x l =>
    obtain ⟨a, d⟩ := x
    obtain ⟨hp, _⟩ := (isList_cons _ _ _ _ _ _).mp hl
    exact ⟨a, hp, rfl⟩

/-- The effect of `list_prepend` when `malloc` returns the fresh address `a`. -/
theorem list_prepend_spec (s : ListState) (l : List (Nat × Nat)) (d a : Nat) (junk : list_node_t)
    (hl : IsList s.heap s.head none l) (ha : s.heap a = none) :
    ∃ s', list_prepend s d (some a) junk = some (some a, s') ∧ s'.head = some a ∧
      s'.freed = s.freed ∧ s'.heap a = some ⟨d, none, s.head⟩ ∧
      (∀ b, b ≠ a → s'.heap b =
        if some b = s.head then (s.heap b).map (fun n => { n with prev := some a })
        else s.heap b) ∧
      IsList s'.heap s'.head none ((a, d) :: l) := by
  have hcore : ∃ s', list_prepend s d (some a) junk = some (some a, s') ∧ s'.head = some a ∧
      s'.freed = s.freed ∧ s'.heap a = some ⟨d, none, s.head⟩ ∧
      (∀ b, b ≠ a → s'.heap b =
        if some b = s.head then (s.heap b).map (fun n => { n with prev := some a })
        else s.heap b) := by
    obtain ⟨h, head, fr⟩ := s
    simp only at hl ha ⊢
    cases l with
    | nil =>
      have hp := (isList_nil _ _ _).mp hl
      subst hp
      simp only [list_prepend, list_empty, malloc, set_data, set_prev, set_next, heap_set_same,
        Option.isNone_none, if_true, Option.bind_eq_bind, Option.some_bind]
      refine ⟨_, rfl, rfl, rfl, by simp [heap_set], ?_⟩
      intro b hb
      simp [heap_set, hb]
    | cons x l =>
      obtain ⟨f, df⟩ := x
      obtain ⟨hp, n, hn, hd, hpr, htl⟩ := (isList_cons _ _ _ _ _ _).mp hl
      subst hp
      have hfa : f ≠ a := by
        rintro rfl
        rw [ha] at hn
        cases hn
      simp only [list_prepend, list_empty, malloc, set_data, set_prev, set_next, heap_set_same,
        heap_set_other _ _ _ _ hfa, heap_set_other _ _ _ _ (Ne.symm hfa), hn,
        Option.isNone_some, Option.bind_eq_bind, Option.some_bind, Bool.false_eq_true, if_false]
      refine ⟨_, rfl, rfl, rfl, by simp [heap_set], ?_⟩
      intro b hb
      by_cases hbf : b = f
      · subst hbf
        simp [heap_set, hb, hn]
      · have : ¬ (some b = some f) := by simpa using hbf
        simp [heap_set, hb, hbf]
  obtain ⟨s', h1, h2, h3, h4, h5⟩ := hcore
  refine ⟨s', h1, h2, h3, h4, h5, ?_⟩
  rw [h2]
  refine (isList_cons _ _ _ _ _ _).mpr ⟨rfl, _, h4, rfl, rfl, ?_⟩
  show IsList s'.heap s.head (some a) l
  have hnd := isList_nodup _ _ _ _ hl
  have hal := isList_allocated _ _ _ _ hl
  cases l with
  | nil => exact (isList_nil _ _ _).mpr ((isList_nil _ _ _).mp hl)
  | cons x l =>
    obtain ⟨f, df⟩ := x
    obtain ⟨hp, n, hn, hd, hpr, htl⟩ := (isList_cons _ _ _ _ _ _).mp hl
    have hfa : f ≠ a := by
      rintro rfl
      rw [ha] at hn
      cases hn
    rw [List.map_cons, List.nodup_cons] at hnd
    refine (isList_cons _ _ _ _ _ _).mpr ⟨hp, { n with prev := some a }, ?_, hd, rfl, ?_⟩
    · rw [h5 f hfa, if_pos hp.symm, hn]
      rfl
    · apply isList_frame _ _ _ _ _ htl
      intro b hb
      have hba : b ≠ a := by
        rintro rfl
        obtain ⟨nb, hnb⟩ := hal b (by simp [hb])
        rw [ha] at hnb
        cases hnb
      have hbf : b ≠ f := by
        rintro rfl
        exact hnd.1 hb
      rw [h5 b hba, if_neg]
      rw [hp]
      simpa using hbf

/-- The loop of `list_append` walks to the last node. -/
theorem list_append_loop_spec (h : Nat → Option list_node_t) (l1 : List (Nat × Nat))
    (z dz : Nat) (p prev : Option Nat) (fuel : Nat)
    (hl : IsList h p prev (l1 ++ [(z, dz)])) (hf : l1.length < fuel) :
    list_append_loop h fuel p = some (some z) := by
  induction l1 generalizing p prev fuel with
  | nil =>
    obtain ⟨f, rfl⟩ : ∃ f, fuel = f + 1 := ⟨fuel - 1, by omega⟩
    obtain ⟨hp, n, hn, _, _, htl⟩ := (isList_cons _ _ _ _ _ _).mp hl
    have hnext := (isList_nil _ _ _).mp htl
    subst hp
    simp [list_append_loop, load, hn, hnext]
  | cons x l1 ih =>
    obtain ⟨a, d⟩ := x
    obtain ⟨f, rfl⟩ : ∃ f, fuel = f + 1 := ⟨fuel - 1, by omega⟩
    obtain ⟨hp, n, hn, _, _, htl⟩ := (isList_cons _ _ _ _ _ _).mp hl
    obtain ⟨y, hy, _⟩ := isList_head _ _ _ _ htl (by simp)
    subst hp
    have := ih _ _ f htl (by simpa using hf)
    simp [list_append_loop, load, hn, hy]
    rw [← hy]
    exact this

/-- The effect of `list_append` when `malloc` returns the fresh address `a`. -/
theorem list_append_spec (fuel : Nat) (s : ListState) (l : List (Nat × Nat)) (d a : Nat)
    (junk : list_node_t) (hl : IsList s.heap s.head none l) (ha : s.heap a = none)
    (hf : l.length ≤ fuel) :
    ∃ s', list_append fuel s d (some a) junk = some (some a, s') ∧
      s'.head = (if l = [] then some a else s.head) ∧
      s'.freed = s.freed ∧
      s'.heap a = some ⟨d, l.getLast?.map Prod.fst, none⟩ ∧
      (∀ b, b ≠ a → s'.heap b =
        if some b = l.getLast?.map Prod.fst then (s.heap b).map (fun n => { n with next := some a })
        else s.heap b) ∧
      IsList s'.heap s'.head none (l ++ [(a, d)]) := by
  obtain ⟨h, head, fr⟩ := s
  simp only at hl ha ⊢
  rcases l.eq_nil_or_concat with rfl | ⟨l1, ⟨z, dz⟩, hcc⟩
  · have hp := (isList_nil _ _ _).mp hl
    subst hp
    simp only [list_append, list_empty, malloc, set_data, set_prev, set_next, heap_set_same,
      Option.isNone_none, if_true, Option.bind_eq_bind, Option.some_bind]
    refine ⟨_, rfl, rfl, rfl, by simp [heap_set], ?_, ?_⟩
    · intro b hb
      simp [heap_set, hb]
    · simp [IsList, heap_set]
  · rw [List.concat_eq_append] at hcc
    subst hcc
    obtain ⟨f, hf1, _⟩ := isList_head _ _ _ _ hl (by simp)
    obtain ⟨q, last, hseg, hz⟩ := (isList_append _ _ _ _ _).mp hl
    obtain ⟨hq, nz, hnz, hdz, hprz, hnil⟩ := (isList_cons _ _ _ _ _ _).mp hz
    have hnext := (isList_nil _ _ _).mp hnil
    have hza : z ≠ a := by
      rintro rfl
      rw [ha] at hnz
      cases hnz
    have hloop := list_append_loop_spec h l1 z dz head none fuel hl (by simpa using hf)
    have hnd := isList_nodup _ _ _ _ hl
    have hal := isList_allocated _ _ _ _ hl
    subst hf1
    simp only [list_append, list_empty, hloop, malloc, set_data, set_prev, set_next, heap_set_same,
      heap_set_other _ _ _ _ hza, heap_set_other _ _ _ _ (Ne.symm hza), hnz,
      Option.isNone_some, Option.bind_eq_bind, Option.some_bind, Bool.false_eq_true, if_false]
    refine ⟨_, rfl, by simp, rfl, by simp [heap_set], ?_, ?_⟩
    · intro b hb
      by_cases hbz : b = z
      · subst hbz
        simp [heap_set, hb, hnz]
      · simp [heap_set, hb, hbz]
    · simp only
      rw [List.append_assoc]
      refine (isList_append _ _ _ _ _).mpr ⟨q, last, ?_, ?_⟩
      · apply isSeg_frame _ _ _ _ _ _ _ hseg
        intro b hb
        have hba : b ≠ a := by
          rintro rfl
          obtain ⟨nb, hnb⟩ := hal b (by simp [hb])
          rw [ha] at hnb
          cases hnb
        have hbz : b ≠ z := by
          rintro rfl
          rw [List.map_append, List.nodup_append] at hnd
          exact hnd.2.2 hb (by simp)
        simp [heap_set, hba, hbz]
      · subst hq
        simp [IsList, heap_set, hza, Ne.symm hza, hdz, hprz]
/-- The effect of `list_node_delete` on a node of the list. -/
theorem list_node_delete_spec (s : ListState) (l1 l2 : List (Nat × Nat)) (n dn : Nat)
    (hl : IsList s.heap s.head none (l1 ++ (n, dn) :: l2)) :
    ∃ s', list_node_delete s (some n) = some s' ∧
      s'.head = (if l1 = [] then l2.head?.map Prod.fst else s.head) ∧
      s'.freed = n :: s.freed ∧
      s'.heap n = none ∧
      (∀ b, b ≠ n → s'.heap b =
        if some b = l1.getLast?.map Prod.fst then
          (s.heap b).map (fun m => { m with next := l2.head?.map Prod.fst })
        else if some b = l2.head?.map Prod.fst then
          (s.heap b).map (fun m => { m with prev := l1.getLast?.map Prod.fst })
        else s.heap b) ∧
      IsList s'.heap s'.head none (l1 ++ l2) := by
  obtain ⟨h, head, fr⟩ := s
  simp only at hl ⊢
  have hnd := isList_nodup _ _ _ _ hl
  obtain ⟨f, hf1, _⟩ := isList_head _ _ _ _ hl (by simp)
  rcases l1.eq_nil_or_concat with rfl | ⟨l0, ⟨z, dz⟩, hcc⟩
  · -- the node is the first one
    obtain ⟨hp, nn, hnn, hdn, hprn, htl⟩ := (isList_cons _ _ _ _ _ _).mp hl
    subst hp
    cases l2 with
    | nil =>
      have hnext := (isList_nil _ _ _).mp htl
      simp only [list_node_delete, load, hnn, hprn, hnext, free, heap_set_same,
        Option.bind_eq_bind, Option.some_bind]
      simp only [reduceCtorEq, or_self, if_false, ne_eq, not_true_eq_false, Option.some_bind, hnn]
      refine ⟨_, rfl, by simp, rfl, by simp [heap_set], ?_, ?_⟩
      · intro b hb
        simp [heap_set, hb]
      · simp [IsList]
    | cons y l2 =>
      obtain ⟨y, dy⟩ := y
      obtain ⟨hq, ny, hny, hdy, hpry, htl2⟩ := (isList_cons _ _ _ _ _ _).mp htl
      have hyn : y ≠ n := by
        rintro rfl
        simp at hnd
      have hnd2 : y ∉ l2.map Prod.fst := by
        simp only [List.nil_append, List.map_cons, List.nodup_cons] at hnd
        exact hnd.2.1
      have hnd3 : n ∉ l2.map Prod.fst := by
        simp only [List.nil_append, List.map_cons, List.nodup_cons, List.mem_cons] at hnd
        exact fun hm => hnd.1 (Or.inr hm)
      simp only [list_node_delete, load, hnn, hprn, hq, free, set_prev, heap_set_same, hny,
        heap_set_other _ _ _ _ hyn, heap_set_other _ _ _ _ (Ne.symm hyn),
        Option.bind_eq_bind, Option.some_bind]
      simp only [reduceCtorEq, or_self, if_false, ne_eq, not_true_eq_false, Option.some_bind, hnn,
        hq, not_false_eq_true, if_true, hny, heap_set_other _ _ _ _ (Ne.symm hyn)]
      refine ⟨_, rfl, by simp, rfl, by simp [heap_set], ?_, ?_⟩
      · intro b hb
        by_cases hby : b = y
        · subst hby
          simp [heap_set, hb, hny]
        · simp [heap_set, hb, hby]
      · simp only [List.nil_append, if_true, List.head?_cons, Option.map_some']
        refine (isList_cons _ _ _ _ _ _).mpr ⟨rfl, { ny with prev := none }, ?_, hdy, rfl, ?_⟩
        · simp [heap_set, hyn]
        · apply isList_frame _ _ _ _ _ htl2
          intro b hb
          have hb1 : b ≠ y := fun e => hnd2 (e ▸ hb)
          have hb2 : b ≠ n := fun e => hnd3 (e ▸ hb)
          simp [heap_set, hb1, hb2]
  · -- the node has a predecessor `z`
    rw [List.concat_eq_append] at hcc
    subst hcc
    simp only [List.append_assoc, List.singleton_append] at hl hnd
    obtain ⟨q, last, hseg, hz⟩ := (isList_append _ _ _ _ _).mp hl
    obtain ⟨hq, nz, hnz, hdz, hprz, hzn⟩ := (isList_cons _ _ _ _ _ _).mp hz
    obtain ⟨hzn1, nn, hnn, hdn, hprn, htl⟩ := (isList_cons _ _ _ _ _ _).mp hzn
    rw [List.map_append, List.nodup_append] at hnd
    obtain ⟨_, hnd2, hdisj⟩ := hnd
    have hzn2 : z ≠ n := by
      rintro rfl
      simp at hnd2
    have hl0 : ∀ b ∈ l0.map Prod.fst, b ≠ z ∧ b ≠ n ∧ b ∉ l2.map Prod.fst := by
      intro b hb
      refine ⟨?_, ?_, ?_⟩
      · rintro rfl
        exact hdisj hb (by simp)
      · rintro rfl
        exact hdisj hb (by simp)
      · intro hm
        exact hdisj hb (by simp only [List.map_cons, List.mem_cons]; exact Or.inr (Or.inr hm))
    subst hf1
    subst hq
    cases l2 with
    | nil =>
      have hnext := (isList_nil _ _ _).mp htl
      simp only [list_node_delete, load, hnn, hprn, hnext, free, set_next, heap_set_same, hnz,
        heap_set_other _ _ _ _ hzn2, heap_set_other _ _ _ _ (Ne.symm hzn2),
        Option.bind_eq_bind, Option.some_bind]
      simp only [reduceCtorEq, or_self, if_false, ne_eq, not_true_eq_false, Option.some_bind, hnn,
        not_false_eq_true, if_true, heap_set_other _ _ _ _ (Ne.symm hzn2)]
      refine ⟨_, rfl, by simp, rfl, by simp [heap_set], ?_, ?_⟩
      · intro b hb
        by_cases hbz : b = z
        · subst hbz
          simp [heap_set, hb, hnz]
        · simp [heap_set, hb, hbz]
      · simp only [List.append_nil]
        refine (isList_append _ _ _ _ _).mpr ⟨some z, last, ?_, ?_⟩
        · apply isSeg_frame _ _ _ _ _ _ _ hseg
          intro b hb
          obtain ⟨h1, h2, _⟩ := hl0 b hb
          simp [heap_set, h1, h2]
        · simp [IsList, heap_set, hzn2, hdz, hprz]
    | cons y l2 =>
      obtain ⟨y, dy⟩ := y
      obtain ⟨hq, ny, hny, hdy, hpry, htl2⟩ := (isList_cons _ _ _ _ _ _).mp htl
      simp only [List.map_cons, List.nodup_cons, List.mem_cons, List.mem_map, not_or] at hnd2
      have hyn : y ≠ n := fun e => hnd2.2.1.1 e.symm
      have hyz : y ≠ z := fun e => hnd2.1.2.1 e.symm
      have hy2 : y ∉ l2.map Prod.fst := by
        simpa [List.mem_map] using hnd2.2.2.1
      have hn2 : n ∉ l2.map Prod.fst := by
        simpa [List.mem_map] using hnd2.2.1.2
      have hz2 : z ∉ l2.map Prod.fst := by
        simpa [List.mem_map] using hnd2.1.2.2
      simp only [list_node_delete, load, hnn, hprn, hq, free, set_next, set_prev, heap_set_same,
        hnz, hny, heap_set_other _ _ _ _ hzn2, heap_set_other _ _ _ _ (Ne.symm hzn2),
        heap_set_other _ _ _ _ hyn, heap_set_other _ _ _ _ (Ne.symm hyn),
        heap_set_other _ _ _ _ hyz, heap_set_other _ _ _ _ (Ne.symm hyz),
        Option.bind_eq_bind, Option.some_bind]
      simp only [reduceCtorEq, or_self, if_false, ne_eq, not_true_eq_false, Option.some_bind, hnn,
        not_false_eq_true, if_true, hny, heap_set_other _ _ _ _ (Ne.symm hzn2),
        heap_set_other _ _ _ _ hyz, heap_set_other _ _ _ _ (Ne.symm hyn)]
      refine ⟨_, rfl, by simp, rfl, by simp [heap_set], ?_, ?_⟩
      · intro b hb
        by_cases hbz : b = z
        · subst hbz
          simp [heap_set, hb, hnz, Ne.symm hyz]
        · by_cases hby : b = y
          · subst hby
            simp [heap_set, hb, hbz, hny]
          · simp [heap_set, hb, hbz, hby]
      · simp only
        rw [List.append_assoc]
        refine (isList_append _ _ _ _ _).mpr ⟨some z, last, ?_, ?_⟩
        · apply isSeg_frame _ _ _ _ _ _ _ hseg
          intro b hb
          obtain ⟨h1, h2, h3⟩ := hl0 b hb
          have h4 : b ≠ y := by
            rintro rfl
            exact h3 (by simp)
          simp [heap_set, h1, h2, h4]
        · refine (isList_cons _ _ _ _ _ _).mpr ⟨rfl, { nz with next := some y }, ?_, hdz, hprz, ?_⟩
          · simp [heap_set, hzn2, Ne.symm hyz, hq]
          · refine (isList_cons _ _ _ _ _ _).mpr ⟨rfl, { ny with prev := some z }, ?_, hdy, rfl, ?_⟩
            · simp [heap_set, hyn]
            · apply isList_frame _ _ _ _ _ htl2
              intro b hb
              have hb1 : b ≠ y := fun e => hy2 (e ▸ hb)
              have hb2 : b ≠ n := fun e => hn2 (e ▸ hb)
              have hb3 : b ≠ z := fun e => hz2 (e ▸ hb)
              simp [heap_set, hb1, hb2, hb3]

/-- The loop of `list_delete` followed by the last call of `free`: `prevp`, when it is not
`NULL`, and every node of the list are freed, in this order. -/
theorem list_delete_loop_spec (l : List (Nat × Nat)) (s : ListState) (prevp curr pr : Option Nat)
    (fuel : Nat) (hl : IsList s.heap curr pr l) (hf : l.length < fuel)
    (hprev : ∀ a, prevp = some a → (∃ n, s.heap a = some n) ∧ a ∉ l.map Prod.fst) :
    ∃ s', ((list_delete_loop fuel s prevp curr).bind
        (fun r => if r.2 ≠ none then free r.1 r.2 else some r.1)) = some s' ∧
      s'.head = s.head ∧
      s'.freed = (prevp.toList ++ l.map Prod.fst).reverse ++ s.freed ∧
      ∀ b, s'.heap b = if b ∈ prevp.toList ++ l.map Prod.fst then none else s.heap b := by
  induction l generalizing s prevp curr pr fuel with
  | nil =>
    obtain ⟨f, rfl⟩ : ∃ f, fuel = f + 1 := ⟨fuel - 1, by omega⟩
    have hc := (isList_nil _ _ _).mp hl
    subst hc
    cases prevp with
    | none =>
      refine ⟨s, by simp [list_delete_loop], rfl, by simp, by simp⟩
    | some a =>
      obtain ⟨⟨n, hn⟩, _⟩ := hprev a rfl
      refine ⟨⟨heap_set s.heap a none, s.head, a :: s.freed⟩,
        by simp [list_delete_loop, free, hn], rfl, by simp, ?_⟩
      intro b
      by_cases hb : b = a <;> simp [heap_set, hb]
  | cons x l ih =>
    obtain ⟨c, dc⟩ := x
    obtain ⟨f, rfl⟩ : ∃ f, fuel = f + 1 := ⟨fuel - 1, by omega⟩
    obtain ⟨hc, nc, hnc, _, _, htl⟩ := (isList_cons _ _ _ _ _ _).mp hl
    subst hc
    have hnd := isList_nodup _ _ _ _ hl
    rw [List.map_cons, List.nodup_cons] at hnd
    cases prevp with
    | none =>
      obtain ⟨s', h1, h2, h3, h4⟩ := ih s (some c) nc.next (some c) f htl
        (by simpa using hf) (by
          intro a ha
          cases ha
          exact ⟨⟨nc, hnc⟩, hnd.1⟩)
      refine ⟨s', ?_, h2, by simpa using h3, ?_⟩
      · simp only [list_delete_loop, load, hnc, Option.bind_eq_bind, Option.some_bind]
        simpa using h1
      · intro b
        rw [h4 b]
        simp
    | some a =>
      obtain ⟨⟨n, hn⟩, hal⟩ := hprev a rfl
      have hca : c ≠ a := by
        rintro rfl
        exact hal (by simp)
      have hal2 : a ∉ l.map Prod.fst := fun hm => hal (by simp [List.mem_map] at hm ⊢; exact Or.inr hm)
      obtain ⟨s', h1, h2, h3, h4⟩ := ih
        ⟨heap_set s.heap a none, s.head, a :: s.freed⟩ (some c) nc.next (some c) f
        (by
          apply isList_frame _ _ _ _ _ htl
          intro b hb
          have : b ≠ a := fun e => hal2 (e ▸ hb)
          simp [heap_set, this])
        (by simpa using hf) (by
          intro a' ha'
          cases ha'
          exact ⟨⟨nc, by simp [heap_set, hca, hnc]⟩, hnd.1⟩)
      refine ⟨s', ?_, h2, by simpa using h3, ?_⟩
      · simp only [list_delete_loop, free, hn, load, Option.bind_eq_bind, Option.some_bind]
        simp only [reduceCtorEq, if_false, ne_eq, not_false_eq_true, if_true, Option.some_bind,
          heap_set_other _ _ _ _ hca, hnc]
        exact h1
      · intro b
        rw [h4 b]
        by_cases hba : b = a
        · subst hba
          simp [heap_set]
        · have hiff : b ∈ (some a).toList ++ List.map Prod.fst ((c, dc) :: l) ↔
              b ∈ (some c).toList ++ List.map Prod.fst l := by
            simp [hba]
          by_cases hm : b ∈ (some c).toList ++ List.map Prod.fst l
          · rw [if_pos hm, if_pos (hiff.mpr hm)]
          · rw [if_neg hm, if_neg (fun hx => hm (hiff.mp hx))]
            simp [heap_set, hba]

/-- The effect of `list_delete`. -/
theorem list_delete_spec (fuel : Nat) (s : ListState) (l : List (Nat × Nat))
    (hl : IsList s.heap s.head none l) (hf : l.length < fuel) :
    ∃ s', list_delete fuel s = some s' ∧ s'.head = none ∧
      s'.freed = (l.map Prod.fst).reverse ++ s.freed ∧
      ∀ b, s'.heap b = if b ∈ l.map Prod.fst then none else s.heap b := by
  obtain ⟨s', h1, _, h3, h4⟩ := list_delete_loop_spec l s none s.head none fuel hl hf
    (by intro a ha; cases ha)
  refine ⟨{ s' with head := none }, ?_, rfl, by simpa using h3, by simpa using h4⟩
  cases hloop : list_delete_loop fuel s none s.head with
  | none =>
    rw [hloop] at h1
    simp at h1
  | some r =>
    rw [hloop] at h1
    simp only [Option.some_bind] at h1
    simp only [list_delete, hloop, Option.bind_eq_bind, Option.some_bind]
    by_cases hr : r.2 ≠ none
    · rw [if_pos hr] at h1 ⊢
      rw [h1]
      rfl
    · rw [if_neg hr] at h1 ⊢
      cases h1
      rfl

/-- The function `list_find_node` returns the first node of the list that holds `d`. -/
theorem list_find_node_spec (h : Nat → Option list_node_t) (l : List (Nat × Nat))
    (p prev : Option Nat) (d fuel : Nat) (hl : IsList h p prev l) (hf : l.length < fuel) :
    list_find_node fuel h p d = some ((l.find? (fun x => x.2 == d)).map Prod.fst) := by
  unfold list_find_node
  induction l generalizing p prev fuel with
  | nil =>
    obtain ⟨f, rfl⟩ : ∃ f, fuel = f + 1 := ⟨fuel - 1, by omega⟩
    have hp := (isList_nil _ _ _).mp hl
    subst hp
    simp [list_find_node_loop]
  | cons x l ih =>
    obtain ⟨a, da⟩ := x
    obtain ⟨f, rfl⟩ : ∃ f, fuel = f + 1 := ⟨fuel - 1, by omega⟩
    obtain ⟨hp, n, hn, hd, _, htl⟩ := (isList_cons _ _ _ _ _ _).mp hl
    subst hp
    by_cases hda : da = d
    · subst hda
      simp [list_find_node_loop, load, hn, hd]
    · have := ih _ _ f htl (by simpa using hf)
      simp [list_find_node_loop, load, hn, hd, hda, this]

/-! ## The claims about the path splitters -/

/-- C1: for every path `p` and every separator set `seps` (both without a zero byte, followed
by their terminator and by any bytes at all), when both allocations succeed the
string that `dirfrompath` returns followed by the string that `namefrompath` returns
is `p`, byte for byte.  This holds for every `p`: without a separator, ending in one,
or empty. -/
theorem dirfrompath_append_namefrompath (seps r1 p r2 : List Nat) (hs : 0 ∉ seps)
    (hp : 0 ∉ p) :
    ∃ d n, dirfrompath (seps ++ 0 :: r1) (p ++ 0 :: r2) true = some (some (d ++ [0])) ∧
      namefrompath (seps ++ 0 :: r1) (p ++ 0 :: r2) true = some (some (n ++ [0])) ∧
      0 ∉ d ∧ 0 ∉ n ∧ d ++ n = p := by
  obtain ⟨k, _, hd, hn, _, _⟩ := path_split seps r1 p r2 hs hp
  exact ⟨p.take k, p.drop k, hd, hn, fun h => hp (List.mem_of_mem_take h),
    fun h => hp (List.mem_of_mem_drop h), List.take_append_drop k p⟩

/-- Witness of C1: the path `a/b/` with the separator `/`. -/
theorem dirfrompath_append_namefrompath_witness :
    ∃ d n, dirfrompath ([47] ++ 0 :: []) ([97, 47, 98, 47] ++ 0 :: []) true
        = some (some (d ++ [0])) ∧
      namefrompath ([47] ++ 0 :: []) ([97, 47, 98, 47] ++ 0 :: []) true
        = some (some (n ++ [0])) ∧
      0 ∉ d ∧ 0 ∉ n ∧ d ++ n = [97, 47, 98, 47] :=
  dirfrompath_append_namefrompath [47] [] [97, 47, 98, 47] [] (by decide) (by decide)

/-- C2: `dirfrompath(p)` is the part of `p` up to and including its last separator (`k` bytes:
the byte before offset `k` is a separator and none follows), and the empty string
when `p` has no separator, in particular for the empty path. -/
theorem dirfrompath_last_separator (seps r1 p r2 : List Nat) (hs : 0 ∉ seps) (hp : 0 ∉ p) :
    ∃ k, k ≤ p.length ∧
      dirfrompath (seps ++ 0 :: r1) (p ++ 0 :: r2) true = some (some (p.take k ++ [0])) ∧
      (k = 0 ∨ ∃ c, p[k - 1]? = some c ∧ c ∈ seps) ∧
      (∀ c ∈ p.drop k, c ∉ seps) ∧
      ((∀ c ∈ p, c ∉ seps) →
        dirfrompath (seps ++ 0 :: r1) (p ++ 0 :: r2) true = some (some [0])) ∧
      dirfrompath (seps ++ 0 :: r1) (0 :: r2) true = some (some [0]) := by
  obtain ⟨k, hk, hd, _, hno, hlast⟩ := path_split seps r1 p r2 hs hp
  refine ⟨k, hk, hd, hlast, hno, ?_, ?_⟩
  · intro hall
    rcases hlast with rfl | ⟨c, hc, hcs⟩
    · simpa using hd
    · exact absurd hcs (hall c (List.getElem?_mem hc))
  · obtain ⟨k0, hk0, hd0, _⟩ := path_split seps r1 [] r2 hs (by simp)
    simpa using hd0

/-- Witness of C2: the path `a/b` with the separators `\` and `/`. -/
theorem dirfrompath_last_separator_witness :
    ∃ k, k ≤ [97, 47, 98].length ∧
      dirfrompath ([92, 47] ++ 0 :: []) ([97, 47, 98] ++ 0 :: [7]) true
        = some (some ([97, 47, 98].take k ++ [0])) ∧
      (k = 0 ∨ ∃ c, [97, 47, 98][k - 1]? = some c ∧ c ∈ [92, 47]) ∧
      (∀ c ∈ [97, 47, 98].drop k, c ∉ [92, 47]) ∧
      ((∀ c ∈ [97, 47, 98], c ∉ [92, 47]) →
        dirfrompath ([92, 47] ++ 0 :: []) ([97, 47, 98] ++ 0 :: [7]) true = some (some [0])) ∧
      dirfrompath ([92, 47] ++ 0 :: []) (0 :: [7]) true = some (some [0]) :=
  dirfrompath_last_separator [92, 47] [] [97, 47, 98] [7] (by decide) (by decide)

/-- C3: `namefrompath(p)` is the part of `p` after its last separator (from offset `k` on: the
byte before offset `k` is a separator), so it holds no separator; it is `p` itself
when `p` has no separator and the empty string when `p` ends in a separator. -/
theorem namefrompath_after_last_separator (seps r1 p r2 : List Nat) (hs : 0 ∉ seps)
    (hp : 0 ∉ p) :
    ∃ k, k ≤ p.length ∧
      namefrompath (seps ++ 0 :: r1) (p ++ 0 :: r2) true = some (some (p.drop k ++ [0])) ∧
      (k = 0 ∨ ∃ c, p[k - 1]? = some c ∧ c ∈ seps) ∧
      (∀ c ∈ p.drop k, c ∉ seps) ∧
      ((∀ c ∈ p, c ∉ seps) →
        namefrompath (seps ++ 0 :: r1) (p ++ 0 :: r2) true = some (some (p ++ [0]))) ∧
      ((∃ c, p.getLast? = some c ∧ c ∈ seps) →
        namefrompath (seps ++ 0 :: r1) (p ++ 0 :: r2) true = some (some [0])) := by
  obtain ⟨k, hk, _, hn, hno, hlast⟩ := path_split seps r1 p r2 hs hp
  refine ⟨k, hk, hn, hlast, hno, ?_, ?_⟩
  · intro hall
    rcases hlast with rfl | ⟨c, hc, hcs⟩
    · simpa using hn
    · exact absurd hcs (hall c (List.getElem?_mem hc))
  · rintro ⟨c, hc, hcs⟩
    have hkl : k = p.length := by
      by_contra hne
      have hlt : ¬ p.length ≤ k := by omega
      have h1 : (p.drop k).getLast? = some c := by
        rw [List.getLast?_drop, if_neg hlt]
        exact hc
      exact hno c (List.mem_of_getLast?_eq_some h1) hcs
    rw [hn, hkl]
    simp

/-- Witness of C3: the path `a/b/` with the separator `/`. -/
theorem namefrompath_after_last_separator_witness :
    ∃ k, k ≤ [97, 47, 98, 47].length ∧
      namefrompath ([47] ++ 0 :: []) ([97, 47, 98, 47] ++ 0 :: []) true
        = some (some ([97, 47, 98, 47].drop k ++ [0])) ∧
      (k = 0 ∨ ∃ c, [97, 47, 98, 47][k - 1]? = some c ∧ c ∈ [47]) ∧
      (∀ c ∈ [97, 47, 98, 47].drop k, c ∉ [47]) ∧
      ((∀ c ∈ [97, 47, 98, 47], c ∉ [47]) →
        namefrompath ([47] ++ 0 :: []) ([97, 47, 98, 47] ++ 0 :: []) true
          = some (some ([97, 47, 98, 47] ++ [0]))) ∧
      ((∃ c, [97, 47, 98, 47].getLast? = some c ∧ c ∈ [47]) →
        namefrompath ([47] ++ 0 :: []) ([97, 47, 98, 47] ++ 0 :: []) true = some (some [0])) :=
  namefrompath_after_last_separator [47] [] [97, 47, 98, 47] [] (by decide) (by decide)

/-! ## `trim` on strings of at most `UINT_MAX` bytes -/

/-- On a string `s` (no zero byte) of at most `UINT_MAX` bytes, in a buffer with its terminator
and any bytes `rest` after it, `trim` returns `str` itself (offset `0`), the buffer
keeps its length and then holds the string `trimmed s`: `s` is white space, then
`trimmed s`, then white space, and `trimmed s` is empty or begins and ends with a
byte that is not white space, so both runs are maximal and the bytes in between are
unchanged and in order.  A string of white space only becomes the empty string.  The
three examples of the spec, `"   "`, `"  a b  "` and `"x"`, are evaluated at the
end. -/
theorem trim_short_removes_whitespace (s rest : List Nat) (hs : 0 ∉ s)
    (hmax : s.length ≤ UINT_MAX) (fuel : Nat) (hf : s.length + 1 < fuel) :
    (∃ M rest', trim fuel (s ++ 0 :: rest) = some (0, M) ∧
      M.buf = trimmed s ++ 0 :: rest' ∧ 0 ∉ trimmed s ∧
      M.buf.length = (s ++ 0 :: rest).length) ∧
    (∃ a b, s = a ++ (trimmed s ++ b) ∧ (∀ c ∈ a, isspace c = true) ∧
      (∀ c ∈ b, isspace c = true) ∧
      (∀ c, (trimmed s).head? = some c → isspace c = false) ∧
      (∀ c, (trimmed s).getLast? = some c → isspace c = false)) ∧
    ((∀ c ∈ s, isspace c = true) → trimmed s = []) ∧
    (trim 5 [32, 32, 32, 0]).map (fun r => (r.1, r.2.buf)) = some (0, [0, 32, 32, 0]) ∧
    (trim 9 [32, 32, 97, 32, 98, 32, 32, 0]).map (fun r => (r.1, r.2.buf))
      = some (0, [97, 32, 98, 0, 32, 0, 32, 0]) ∧
    (trim 3 [120, 0]).map (fun r => (r.1, r.2.buf)) = some (0, [120, 0]) := by
  obtain ⟨M, rest', h1, h2, h3, _, _⟩ := trim_spec s rest hs hmax fuel hf
  obtain ⟨a, b, hsplit, ha, hb, hhead, hlast, _⟩ := trim_parts s
  refine ⟨⟨M, rest', h1, h2, fun h => hs (trimmed_subset s 0 h), h3⟩,
    ⟨a, b, hsplit, ha, hb, hhead, hlast⟩, ?_, by decide, by decide, by decide⟩
  intro hall
  cases ht : trimmed s with
  | nil => rfl
  | cons c t =>
    have h1 : isspace c = false := hhead c (by rw [ht]; rfl)
    have h2 : isspace c = true := hall c (trimmed_subset s c (by rw [ht]; simp))
    rw [h1] at h2
    cases h2

/-- The string `" a "`, an instance of `trim_short_removes_whitespace`. -/
theorem trim_short_removes_whitespace_witness :
    ∃ M rest', trim 5 ([32, 97, 32] ++ 0 :: []) = some (0, M) ∧
      M.buf = trimmed [32, 97, 32] ++ 0 :: rest' ∧ 0 ∉ trimmed [32, 97, 32] ∧
      M.buf.length = ([32, 97, 32] ++ 0 :: []).length :=
  (trim_short_removes_whitespace [32, 97, 32] [] (by decide) (by decide) 5 (by decide)).1

/-- On a string `s` of at most `UINT_MAX` bytes, the empty one and those of white space only
included, `trim` runs to its end without an access outside the buffer, and every
offset it reads or writes lies between `0` and the offset `s.length` of the old
terminator: the backward scan does not read before the start of the buffer. -/
theorem trim_short_accesses_in_bounds (s rest : List Nat) (hs : 0 ∉ s)
    (hmax : s.length ≤ UINT_MAX) (fuel : Nat) (hf : s.length + 1 < fuel) :
    ∃ M, trim fuel (s ++ 0 :: rest) = some (0, M) ∧
      ∀ x ∈ M.log, 0 ≤ x ∧ x ≤ (s.length : Int) := by
  obtain ⟨M, _, h1, _, _, _, h5⟩ := trim_spec s rest hs hmax fuel hf
  exact ⟨M, h1, h5⟩

/-- A string of white space only, with white space after the terminator, an instance of
`trim_short_accesses_in_bounds`. -/
theorem trim_short_accesses_in_bounds_witness :
    ∃ M, trim 4 ([32, 9] ++ 0 :: [32]) = some (0, M) ∧
      ∀ x ∈ M.log, 0 ≤ x ∧ x ≤ (([32, 9] : List Nat).length : Int) :=
  trim_short_accesses_in_bounds [32, 9] [32] (by decide) (by decide) 4 (by decide)

/-! ## The claims about the list -/

/-- C6: for every list (nodes `l` from head to tail, each with its data reference) and every
data reference `d`, when `malloc` returns a fresh address `a`, `list_prepend` returns
`a`, which is the new head, carries `d` and has no previous node; the list is then
`(a, d)` followed by the nodes of `l` with their data; no other node's data
changes. -/
theorem list_prepend_inserts_at_head (s : ListState) (l : List (Nat × Nat)) (d a : Nat)
    (junk : list_node_t) (hl : IsList s.heap s.head none l) (ha : s.heap a = none) :
    ∃ s', list_prepend s d (some a) junk = some (some a, s') ∧
      IsList s'.heap s'.head none ((a, d) :: l) ∧
      s'.head = some a ∧
      s'.heap a = some ⟨d, none, s.head⟩ ∧
      (∀ b, b ≠ a → (s'.heap b).map (fun n => n.data) = (s.heap b).map (fun n => n.data)) := by
  obtain ⟨s', h1, h2, _, h4, h5, h6⟩ := list_prepend_spec s l d a junk hl ha
  refine ⟨s', h1, h6, h2, h4, ?_⟩
  intro b hb
  rw [h5 b hb]
  split
  · cases s.heap b <;> rfl
  · rfl

/-- Witness of C6: prepending to the list of `state3`. -/
theorem list_prepend_inserts_at_head_witness :
    ∃ s', list_prepend state3 7 (some 9) ⟨0, none, none⟩ = some (some 9, s') ∧
      IsList s'.heap s'.head none ((9, 7) :: [(1, 10), (2, 20), (3, 10)]) ∧
      s'.head = some 9 ∧
      s'.heap 9 = some ⟨7, none, state3.head⟩ ∧
      (∀ b, b ≠ 9 →
        (s'.heap b).map (fun n => n.data) = (state3.heap b).map (fun n => n.data)) :=
  list_prepend_inserts_at_head state3 [(1, 10), (2, 20), (3, 10)] 7 9 ⟨0, none, none⟩
    (by decide) (by decide)

/-- C7: for every list and every data reference `d`, when `malloc` returns a fresh address
`a` (and the loop has fuel for the length of the list), `list_append` returns `a`,
which carries `d`, has no next node and is the last node: the list is then the
nodes of `l` with their data followed by `(a, d)`.  The head is unchanged unless
the list was empty, and no other node's data changes. -/
theorem list_append_inserts_at_tail (fuel : Nat) (s : ListState) (l : List (Nat × Nat))
    (d a : Nat) (junk : list_node_t) (hl : IsList s.heap s.head none l)
    (ha : s.heap a = none) (hf : l.length ≤ fuel) :
    ∃ s', list_append fuel s d (some a) junk = some (some a, s') ∧
      IsList s'.heap s'.head none (l ++ [(a, d)]) ∧
      s'.heap a = some ⟨d, l.getLast?.map Prod.fst, none⟩ ∧
      (l ≠ [] → s'.head = s.head) ∧
      (l = [] → s'.head = some a) ∧
      (∀ b, b ≠ a → (s'.heap b).map (fun n => n.data) = (s.heap b).map (fun n => n.data)) := by
  obtain ⟨s', h1, h2, _, h4, h5, h6⟩ := list_append_spec fuel s l d a junk hl ha hf
  refine ⟨s', h1, h6, h4, ?_, ?_, ?_⟩
  · intro hne
    rw [h2, if_neg hne]
  · intro he
    rw [h2, if_pos he]
  · intro b hb
    rw [h5 b hb]
    split
    · cases s.heap b <;> rfl
    · rfl

/-- Witness of C7: appending to the list of `state3`. -/
theorem list_append_inserts_at_tail_witness :
    ∃ s', list_append 3 state3 7 (some 9) ⟨0, none, none⟩ = some (some 9, s') ∧
      IsList s'.heap s'.head none ([(1, 10), (2, 20), (3, 10)] ++ [(9, 7)]) ∧
      s'.heap 9 = some ⟨7, [(1, 10), (2, 20), (3, 10)].getLast?.map Prod.fst, none⟩ ∧
      ([(1, 10), (2, 20), (3, 10)] ≠ [] → s'.head = state3.head) ∧
      ([(1, 10), (2, 20), (3, 10)] = [] → s'.head = some 9) ∧
      (∀ b, b ≠ 9 →
        (s'.heap b).map (fun n => n.data) = (state3.heap b).map (fun n => n.data)) :=
  list_append_inserts_at_tail 3 state3 [(1, 10), (2, 20), (3, 10)] 7 9 ⟨0, none, none⟩
    (by decide) (by decide) (by decide)

/-- C8: for every list and every node `n` of it (the list is `l1`, then `n`, then `l2`),
`list_node_delete` frees `n` and nothing else, and the list is then `l1` followed by
`l2`, the other nodes in their order with their data.  The head becomes the node
after `n` (where `n`'s `next` link pointed) if `n` was first and is unchanged
otherwise; no node's data changes. -/
theorem list_node_delete_removes_node (s : ListState) (l1 l2 : List (Nat × Nat)) (n dn : Nat)
    (hl : IsList s.heap s.head none (l1 ++ (n, dn) :: l2)) :
    ∃ s', list_node_delete s (some n) = some s' ∧
      IsList s'.heap s'.head none (l1 ++ l2) ∧
      (l1 = [] → s'.head = l2.head?.map Prod.fst ∧
        s'.head = (s.heap n).bind (fun m => m.next)) ∧
      (l1 ≠ [] → s'.head = s.head) ∧
      s'.freed = n :: s.freed ∧ s'.heap n = none ∧
      (∀ b, b ≠ n → (s'.heap b).map (fun m => m.data) = (s.heap b).map (fun m => m.data)) := by
  obtain ⟨s', h1, h2, h3, h4, h5, h6⟩ := list_node_delete_spec s l1 l2 n dn hl
  refine ⟨s', h1, h6, ?_, ?_, h3, h4, ?_⟩
  · intro he
    subst he
    rw [h2, if_pos rfl]
    refine ⟨rfl, ?_⟩
    obtain ⟨_, nn, hnn, _, _, htl⟩ := (isList_cons _ _ _ _ _ _).mp hl
    rw [hnn]
    cases l2 with
    | nil => exact ((isList_nil _ _ _).mp htl).symm
    | cons y l2 =>
      obtain ⟨y, dy⟩ := y
      obtain ⟨hq, _⟩ := (isList_cons _ _ _ _ _ _).mp htl
      exact hq.symm
  · intro hne
    rw [h2, if_neg hne]
  · intro b hb
    rw [h5 b hb]
    split
    · cases s.heap b <;> rfl
    · split
      · cases s.heap b <;> rfl
      · rfl

/-- Witness of C8: deleting the middle node of the list of `state3`. -/
theorem list_node_delete_removes_node_witness :
    ∃ s', list_node_delete state3 (some 2) = some s' ∧
      IsList s'.heap s'.head none ([(1, 10)] ++ [(3, 10)]) ∧
      ([(1, 10)] = [] → s'.head = [(3, 10)].head?.map Prod.fst ∧
        s'.head = (state3.heap 2).bind (fun m => m.next)) ∧
      ([(1, 10)] ≠ [] → s'.head = state3.head) ∧
      s'.freed = 2 :: state3.freed ∧ s'.heap 2 = none ∧
      (∀ b, b ≠ 2 →
        (s'.heap b).map (fun m => m.data) = (state3.heap b).map (fun m => m.data)) :=
  list_node_delete_removes_node state3 [(1, 10)] [(3, 10)] 2 20 (by decide)

/-- C9: for every list, empty or not and of any length (the loop having fuel for it),
`list_delete` leaves the empty list, `list_empty` is true of it, and the calls of
`free` it makes are one for each node of the list, no node twice: all the nodes are
released and the rest of the heap is untouched. -/
theorem list_delete_empties (fuel : Nat) (s : ListState) (l : List (Nat × Nat))
    (hl : IsList s.heap s.head none l) (hf : l.length < fuel) :
    ∃ s', list_delete fuel s = some s' ∧ list_empty s'.head = true ∧
      IsList s'.heap s'.head none [] ∧
      s'.freed = (l.map Prod.fst).reverse ++ s.freed ∧ (l.map Prod.fst).Nodup ∧
      (∀ b ∈ l.map Prod.fst, s'.heap b = none) ∧
      (∀ b, b ∉ l.map Prod.fst → s'.heap b = s.heap b) := by
  obtain ⟨s', h1, h2, h3, h4⟩ := list_delete_spec fuel s l hl hf
  refine ⟨s', h1, by rw [h2]; rfl, (isList_nil _ _ _).mpr h2, h3, isList_nodup _ _ _ _ hl, ?_, ?_⟩
  · intro b hb
    rw [h4 b, if_pos hb]
  · intro b hb
    rw [h4 b, if_neg hb]

/-- Witness of C9: deleting the list of `state3`. -/
theorem list_delete_empties_witness :
    ∃ s', list_delete 4 state3 = some s' ∧ list_empty s'.head = true ∧
      IsList s'.heap s'.head none [] ∧
      s'.freed = ([(1, 10), (2, 20), (3, 10)].map Prod.fst).reverse ++ state3.freed ∧
      ([(1, 10), (2, 20), (3, 10)].map Prod.fst).Nodup ∧
      (∀ b ∈ [(1, 10), (2, 20), (3, 10)].map Prod.fst, s'.heap b = none) ∧
      (∀ b, b ∉ [(1, 10), (2, 20), (3, 10)].map Prod.fst → s'.heap b = state3.heap b) :=
  list_delete_empties 4 state3 [(1, 10), (2, 20), (3, 10)] (by decide) (by decide)

/-- C10: for every list and every data reference `d` (the loop having fuel for the length of
the list), `list_find_node` returns `NULL` exactly when no node of the list holds
`d`, and otherwise the first node, from head to tail, whose data reference is `d`:
no node before it holds `d`, whatever the nodes after it hold. -/
theorem list_find_node_first_match (h : Nat → Option list_node_t) (l : List (Nat × Nat))
    (p prev : Option Nat) (d fuel : Nat) (hl : IsList h p prev l) (hf : l.length < fuel) :
    ∃ r, list_find_node fuel h p d = some r ∧
      (r = none ↔ ∀ x ∈ l, x.2 ≠ d) ∧
      (∀ a, r = some a → ∃ l1 l2, l = l1 ++ (a, d) :: l2 ∧ ∀ x ∈ l1, x.2 ≠ d) := by
  refine ⟨_, list_find_node_spec h l p prev d fuel hl hf, ?_, ?_⟩
  · simp
  · intro a ha
    obtain ⟨⟨a', d'⟩, hfind, hfst⟩ := Option.map_eq_some'.mp ha
    simp only at hfst
    subst hfst
    obtain ⟨hd, l1, l2, hsplit, hall⟩ := List.find?_eq_some.mp hfind
    have hd' : d' = d := by simpa using hd
    subst hd'
    exact ⟨l1, l2, hsplit, fun x hx => by simpa using hall x hx⟩

/-- Witness of C10: the data reference 10 is held by the nodes 1 and 3 of `heap3`. -/
theorem list_find_node_first_match_witness :
    ∃ r, list_find_node 4 heap3 (some 1) 10 = some r ∧
      (r = none ↔ ∀ x ∈ [(1, 10), (2, 20), (3, 10)], x.2 ≠ 10) ∧
      (∀ a, r = some a →
        ∃ l1 l2, [(1, 10), (2, 20), (3, 10)] = l1 ++ (a, 10) :: l2 ∧ ∀ x ∈ l1, x.2 ≠ 10) :=
  list_find_node_first_match heap3 [(1, 10), (2, 20), (3, 10)] (some 1) none 10 4
    (by decide) (by decide)

/-! ## The claim about `strpbrk_reverse` -/

/-- C20: for every haystack `p` and every needle set `seps` (C strings: no zero byte, then the
terminator, then any bytes), `strpbrk_reverse` returns the offset of the last byte
of `p` that occurs in `seps`, and `NULL` exactly when no byte of `p` occurs in `seps`.
An offset returned is below `p.length`: the terminator is never reported. -/
theorem strpbrk_reverse_last_match (seps r1 p r2 : List Nat) (hs : 0 ∉ seps) (hp : 0 ∉ p) :
    ∃ res, strpbrk_reverse (seps ++ 0 :: r1) (p ++ 0 :: r2) = some res ∧
      (res = none ↔ ∀ c ∈ p, c ∉ seps) ∧
      (∀ i, res = some i → i < p.length ∧ (∃ c, p[i]? = some c ∧ c ∈ seps) ∧
        ∀ j c, i < j → p[j]? = some c → c ∉ seps) := by
  obtain ⟨j, hj, hjk, hno, hlast⟩ :=
    strpbrk_reverse_loop_cstr seps r1 p r2 hs hp p.length (le_refl _)
  by_cases h0 : j = 0
  · subst h0
    refine ⟨none, by simp [strpbrk_reverse, strlen_cstr _ _ hp, hj], ?_, by simp⟩
    simp only [true_iff]
    intro c hc
    obtain ⟨i, hi, rfl⟩ := List.getElem_of_mem hc
    exact hno i _ (Nat.zero_le _) hi (List.getElem?_eq_getElem hi)
  · refine ⟨some (j - 1), by simp [strpbrk_reverse, strlen_cstr _ _ hp, hj, h0], ?_, ?_⟩
    · rcases hlast with h | ⟨c, hc, hcs⟩
      · exact absurd h h0
      · simp only [reduceCtorEq, false_iff, not_forall]
        exact ⟨c, List.getElem?_mem hc, fun h => h hcs⟩
    · intro i hi
      cases hi
      refine ⟨by omega, ?_, ?_⟩
      · rcases hlast with h | h
        · exact absurd h h0
        · exact h
      · intro j' c hlt hget
        have hj' : j' < p.length := (List.getElem?_eq_some.mp hget).1
        exact hno j' c (by omega) hj' hget

/-- Witness of C20: the haystack `a/b/c` and the needles `\` and `/`. -/
theorem strpbrk_reverse_last_match_witness :
    ∃ res, strpbrk_reverse ([92, 47] ++ 0 :: []) ([97, 47, 98, 47, 99] ++ 0 :: [47]) = some res ∧
      (res = none ↔ ∀ c ∈ [97, 47, 98, 47, 99], c ∉ [92, 47]) ∧
      (∀ i, res = some i → i < [97, 47, 98, 47, 99].length ∧
        (∃ c, [97, 47, 98, 47, 99][i]? = some c ∧ c ∈ [92, 47]) ∧
        ∀ j c, i < j → [97, 47, 98, 47, 99][j]? = some c → c ∉ [92, 47]) :=
  strpbrk_reverse_last_match [92, 47] [] [97, 47, 98, 47, 99] [47] (by decide) (by decide)

/-! ## The claim about splitting twice -/

/-- A path written as a directory part (empty, or ending in a separator) and a name without
separator is split into just these parts. -/
theorem path_split_of_parts (seps r1 d n r2 : List Nat) (hs : 0 ∉ seps) (hd0 : 0 ∉ d)
    (hn0 : 0 ∉ n) (hd : d = [] ∨ ∃ c, d.getLast? = some c ∧ c ∈ seps)
    (hn : ∀ c ∈ n, c ∉ seps) :
    dirfrompath (seps ++ 0 :: r1) ((d ++ n) ++ 0 :: r2) true = some (some (d ++ [0])) ∧
      namefrompath (seps ++ 0 :: r1) ((d ++ n) ++ 0 :: r2) true = some (some (n ++ [0])) := by
  have hp : 0 ∉ d ++ n := by
    intro h
    rcases List.mem_append.mp h with h | h
    · exact hd0 h
    · exact hn0 h
  obtain ⟨k, hk, hdir, hname, hno, hlast⟩ := path_split seps r1 (d ++ n) r2 hs hp
  have hkd : k = d.length := by
    rcases Nat.lt_trichotomy k d.length with hlt | heq | hgt
    · exfalso
      have hne : d ≠ [] := by
        intro h
        rw [h] at hlt
        simp at hlt
      rcases hd with h | ⟨c, hc, hcs⟩
      · exact hne h
      · refine hno c ?_ hcs
        rw [List.getLast?_eq_getElem?] at hc
        have hidx : (d ++ n)[k + (d.length - 1 - k)]? = some c := by
          rw [show k + (d.length - 1 - k) = d.length - 1 by omega,
            List.getElem?_append_left (by omega)]
          exact hc
        rw [← List.getElem?_drop] at hidx
        exact List.getElem?_mem hidx
    · exact heq
    · exfalso
      rcases hlast with h | ⟨c, hc, hcs⟩
      · omega
      · rw [List.getElem?_append_right (by omega)] at hc
        exact hn c (List.getElem?_mem hc) hcs
  subst hkd
  rw [hdir, hname]
  simp

/-- C19: for every path `p`, splitting again the strings that `dirfrompath` and `namefrompath`
return (`d` and `n`, in the buffers the functions return) gives: the directory of `d`
is `d`, the name of `n` is `n`, the name of `d` is empty and the directory of `n` is
empty. -/
theorem path_split_idempotent (seps r1 p r2 : List Nat) (hs : 0 ∉ seps) (hp : 0 ∉ p) :
    ∃ d n, dirfrompath (seps ++ 0 :: r1) (p ++ 0 :: r2) true = some (some (d ++ [0])) ∧
      namefrompath (seps ++ 0 :: r1) (p ++ 0 :: r2) true = some (some (n ++ [0])) ∧
      dirfrompath (seps ++ 0 :: r1) (d ++ [0]) true = some (some (d ++ [0])) ∧
      namefrompath (seps ++ 0 :: r1) (n ++ [0]) true = some (some (n ++ [0])) ∧
      namefrompath (seps ++ 0 :: r1) (d ++ [0]) true = some (some [0]) ∧
      dirfrompath (seps ++ 0 :: r1) (n ++ [0]) true = some (some [0]) := by
  obtain ⟨k, hk, hdir, hname, hno, hlast⟩ := path_split seps r1 p r2 hs hp
  have hd0 : 0 ∉ p.take k := fun h => hp (List.mem_of_mem_take h)
  have hn0 : 0 ∉ p.drop k := fun h => hp (List.mem_of_mem_drop h)
  have hd : p.take k = [] ∨ ∃ c, (p.take k).getLast? = some c ∧ c ∈ seps := by
    rcases Nat.eq_zero_or_pos k with h | hpos
    · left
      rw [h]
      rfl
    rcases hlast with h | ⟨c, hc, hcs⟩
    · omega
    · right
      refine ⟨c, ?_, hcs⟩
      have hk1 : k - 1 < p.length := (List.getElem?_eq_some.mp hc).1
      rw [List.getLast?_eq_getElem?, List.length_take, Nat.min_eq_left hk,
        List.getElem?_take, if_pos (by omega)]
      exact hc
  have h1 := path_split_of_parts seps r1 (p.take k) [] [] hs hd0 (by simp) hd (by simp)
  have h2 := path_split_of_parts seps r1 [] (p.drop k) [] hs (by simp) hn0 (Or.inl rfl) hno
  simp only [List.append_nil, List.nil_append] at h1 h2
  exact ⟨p.take k, p.drop k, hdir, hname, h1.1, h2.2, h1.2, h2.1⟩

/-- Witness of C19: the path `a/b` with the separator `/`. -/
theorem path_split_idempotent_witness :
    ∃ d n, dirfrompath ([47] ++ 0 :: []) ([97, 47, 98] ++ 0 :: []) true = some (some (d ++ [0])) ∧
      namefrompath ([47] ++ 0 :: []) ([97, 47, 98] ++ 0 :: []) true = some (some (n ++ [0])) ∧
      dirfrompath ([47] ++ 0 :: []) (d ++ [0]) true = some (some (d ++ [0])) ∧
      namefrompath ([47] ++ 0 :: []) (n ++ [0]) true = some (some (n ++ [0])) ∧
      namefrompath ([47] ++ 0 :: []) (d ++ [0]) true = some (some [0]) ∧
      dirfrompath ([47] ++ 0 :: []) (n ++ [0]) true = some (some [0]) :=
  path_split_idempotent [47] [] [97, 47, 98] [] (by decide) (by decide)

/-! ## Trimming twice, on strings of at most `UINT_MAX` bytes -/

theorem trimmed_idem (s : List Nat) : trimmed (trimmed s) = trimmed s := by
  obtain ⟨a, b, _, _, _, hhead, hlast, _⟩ := trim_parts s
  generalize trimmed s = t at hhead hlast
  have h1 : t.dropWhile isspace = t := by
    cases t with
    | nil => rfl
    | cons c t =>
      have := hhead c rfl
      simp [List.dropWhile, this]
  unfold trimmed
  rw [h1, List.rdropWhile_eq_self_iff]
  intro hne
  have := hlast _ (List.getLast?_eq_getLast t hne)
  simp [this]

theorem trimmed_length_le (s : List Nat) : (trimmed s).length ≤ s.length := by
  obtain ⟨a, b, hsplit, _⟩ := trim_parts s
  have := congrArg List.length hsplit
  simp only [List.length_append] at this
  omega

/-- On a string `s` of at most `UINT_MAX` bytes, a second call of `trim` on the buffer that the
first call leaves has a result and leaves that buffer as it is, all its bytes; and
the string `t` that the first call leaves is empty or begins and ends with a byte
that is not white space. -/
theorem trim_short_idempotent (s rest : List Nat) (hs : 0 ∉ s) (hmax : s.length ≤ UINT_MAX)
    (fuel : Nat) (hf : s.length + 1 < fuel) :
    ∃ M M2, trim fuel (s ++ 0 :: rest) = some (0, M) ∧
      trim fuel M.buf = some (0, M2) ∧ M2.buf = M.buf ∧
      ∃ t rest', M.buf = t ++ 0 :: rest' ∧ 0 ∉ t ∧
        (t = [] ∨ ((∃ c, t.head? = some c ∧ isspace c = false) ∧
          ∃ c, t.getLast? = some c ∧ isspace c = false)) := by
  obtain ⟨M, rest', h1, h2, _, _, _⟩ := trim_spec s rest hs hmax fuel hf
  have ht0 : 0 ∉ trimmed s := fun h => hs (trimmed_subset s 0 h)
  have hlen := trimmed_length_le s
  obtain ⟨M2, rest2, k1, k2, _, k4, _⟩ :=
    trim_spec (trimmed s) rest' ht0 (by omega) fuel (by omega)
  obtain ⟨a, b, _, _, _, hhead, hlast, _⟩ := trim_parts s
  refine ⟨M, M2, h1, ?_, ?_, trimmed s, rest', h2, ht0, ?_⟩
  · rw [h2]
    exact k1
  · rw [trimmed_idem] at k2
    have hr : rest2 = rest' := by
      rw [k2] at k4
      simpa using k4
    rw [k2, h2, hr]
  · cases ht : trimmed s with
    | nil => exact Or.inl rfl
    | cons c t =>
      right
      rw [ht] at hhead hlast
      refine ⟨⟨c, rfl, hhead c rfl⟩, ?_⟩
      have hne : c :: t ≠ [] := by simp
      exact ⟨_, List.getLast?_eq_getLast _ hne, hlast _ (List.getLast?_eq_getLast _ hne)⟩

/-- The string `"  a b  "`, an instance of `trim_short_idempotent`. -/
theorem trim_short_idempotent_witness :
    ∃ M M2, trim 9 ([32, 32, 97, 32, 98, 32, 32] ++ 0 :: []) = some (0, M) ∧
      trim 9 M.buf = some (0, M2) ∧ M2.buf = M.buf ∧
      ∃ t rest', M.buf = t ++ 0 :: rest' ∧ 0 ∉ t ∧
        (t = [] ∨ ((∃ c, t.head? = some c ∧ isspace c = false) ∧
          ∃ c, t.getLast? = some c ∧ isspace c = false)) :=
  trim_short_idempotent [32, 32, 97, 32, 98, 32, 32] [] (by decide) (by decide) 9 (by decide)

/-! ## The claim about inserting and deleting -/

theorem isList_ptr (h : Nat → Option list_node_t) (l : List (Nat × Nat)) (p prev : Option Nat)
    (hl : IsList h p prev l) : p = l.head?.map Prod.fst := by
  cases l with
  | nil => exact (isList_nil _ _ _).mp hl
  | cons x l =>
    obtain ⟨a, d⟩ := x
    exact ((isList_cons _ _ _ _ _ _).mp hl).1

theorem isList_first_prev (h : Nat → Option list_node_t) (l : List (Nat × Nat))
    (p prev : Option Nat) (hl : IsList h p prev l) (b : Nat) (hb : some b = p) :
    ∃ nb, h b = some nb ∧ nb.prev = prev := by
  cases l with
  | nil =>
    rw [(isList_nil _ _ _).mp hl] at hb
    cases hb
  | cons x l =>
    obtain ⟨a, d⟩ := x
    obtain ⟨hp, n, hn, _, hpr, _⟩ := (isList_cons _ _ _ _ _ _).mp hl
    rw [hp] at hb
    cases hb
    exact ⟨n, hn, hpr⟩

theorem isList_last_next (h : Nat → Option list_node_t) (l : List (Nat × Nat))
    (p prev : Option Nat) (hl : IsList h p prev l) (b : Nat)
    (hb : some b = l.getLast?.map Prod.fst) : ∃ nb, h b = some nb ∧ nb.next = none := by
  rcases l.eq_nil_or_concat with rfl | ⟨l0, ⟨z, dz⟩, hcc⟩
  · simp at hb
  · rw [List.concat_eq_append] at hcc
    subst hcc
    obtain ⟨q, last, _, hz⟩ := (isList_append _ _ _ _ _).mp hl
    obtain ⟨_, nz, hnz, _, _, hnil⟩ := (isList_cons _ _ _ _ _ _).mp hz
    have hbz : b = z := by simpa using hb
    subst hbz
    exact ⟨nz, hnz, (isList_nil _ _ _).mp hnil⟩

/-- C17: for every list and every data reference `d`, `list_prepend` (or `list_append`, with
fuel for its walk) followed by `list_node_delete` of the node it returned leaves the
heap as it was before, every node with its data and both links, and the same head:
the same list `l`. -/
theorem list_insert_delete_restores (fuel : Nat) (s : ListState) (l : List (Nat × Nat))
    (d a : Nat) (junk : list_node_t) (hl : IsList s.heap s.head none l)
    (ha : s.heap a = none) (hf : l.length ≤ fuel) :
    (∃ r s1 s2, list_prepend s d (some a) junk = some (r, s1) ∧
      list_node_delete s1 r = some s2 ∧ s2.heap = s.heap ∧ s2.head = s.head ∧
      IsList s2.heap s2.head none l) ∧
    (∃ r s1 s2, list_append fuel s d (some a) junk = some (r, s1) ∧
      list_node_delete s1 r = some s2 ∧ s2.heap = s.heap ∧ s2.head = s.head ∧
      IsList s2.heap s2.head none l) := by
  have hptr := isList_ptr _ _ _ _ hl
  constructor
  · obtain ⟨s1, h1, h2, _, h4, h5, h6⟩ := list_prepend_spec s l d a junk hl ha
    obtain ⟨s2, k1, k2, _, k4, k5, k6⟩ := list_node_delete_spec s1 [] l a d h6
    have hheap : s2.heap = s.heap := by
      funext b
      by_cases hba : b = a
      · rw [hba, k4, ha]
      · rw [k5 b hba]
        simp only [List.getLast?_nil, Option.map_none', reduceCtorEq, if_false]
        rw [← hptr]
        by_cases hbh : some b = s.head
        · obtain ⟨nb, hnb, hpr⟩ := isList_first_prev _ _ _ _ hl b hbh
          rw [if_pos hbh, h5 b hba, if_pos hbh, hnb]
          obtain ⟨nd, np, nn⟩ := nb
          simp only at hpr
          subst hpr
          rfl
        · rw [if_neg hbh, h5 b hba, if_neg hbh]
    have hhead : s2.head = s.head := by
      rw [k2, if_pos rfl, hptr]
    refine ⟨some a, s1, s2, h1, k1, hheap, hhead, ?_⟩
    rw [hheap, hhead]
    exact hl
  · obtain ⟨s1, h1, h2, _, h4, h5, h6⟩ := list_append_spec fuel s l d a junk hl ha hf
    obtain ⟨s2, k1, k2, _, k4, k5, k6⟩ := list_node_delete_spec s1 l [] a d h6
    have hheap : s2.heap = s.heap := by
      funext b
      by_cases hba : b = a
      · rw [hba, k4, ha]
      · rw [k5 b hba]
        simp only [List.head?_nil, Option.map_none', reduceCtorEq, if_false]
        by_cases hbl : some b = l.getLast?.map Prod.fst
        · obtain ⟨nb, hnb, hnx⟩ := isList_last_next _ _ _ _ hl b hbl
          rw [if_pos hbl, h5 b hba, if_pos hbl, hnb]
          obtain ⟨nd, np, nn⟩ := nb
          simp only at hnx
          subst hnx
          rfl
        · rw [if_neg hbl, h5 b hba, if_neg hbl]
    have hhead : s2.head = s.head := by
      rw [k2, h2]
      by_cases hnil : l = []
      · rw [if_pos hnil, hptr, hnil]
      · rw [if_neg hnil, if_neg hnil]
    refine ⟨some a, s1, s2, h1, k1, hheap, hhead, ?_⟩
    rw [hheap, hhead]
    exact hl

/-- Witness of C17: inserting into the list of `state3` and deleting the new node. -/
theorem list_insert_delete_restores_witness :
    (∃ r s1 s2, list_prepend state3 7 (some 9) ⟨0, none, none⟩ = some (r, s1) ∧
      list_node_delete s1 r = some s2 ∧ s2.heap = state3.heap ∧ s2.head = state3.head ∧
      IsList s2.heap s2.head none [(1, 10), (2, 20), (3, 10)]) ∧
    (∃ r s1 s2, list_append 3 state3 7 (some 9) ⟨0, none, none⟩ = some (r, s1) ∧
      list_node_delete s1 r = some s2 ∧ s2.heap = state3.heap ∧ s2.head = state3.head ∧
      IsList s2.heap s2.head none [(1, 10), (2, 20), (3, 10)]) :=
  list_insert_delete_restores 3 state3 [(1, 10), (2, 20), (3, 10)] 7 9 ⟨0, none, none⟩
    (by decide) (by decide) (by decide)

/-! ## The claim about a failing allocation -/

theorem set_data_null (s : ListState) (v : Nat) : set_data s none v = none := rfl

/-- Counterexample to C13: when `malloc` returns `NULL`, neither `list_prepend` nor `list_append`
returns anything to its caller, an error result included, on the empty list
(`state0`) and on a list of three nodes (`state3`): the `NULL` pointer is written
through. -/
theorem list_insert_alloc_failure_counterexample :
    ¬ ((∃ r, list_prepend state0 7 none ⟨0, none, none⟩ = some r) ∨
      (∃ r, list_prepend state3 7 none ⟨0, none, none⟩ = some r) ∨
      (∃ r, list_append 4 state0 7 none ⟨0, none, none⟩ = some r) ∨
      (∃ r, list_append 4 state3 7 none ⟨0, none, none⟩ = some r)) := by
  have h1 : list_prepend state0 7 none ⟨0, none, none⟩ = none := rfl
  have h2 : list_prepend state3 7 none ⟨0, none, none⟩ = none := rfl
  have h3 : list_append 4 state0 7 none ⟨0, none, none⟩ = none := rfl
  have h4 : list_append 4 state3 7 none ⟨0, none, none⟩ = none := rfl
  rw [h1, h2, h3, h4]
  simp

/-- C13, amended: `list_prepend` and `list_append` do not test what `malloc` returns.  When it
returns `NULL` they store through the `NULL` pointer, on the path of the empty list
and on the path of a list with nodes alike, so the call has no defined result and
no error is reported to the caller. -/
theorem list_insert_alloc_failure_undefined (fuel : Nat) (s : ListState) (d : Nat)
    (junk : list_node_t) :
    list_prepend s d none junk = none ∧ list_append fuel s d none junk = none := by
  constructor
  · unfold list_prepend
    split
    · simp [malloc, set_data_null]
    · simp only [malloc, Option.bind_eq_bind]
      cases set_prev s s.head none with
      | none => rfl
      | some s1 => simp [set_data_null]
  · unfold list_append
    split
    · simp [malloc, set_data_null]
    · simp only [malloc, Option.bind_eq_bind]
      cases list_append_loop s.heap fuel s.head with
      | none => rfl
      | some last =>
        simp only [Option.some_bind]
        cases set_next s last none with
        | none => rfl
        | some s1 => simp [set_data_null]

/-! ## The claims about sequences of calls -/

/-- The forward traversal of a list yields its nodes. -/
theorem list_traverse_spec (h : Nat → Option list_node_t) (l : List (Nat × Nat))
    (p prev : Option Nat) (fuel : Nat) (hl : IsList h p prev l) (hf : l.length < fuel) :
    list_traverse h fuel p = some l := by
  induction l generalizing p prev fuel with
  | nil =>
    obtain ⟨f, rfl⟩ : ∃ f, fuel = f + 1 := ⟨fuel - 1, by omega⟩
    rw [(isList_nil _ _ _).mp hl]
    rfl
  | cons x l ih =>
    obtain ⟨a, d⟩ := x
    obtain ⟨f, rfl⟩ : ∃ f, fuel = f + 1 := ⟨fuel - 1, by omega⟩
    obtain ⟨hp, n, hn, hd, _, htl⟩ := (isList_cons _ _ _ _ _ _).mp hl
    subst hp
    simp [list_traverse, hn, ih _ _ f htl (by simpa using hf), hd]

/-- Appending one after the other to a list. -/
theorem append_all_spec (fuel : Nat) (junk : list_node_t) (xs : List (Nat × Nat))
    (s : ListState) (l : List (Nat × Nat)) (hl : IsList s.heap s.head none l)
    (hfresh : ∀ a ∈ xs.map Prod.fst, s.heap a = none) (hnd : (xs.map Prod.fst).Nodup)
    (hf : l.length + xs.length ≤ fuel) :
    ∃ s', append_all fuel junk s xs = some s' ∧ IsList s'.heap s'.head none (l ++ xs) := by
  induction xs generalizing s l with
  | nil => exact ⟨s, rfl, by simpa using hl⟩
  | cons x xs ih =>
    obtain ⟨a, d⟩ := x
    rw [List.map_cons, List.nodup_cons] at hnd
    have ha : s.heap a = none := hfresh a (by simp)
    obtain ⟨s1, h1, _, _, _, h5, h6⟩ := list_append_spec fuel s l d a junk hl ha
      (by simp at hf; omega)
    obtain ⟨s', k1, k2⟩ := ih s1 (l ++ [(a, d)]) h6
      (by
        intro b hb
        have hba : b ≠ a := fun e => hnd.1 (e ▸ hb)
        have hb0 : s.heap b = none := hfresh b (by simp [List.mem_map] at hb ⊢; exact Or.inr hb)
        rw [h5 b hba, hb0]
        simp)
      hnd.2 (by simp at hf ⊢; omega)
    refine ⟨s', ?_, by simpa using k2⟩
    simp only [append_all, h1, Option.bind_eq_bind, Option.some_bind]
    exact k1

/-- Prepending one after the other to a list. -/
theorem prepend_all_spec (junk : list_node_t) (xs : List (Nat × Nat))
    (s : ListState) (l : List (Nat × Nat)) (hl : IsList s.heap s.head none l)
    (hfresh : ∀ a ∈ xs.map Prod.fst, s.heap a = none) (hnd : (xs.map Prod.fst).Nodup) :
    ∃ s', prepend_all junk s xs = some s' ∧ IsList s'.heap s'.head none (xs.reverse ++ l) := by
  induction xs generalizing s l with
  | nil => exact ⟨s, rfl, by simpa using hl⟩
  | cons x xs ih =>
    obtain ⟨a, d⟩ := x
    rw [List.map_cons, List.nodup_cons] at hnd
    have ha : s.heap a = none := hfresh a (by simp)
    obtain ⟨s1, h1, _, _, _, h5, h6⟩ := list_prepend_spec s l d a junk hl ha
    obtain ⟨s', k1, k2⟩ := ih s1 ((a, d) :: l) h6
      (by
        intro b hb
        have hba : b ≠ a := fun e => hnd.1 (e ▸ hb)
        have hb0 : s.heap b = none := hfresh b (by simp [List.mem_map] at hb ⊢; exact Or.inr hb)
        rw [h5 b hba, hb0]
        simp)
      hnd.2
    refine ⟨s', ?_, by simpa using k2⟩
    simp only [prepend_all, h1, Option.bind_eq_bind, Option.some_bind]
    exact k1

/-- C12: for every sequence of data references (`xs`, each with the fresh address that
`malloc` returns for it), appending them in order to the empty list, with fuel for
the walks, gives a list whose traversal from head to tail meets them in this
order, and prepending them in order gives a list whose traversal meets them in
the reverse order. -/
theorem build_order (fuel : Nat) (junk : list_node_t) (s : ListState) (xs : List (Nat × Nat))
    (hempty : s.head = none) (hfresh : ∀ a ∈ xs.map Prod.fst, s.heap a = none)
    (hnd : (xs.map Prod.fst).Nodup) (hf : xs.length < fuel) :
    (∃ s', append_all fuel junk s xs = some s' ∧
      list_traverse s'.heap fuel s'.head = some xs ∧
      (list_traverse s'.heap fuel s'.head).map (fun l => l.map Prod.snd)
        = some (xs.map Prod.snd)) ∧
    (∃ s', prepend_all junk s xs = some s' ∧
      list_traverse s'.heap fuel s'.head = some xs.reverse ∧
      (list_traverse s'.heap fuel s'.head).map (fun l => l.map Prod.snd)
        = some (xs.map Prod.snd).reverse) := by
  have hl : IsList s.heap s.head none [] := (isList_nil _ _ _).mpr hempty
  constructor
  · obtain ⟨s', h1, h2⟩ := append_all_spec fuel junk xs s [] hl hfresh hnd
      (by simp; omega)
    have h3 := list_traverse_spec _ _ _ _ fuel h2 (by simpa using hf)
    simp only [List.nil_append] at h3
    exact ⟨s', h1, h3, by rw [h3]; rfl⟩
  · obtain ⟨s', h1, h2⟩ := prepend_all_spec junk xs s [] hl hfresh hnd
    have h3 := list_traverse_spec _ _ _ _ fuel h2 (by simpa using hf)
    simp only [List.append_nil] at h3
    exact ⟨s', h1, h3, by rw [h3]; simp⟩

/-- Witness of C12: the data references 10, 20, 10 at the addresses 1, 2, 3. -/
theorem build_order_witness :
    (∃ s', append_all 4 ⟨0, none, none⟩ state0 [(1, 10), (2, 20), (3, 10)] = some s' ∧
      list_traverse s'.heap 4 s'.head = some [(1, 10), (2, 20), (3, 10)] ∧
      (list_traverse s'.heap 4 s'.head).map (fun l => l.map Prod.snd)
        = some ([(1, 10), (2, 20), (3, 10)].map Prod.snd)) ∧
    (∃ s', prepend_all ⟨0, none, none⟩ state0 [(1, 10), (2, 20), (3, 10)] = some s' ∧
      list_traverse s'.heap 4 s'.head = some [(1, 10), (2, 20), (3, 10)].reverse ∧
      (list_traverse s'.heap 4 s'.head).map (fun l => l.map Prod.snd)
        = some ([(1, 10), (2, 20), (3, 10)].map Prod.snd).reverse) :=
  build_order 4 ⟨0, none, none⟩ state0 [(1, 10), (2, 20), (3, 10)] rfl
    (by intro a _; rfl) (by decide) (by decide)

/-- The node at each place of a list: its data, and where its links point. -/
theorem isList_get (h : Nat → Option list_node_t) (l : List (Nat × Nat)) (p prev : Option Nat)
    (hl : IsList h p prev l) (i : Nat) (hi : i < l.length) :
    ∃ n, h (l[i].1) = some n ∧ n.data = l[i].2 ∧ n.next = l[i + 1]?.map Prod.fst ∧
      n.prev = if i = 0 then prev else l[i - 1]?.map Prod.fst := by
  induction l generalizing p prev i with
  | nil => simp at hi
  | cons x l ih =>
    obtain ⟨a, d⟩ := x
    obtain ⟨hp, n, hn, hd, hpr, htl⟩ := (isList_cons _ _ _ _ _ _).mp hl
    cases i with
    | zero =>
      refine ⟨n, hn, hd, ?_, by simpa using hpr⟩
      rw [isList_ptr _ _ _ _ htl]
      simp [List.head?_eq_getElem?]
    | succ j =>
      obtain ⟨m, hm, hmd, hmn, hmp⟩ := ih _ _ htl j (by simpa using hi)
      refine ⟨m, by simpa using hm, by simpa using hmd, by simpa using hmn, ?_⟩
      rw [hmp]
      cases j with
      | zero => simp
      | succ k => simp

/-- The backward traversal from the node at place `k` yields the nodes up to this place, the
last first. -/
theorem list_traverse_back_get (h : Nat → Option list_node_t) (l : List (Nat × Nat))
    (p : Option Nat) (hl : IsList h p none l) (k fuel : Nat) (hk : k < l.length)
    (hf : k + 1 < fuel) :
    list_traverse_back h fuel (l[k]?.map Prod.fst) = some (l.take (k + 1)).reverse := by
  induction k generalizing fuel with
  | zero =>
    obtain ⟨f, rfl⟩ : ∃ f, fuel = f + 2 := ⟨fuel - 2, by omega⟩
    obtain ⟨n, hn, hd, _, hpr⟩ := isList_get h l p none hl 0 hk
    rw [if_pos rfl] at hpr
    rw [List.getElem?_eq_getElem hk]
    simp only [Option.map_some', list_traverse_back, hn, hpr, Option.bind_eq_bind,
      Option.some_bind, hd]
    rw [List.take_one, List.head?_eq_getElem?, List.getElem?_eq_getElem hk]
    rfl
  | succ k ih =>
    obtain ⟨f, rfl⟩ : ∃ f, fuel = f + 1 := ⟨fuel - 1, by omega⟩
    obtain ⟨n, hn, hd, _, hpr⟩ := isList_get h l p none hl (k + 1) hk
    rw [if_neg (by omega), Nat.add_sub_cancel] at hpr
    have := ih f (by omega) (by omega)
    rw [List.getElem?_eq_getElem hk]
    simp only [Option.map_some', list_traverse_back, hn, hpr, Option.bind_eq_bind,
      Option.some_bind, hd, this]
    have e : l.take (k + 1 + 1) = l.take (k + 1) ++ [l[k + 1]] := by
      rw [List.take_succ, List.getElem?_eq_getElem hk]
      rfl
    rw [e, List.reverse_append]
    rfl

/-- Whatever the fuel, a forward traversal that has a result yields the nodes of the list. -/
theorem list_traverse_unique (h : Nat → Option list_node_t) (l' l : List (Nat × Nat))
    (p prev : Option Nat) (fuel : Nat) (hl : IsList h p prev l')
    (ht : list_traverse h fuel p = some l) : l = l' := by
  induction l' generalizing p prev fuel l with
  | nil =>
    rw [(isList_nil _ _ _).mp hl] at ht
    cases fuel with
    | zero => cases ht
    | succ f =>
      simp only [list_traverse] at ht
      cases ht
      rfl
  | cons x l' ih =>
    obtain ⟨a, d⟩ := x
    obtain ⟨hp, n, hn, hd, _, htl⟩ := (isList_cons _ _ _ _ _ _).mp hl
    subst hp
    cases fuel with
    | zero => cases ht
    | succ f =>
      simp only [list_traverse, hn, Option.bind_eq_bind, Option.some_bind] at ht
      cases hr : list_traverse h f n.next with
      | none =>
        rw [hr] at ht
        cases ht
      | some rest =>
        rw [hr] at ht
        simp only [Option.some_bind] at ht
        cases ht
        rw [ih _ _ _ _ htl hr, hd]

/-- Whatever the fuel, a walk of `list_append` that has a result ends at the last node. -/
theorem list_append_loop_unique (h : Nat → Option list_node_t) (l1 : List (Nat × Nat))
    (z dz : Nat) (p prev q : Option Nat) (fuel : Nat)
    (hl : IsList h p prev (l1 ++ [(z, dz)])) (hq : list_append_loop h fuel p = some q) :
    q = some z := by
  induction l1 generalizing p prev fuel with
  | nil =>
    obtain ⟨hp, n, hn, _, _, htl⟩ := (isList_cons _ _ _ _ _ _).mp hl
    have hnext := (isList_nil _ _ _).mp htl
    subst hp
    cases fuel with
    | zero => cases hq
    | succ f =>
      simp [list_append_loop, load, hn, hnext] at hq
      exact hq.symm
  | cons x l1 ih =>
    obtain ⟨a, d⟩ := x
    obtain ⟨hp, n, hn, _, _, htl⟩ := (isList_cons _ _ _ _ _ _).mp hl
    obtain ⟨y, hy, _⟩ := isList_head _ _ _ _ htl (by simp)
    subst hp
    cases fuel with
    | zero => cases hq
    | succ f =>
      simp only [list_append_loop, load, hn, hy, Option.bind_eq_bind, Option.some_bind, ne_eq,
        reduceCtorEq, not_false_eq_true, if_true] at hq
      rw [← hy] at hq
      exact ih _ _ f htl hq

/-- A call of `list_append` that has a result has the same result with fuel for the length of
the list. -/
theorem list_append_fuel (fuel : Nat) (s : ListState) (l : List (Nat × Nat)) (d : Nat)
    (new : Option Nat) (junk : list_node_t) (x : Option Nat × ListState)
    (hl : IsList s.heap s.head none l) (hx : list_append fuel s d new junk = some x) :
    list_append l.length s d new junk = some x := by
  rcases l.eq_nil_or_concat with rfl | ⟨l1, ⟨z, dz⟩, hcc⟩
  · have hp := (isList_nil _ _ _).mp hl
    simp only [list_append, list_empty, hp, Option.isNone_none, if_true] at hx ⊢
    exact hx
  · rw [List.concat_eq_append] at hcc
    subst hcc
    obtain ⟨f, hf, _⟩ := isList_head _ _ _ _ hl (by simp)
    cases hq : list_append_loop s.heap fuel s.head with
    | none =>
      simp [list_append, list_empty, hf, hq] at hx
      rw [hf] at hq
      simp [hq] at hx
    | some q =>
      have hqz := list_append_loop_unique _ _ _ _ _ _ _ _ hl hq
      subst hqz
      have hq2 := list_append_loop_spec s.heap l1 z dz s.head none (l1 ++ [(z, dz)]).length hl
        (by simp)
      simp only [list_append, list_empty, hf, Option.isNone_some, Bool.false_eq_true, if_false]
        at hx ⊢
      rw [hf] at hq hq2
      rw [hq] at hx
      rw [hq2]
      exact hx

/-- Every memory that the calls lead to holds a list. -/
theorem reachable_isList (s : ListState) (hr : Reachable s) :
    ∃ l, IsList s.heap s.head none l := by
  induction hr with
  | empty s h => exact ⟨[], (isList_nil _ _ _).mpr h⟩
  | prepend s s' d a junk r _ ha hcall ih =>
    obtain ⟨l, hl⟩ := ih
    obtain ⟨s1, h1, _, _, _, _, h6⟩ := list_prepend_spec s l d a junk hl ha
    rw [h1] at hcall
    cases hcall
    exact ⟨_, h6⟩
  | append fuel s s' d a junk r _ ha hcall ih =>
    obtain ⟨l, hl⟩ := ih
    have hcall2 := list_append_fuel fuel s l d (some a) junk _ hl hcall
    obtain ⟨s1, h1, _, _, _, _, h6⟩ := list_append_spec l.length s l d a junk hl ha (le_refl _)
    rw [h1] at hcall2
    cases hcall2
    exact ⟨_, h6⟩
  | delete fuel s s' n l _ htr hmem hcall ih =>
    obtain ⟨l', hl⟩ := ih
    have hll := list_traverse_unique _ _ _ _ _ _ hl htr
    subst hll
    obtain ⟨⟨n', dn⟩, hx, hn'⟩ := List.mem_map.mp hmem
    simp only at hn'
    subst hn'
    obtain ⟨l1, l2, rfl⟩ := List.append_of_mem hx
    obtain ⟨s1, h1, _, _, _, _, h6⟩ := list_node_delete_spec s l1 l2 n' dn hl
    rw [h1] at hcall
    cases hcall
    exact ⟨_, h6⟩

/-- C11: after every finite sequence of calls of `list_prepend`, `list_append` and
`list_node_delete` (of nodes of the list) that starts from the empty list, the
memory holds a well-formed list `l`: the head, if there is one, has no previous
node; the `prev` link of every node of the list is `NULL` or points to a node whose
`next` link points back, and the `next` link likewise; the traversal from the head
along the `next` links yields `l`, and the traversal from the last node along the
`prev` links yields the same nodes in the reverse order. -/
theorem reachable_well_formed (s : ListState) (hr : Reachable s) :
    ∃ l, IsList s.heap s.head none l ∧
      (∀ a, s.head = some a → ∃ n, s.heap a = some n ∧ n.prev = none) ∧
      (∀ a ∈ l.map Prod.fst, ∃ n, s.heap a = some n ∧
        (n.prev = none ∨ ∃ b m, n.prev = some b ∧ s.heap b = some m ∧ m.next = some a) ∧
        (n.next = none ∨ ∃ b m, n.next = some b ∧ s.heap b = some m ∧ m.prev = some a)) ∧
      ∀ fuel, l.length < fuel →
        list_traverse s.heap fuel s.head = some l ∧
        list_traverse_back s.heap fuel (l.getLast?.map Prod.fst) = some l.reverse := by
  obtain ⟨l, hl⟩ := reachable_isList s hr
  refine ⟨l, hl, ?_, ?_, ?_⟩
  · intro a ha
    exact isList_first_prev _ _ _ _ hl a ha.symm
  · intro a ha
    obtain ⟨⟨a', d⟩, hx, ha'⟩ := List.mem_map.mp ha
    simp only at ha'
    subst ha'
    obtain ⟨i, hi, hget⟩ := List.getElem_of_mem hx
    obtain ⟨n, hn, _, hnx, hpr⟩ := isList_get _ _ _ _ hl i hi
    rw [hget] at hn
    refine ⟨n, hn, ?_, ?_⟩
    · cases i with
      | zero =>
        left
        simpa using hpr
      | succ j =>
        right
        obtain ⟨m, hm, _, hmx, _⟩ := isList_get _ _ _ _ hl j (by omega)
        refine ⟨l[j].1, m, ?_, hm, ?_⟩
        · rw [hpr, if_neg (by omega), Nat.add_sub_cancel, List.getElem?_eq_getElem (by omega)]
          rfl
        · rw [hmx, List.getElem?_eq_getElem hi, hget]
          rfl
    · by_cases hlast : i + 1 < l.length
      · right
        obtain ⟨m, hm, _, _, hmp⟩ := isList_get _ _ _ _ hl (i + 1) hlast
        refine ⟨l[i + 1].1, m, ?_, hm, ?_⟩
        · rw [hnx, List.getElem?_eq_getElem hlast]
          rfl
        · rw [hmp, if_neg (by omega), Nat.add_sub_cancel, List.getElem?_eq_getElem hi, hget]
          rfl
      · left
        rw [hnx, List.getElem?_eq_none (by omega)]
        rfl
  · intro fuel hf
    refine ⟨list_traverse_spec _ _ _ _ fuel hl hf, ?_⟩
    by_cases hnil : l = []
    · subst hnil
      obtain ⟨f, rfl⟩ : ∃ f, fuel = f + 1 := ⟨fuel - 1, by omega⟩
      rfl
    · have hpos : 0 < l.length := List.length_pos.mpr hnil
      have := list_traverse_back_get _ _ _ hl (l.length - 1) fuel (by omega) (by omega)
      rw [List.getLast?_eq_getElem?, this, show l.length - 1 + 1 = l.length by omega,
        List.take_length]

/-- Witness of C11: a prepend, an append and the deletion of the first node, from the empty
list. -/
theorem reachable_well_formed_witness :
    ∃ l, IsList demo3.heap demo3.head none l ∧
      (∀ a, demo3.head = some a → ∃ n, demo3.heap a = some n ∧ n.prev = none) ∧
      (∀ a ∈ l.map Prod.fst, ∃ n, demo3.heap a = some n ∧
        (n.prev = none ∨ ∃ b m, n.prev = some b ∧ demo3.heap b = some m ∧ m.next = some a) ∧
        (n.next = none ∨ ∃ b m, n.next = some b ∧ demo3.heap b = some m ∧ m.prev = some a)) ∧
      ∀ fuel, l.length < fuel →
        list_traverse demo3.heap fuel demo3.head = some l ∧
        list_traverse_back demo3.heap fuel (l.getLast?.map Prod.fst) = some l.reverse :=
  reachable_well_formed demo3
    (Reachable.delete 3 demo2 demo3 1 [(1, 10), (2, 20)]
      (Reachable.append 1 demo1 demo2 20 2 ⟨0, none, none⟩ (some 2)
        (Reachable.prepend state0 demo1 10 1 ⟨0, none, none⟩ (some 1)
          (Reachable.empty state0 rfl) rfl rfl)
        rfl rfl)
      rfl (by decide) rfl)

/-! ## Facts about `formatstr` -/

/-- A turn of the loop of `formatstr` in which the rendering fits. -/
theorem formatstr_loop_fit (conv : Convention) (r : List Nat) (alloc : Nat → Option Nat)
    (fuel b : Nat) (size : Int) (st : FmtState) (h : (r.length : Int) < size) :
    formatstr_loop conv r alloc (fuel + 1) (some b) size st =
      some (some (b, r ++ [0]), { st with sizes := size :: st.sizes }) := by
  have hv : vsnprintf conv r size = ((r.length : Int), r ++ [0]) := by
    simp [vsnprintf, h]
  have h0 : (0 : Int) ≤ (r.length : Int) := Int.natCast_nonneg _
  simp only [formatstr_loop, hv, ge_iff_le, h0, h, and_self, if_true]

/-- A turn of the loop of `formatstr` in which the rendering does not fit and the next capacity
is at most `INT_MAX`. -/
theorem formatstr_loop_grow (conv : Convention) (r : List Nat) (alloc : Nat → Option Nat)
    (fuel b : Nat) (size : Int) (st : FmtState) (h : ¬ (r.length : Int) < size)
    (hpos : 0 < size) (hnext : next_size conv r size ≤ INT_MAX) :
    formatstr_loop conv r alloc (fuel + 1) (some b) size st =
      formatstr_loop conv r alloc fuel (alloc st.calls) (next_size conv r size)
        (if alloc st.calls = none then
          fmt_free (fmt_realloc { st with sizes := size :: st.sizes } b (alloc st.calls)) b
        else fmt_realloc { st with sizes := size :: st.sizes } b (alloc st.calls)) := by
  cases conv with
  | c99 =>
    simp only [next_size] at hnext
    have hle : (r.length : Int) ≤ INT_MAX := by omega
    have hv : (vsnprintf Convention.c99 r size).1 = (r.length : Int) := by
      simp [vsnprintf, h, hle]
    have hge : (r.length : Int) ≥ size := by omega
    simp only [formatstr_loop, hv, h, and_false, if_false, hge, if_true, next_size]
    rw [if_neg (by omega)]
  | windows =>
    simp only [next_size] at hnext
    have hv : (vsnprintf Convention.windows r size).1 = -1 := by
      simp [vsnprintf, h]
    have h1 : ¬ ((-1 : Int) ≥ 0 ∧ (-1 : Int) < size) := by omega
    have h2 : ¬ ((-1 : Int) ≥ size) := by omega
    simp only [formatstr_loop, hv, h1, if_false, h2, next_size]
    rw [if_neg (by omega)]

/-- A turn of the loop of `formatstr` in which the rendering does not fit and the next capacity
is above `INT_MAX`: the assignment to `size` overflows and the loop has no result. -/
theorem formatstr_loop_overflow (conv : Convention) (r : List Nat) (alloc : Nat → Option Nat)
    (fuel b : Nat) (size : Int) (st : FmtState) (h : ¬ (r.length : Int) < size)
    (hpos : 0 < size) (hle : conv = Convention.c99 → (r.length : Int) ≤ INT_MAX)
    (hnext : INT_MAX < next_size conv r size) :
    formatstr_loop conv r alloc (fuel + 1) (some b) size st = none := by
  cases conv with
  | c99 =>
    have hle := hle rfl
    simp only [next_size] at hnext
    have hv : (vsnprintf Convention.c99 r size).1 = (r.length : Int) := by
      simp [vsnprintf, h, hle]
    have hge : (r.length : Int) ≥ size := by omega
    simp only [formatstr_loop, hv, h, and_false, if_false, hge, if_true]
    rw [if_pos hnext]
  | windows =>
    simp only [next_size] at hnext
    have hv : (vsnprintf Convention.windows r size).1 = -1 := by
      simp [vsnprintf, h]
    have h1 : ¬ ((-1 : Int) ≥ 0 ∧ (-1 : Int) < size) := by omega
    have h2 : ¬ ((-1 : Int) ≥ size) := by omega
    simp only [formatstr_loop, hv, h1, if_false, h2]
    rw [if_pos hnext]

/-- For a rendering of at most `max_len` bytes that does not fit, the next capacity is at most
`INT_MAX`. -/
theorem next_size_le (conv : Convention) (r : List Nat) (size : Int)
    (hmax : r.length ≤ max_len conv) (h : ¬ (r.length : Int) < size) :
    next_size conv r size ≤ INT_MAX := by
  have hI : INT_MAX = 2147483647 := rfl
  cases conv with
  | c99 =>
    simp only [max_len] at hmax
    simp only [next_size]
    omega
  | windows =>
    simp only [max_len] at hmax
    simp only [next_size]
    omega

theorem next_size_bound (conv : Convention) (r : List Nat) (size : Int) (f : Nat)
    (h : (r.length : Int) < size * 2 ^ (f + 1)) (hpos : 0 < size) :
    (r.length : Int) < next_size conv r size * 2 ^ f ∧ 0 < next_size conv r size := by
  have h2 : (1 : Int) ≤ 2 ^ f := one_le_pow₀ (by norm_num)
  have h0 : (0 : Int) ≤ (r.length : Int) := Int.natCast_nonneg _
  cases conv with
  | c99 =>
    simp only [next_size]
    constructor
    · nlinarith
    · omega
  | windows =>
    simp only [next_size]
    constructor
    · rw [pow_succ] at h
      linarith [h]
    · omega

/-- The loop of `formatstr`, started with a block `b` that the call number `calls - 1` returned:
what it returns and what is allocated and released at the end. -/
theorem formatstr_loop_spec (conv : Convention) (r : List Nat) (alloc : Nat → Option Nat)
    (hmax : r.length ≤ max_len conv)
    (f : Nat) (fuel b : Nat) (size : Int) (st : FmtState) (hf : f + 1 < fuel)
    (hn : (r.length : Int) < size * 2 ^ f) (hpos : 0 < size)
    (hheld : st.held = [b]) (hfreed : st.freed = [])
    (hok : ∀ k, k < st.calls → alloc k ≠ none) (hcalls : 0 < st.calls)
    (hb : alloc (st.calls - 1) = some b) :
    ∃ res st', formatstr_loop conv r alloc fuel (some b) size st = some (res, st') ∧
      (res = none ↔ ∃ k, k < st'.calls ∧ alloc k = none) ∧
      (res = none → st'.held = [] ∧ 2 ≤ st'.calls ∧
        ∃ b', alloc (st'.calls - 2) = some b' ∧ st'.freed = [b']) ∧
      (∀ b' c, res = some (b', c) → c = r ++ [0] ∧ st'.held = [b'] ∧ st'.freed = [] ∧
        alloc (st'.calls - 1) = some b') := by
  induction f generalizing fuel b size st with
  | zero =>
    obtain ⟨g, rfl⟩ : ∃ g, fuel = g + 1 := ⟨fuel - 1, by omega⟩
    have hfit : (r.length : Int) < size := by simpa using hn
    refine ⟨_, _, formatstr_loop_fit conv r alloc g b size st hfit, ?_, by simp, ?_⟩
    · simp only [reduceCtorEq, false_iff, not_exists, not_and]
      exact hok
    · intro b' c hbc
      cases hbc
      exact ⟨rfl, hheld, hfreed, hb⟩
  | succ f ih =>
    obtain ⟨g, rfl⟩ : ∃ g, fuel = g + 1 := ⟨fuel - 1, by omega⟩
    by_cases hfit : (r.length : Int) < size
    · refine ⟨_, _, formatstr_loop_fit conv r alloc g b size st hfit, ?_, by simp, ?_⟩
      · simp only [reduceCtorEq, false_iff, not_exists, not_and]
        exact hok
      · intro b' c hbc
        cases hbc
        exact ⟨rfl, hheld, hfreed, hb⟩
    · rw [formatstr_loop_grow conv r alloc g b size st hfit hpos
        (next_size_le conv r size hmax hfit)]
      obtain ⟨hn', hpos'⟩ := next_size_bound conv r size f hn hpos
      cases ha : alloc st.calls with
      | none =>
        obtain ⟨g', rfl⟩ : ∃ g', g = g' + 1 := ⟨g - 1, by omega⟩
        rw [if_pos rfl]
        refine ⟨none, _, rfl, ?_, ?_, by simp⟩
        · simp only [true_iff]
          exact ⟨st.calls, by simp [fmt_free, fmt_realloc], ha⟩
        · intro _
          refine ⟨by simp [fmt_free, fmt_realloc, hheld], by simp [fmt_free, fmt_realloc]; omega,
            b, ?_, by simp [fmt_free, fmt_realloc, hfreed]⟩
          simp only [fmt_free, fmt_realloc]
          rw [show st.calls + 1 - 2 = st.calls - 1 by omega]
          exact hb
      | some b' =>
        simp only [reduceCtorEq, if_false]
        apply ih g b' (next_size conv r size) _ (by omega) hn' hpos'
        · simp [fmt_realloc, hheld]
        · simp [fmt_realloc, hfreed]
        · intro k hk
          simp only [fmt_realloc] at hk
          by_cases hk2 : k < st.calls
          · exact hok k hk2
          · have : k = st.calls := by omega
            rw [this, ha]
            simp
        · simp [fmt_realloc]
        · simp only [fmt_realloc, Nat.add_sub_cancel]
          exact ha

/-- The capacities that the loop of `formatstr` tries with the Windows version of `vsnprintf`:
each is twice the one before. -/
theorem formatstr_loop_sizes_windows (r : List Nat) (alloc : Nat → Option Nat)
    (hmax : r.length ≤ max_len Convention.windows)
    (f : Nat) (fuel b : Nat) (size : Int) (st : FmtState) (hf : f + 1 < fuel)
    (hn : (r.length : Int) < size * 2 ^ f) (hpos : 0 < size) :
    ∃ res st' extra, formatstr_loop Convention.windows r alloc fuel (some b) size st
        = some (res, st') ∧
      st'.sizes = extra ++ st.sizes ∧
      ∀ i s, extra.reverse[i]? = some s → s = size * 2 ^ i := by
  induction f generalizing fuel b size st with
  | zero =>
    obtain ⟨g, rfl⟩ : ∃ g, fuel = g + 1 := ⟨fuel - 1, by omega⟩
    have hfit : (r.length : Int) < size := by simpa using hn
    refine ⟨_, _, [size], formatstr_loop_fit _ r alloc g b size st hfit, rfl, ?_⟩
    intro i s hs
    cases i with
    | zero => simpa using hs.symm
    | succ j => simp at hs
  | succ f ih =>
    obtain ⟨g, rfl⟩ : ∃ g, fuel = g + 1 := ⟨fuel - 1, by omega⟩
    by_cases hfit : (r.length : Int) < size
    · refine ⟨_, _, [size], formatstr_loop_fit _ r alloc g b size st hfit, rfl, ?_⟩
      intro i s hs
      cases i with
      | zero => simpa using hs.symm
      | succ j => simp at hs
    · rw [formatstr_loop_grow _ r alloc g b size st hfit hpos
        (next_size_le Convention.windows r size hmax hfit)]
      obtain ⟨hn', hpos'⟩ := next_size_bound Convention.windows r size f hn hpos
      cases ha : alloc st.calls with
      | none =>
        obtain ⟨g', rfl⟩ : ∃ g', g = g' + 1 := ⟨g - 1, by omega⟩
        rw [if_pos rfl]
        refine ⟨none, _, [size], rfl, by simp [fmt_free, fmt_realloc], ?_⟩
        intro i s hs
        cases i with
        | zero => simpa using hs.symm
        | succ j => simp at hs
      | some b' =>
        simp only [reduceCtorEq, if_false]
        obtain ⟨res, st', extra, h1, h2, h3⟩ := ih g b' (next_size Convention.windows r size)
          (fmt_realloc { st with sizes := size :: st.sizes } b (some b')) (by omega) hn' hpos'
        refine ⟨res, st', extra ++ [size], h1, ?_, ?_⟩
        · rw [h2]
          simp [fmt_realloc]
        · intro i s hs
          rw [List.reverse_append] at hs
          cases i with
          | zero =>
            simp only [List.reverse_cons, List.reverse_nil, List.nil_append, List.singleton_append,
              List.getElem?_cons_zero, Option.some.injEq] at hs
            rw [← hs]
            simp
          | succ j =>
            simp only [List.reverse_cons, List.reverse_nil, List.nil_append, List.singleton_append,
              List.getElem?_cons_succ] at hs
            rw [h3 j s hs]
            simp only [next_size]
            rw [pow_succ]
            ring

/-- The capacities that the loop of `formatstr` tries with the C99 version of `vsnprintf`: the
first one and, when the rendering does not fit and `realloc` succeeds, once more with
`ret + 1`, which fits. -/
theorem formatstr_loop_sizes_c99 (r : List Nat) (alloc : Nat → Option Nat)
    (hmax : r.length ≤ max_len Convention.c99)
    (fuel b : Nat) (size : Int) (st : FmtState) (hf : 2 < fuel) (hpos : 0 < size) :
    ∃ res st', formatstr_loop Convention.c99 r alloc fuel (some b) size st = some (res, st') ∧
      (st'.sizes = size :: st.sizes ∨
        (st'.sizes = ((r.length : Int) + 1) :: size :: st.sizes ∧ size ≤ (r.length : Int) ∧
          ∃ b', res = some (b', r ++ [0]))) := by
  obtain ⟨g, rfl⟩ : ∃ g, fuel = g + 2 := ⟨fuel - 2, by omega⟩
  by_cases hfit : (r.length : Int) < size
  · exact ⟨_, _, formatstr_loop_fit _ r alloc (g + 1) b size st hfit, Or.inl rfl⟩
  · rw [formatstr_loop_grow _ r alloc (g + 1) b size st hfit hpos
      (next_size_le Convention.c99 r size hmax hfit)]
    cases ha : alloc st.calls with
    | none =>
      rw [if_pos rfl]
      exact ⟨none, _, rfl, Or.inl (by simp [fmt_free, fmt_realloc])⟩
    | some b' =>
      simp only [reduceCtorEq, if_false]
      have hfit2 : (r.length : Int) < next_size Convention.c99 r size := by
        simp [next_size]
      refine ⟨_, _, formatstr_loop_fit _ r alloc g b' _ _ hfit2, Or.inr ⟨?_, by omega, b', rfl⟩⟩
      simp [fmt_realloc, next_size]

theorem length_lt_capacity (r : List Nat) : (r.length : Int) < 128 * 2 ^ r.length := by
  have h1 : r.length < 2 ^ r.length := Nat.lt_two_pow r.length
  have h2 : ((r.length : Nat) : Int) < ((2 ^ r.length : Nat) : Int) := by exact_mod_cast h1
  have h3 : (0 : Int) ≤ 2 ^ r.length := by positivity
  push_cast at h2
  linarith

/-- The function `formatstr` on a rendering of at most `max_len` bytes: what it returns and
what is allocated and released at the end. -/
theorem formatstr_spec (conv : Convention) (r : List Nat) (alloc : Nat → Option Nat)
    (hmax : r.length ≤ max_len conv) (fuel : Nat) (hf : r.length + 1 < fuel) :
    ∃ res st, formatstr conv r alloc fuel = some (res, st) ∧
      (res = none ↔ ∃ k, k < st.calls ∧ alloc k = none) ∧
      (res = none → st.held = [] ∧
        ((st.calls = 1 ∧ st.freed = []) ∨
          (2 ≤ st.calls ∧ ∃ b, alloc (st.calls - 2) = some b ∧ st.freed = [b]))) ∧
      (∀ b c, res = some (b, c) → c = r ++ [0] ∧ st.held = [b] ∧ st.freed = []) := by
  cases ha : alloc 0 with
  | none =>
    obtain ⟨g, rfl⟩ : ∃ g, fuel = g + 1 := ⟨fuel - 1, by omega⟩
    refine ⟨none, ⟨[], [], [], 1⟩, by simp [formatstr, ha, formatstr_loop], ?_, ?_, by simp⟩
    · simp only [true_iff]
      exact ⟨0, by simp, ha⟩
    · intro _
      exact ⟨rfl, Or.inl ⟨rfl, rfl⟩⟩
  | some b =>
    obtain ⟨res, st, h1, h2, h3, h4⟩ := formatstr_loop_spec conv r alloc hmax r.length fuel b 128
      ⟨[b], [], [], 1⟩ hf (length_lt_capacity r) (by norm_num) rfl rfl
      (by
        intro k hk
        have : k = 0 := by simpa using hk
        rw [this, ha]
        simp)
      (by simp) (by simpa using ha)
    refine ⟨res, st, by simpa [formatstr, ha] using h1, h2, ?_, ?_⟩
    · intro hres
      obtain ⟨k1, k2, k3⟩ := h3 hres
      exact ⟨k1, Or.inr ⟨k2, k3⟩⟩
    · intro b' c hbc
      obtain ⟨k1, k2, k3, _⟩ := h4 b' c hbc
      exact ⟨k1, k2, k3⟩

/-- With every allocation succeeding, `formatstr` returns the complete rendering when it has at
most `max_len` bytes. -/
theorem formatstr_returns_rendering (conv : Convention) (r : List Nat)
    (alloc : Nat → Option Nat) (hmax : r.length ≤ max_len conv) (fuel : Nat)
    (hall : ∀ k, alloc k ≠ none) (hf : r.length + 1 < fuel) :
    ∃ b st, formatstr conv r alloc fuel = some (some (b, r ++ [0]), st) := by
  obtain ⟨res, st, h1, h2, _, h4⟩ := formatstr_spec conv r alloc hmax fuel hf
  cases res with
  | none =>
    obtain ⟨k, _, hk⟩ := h2.mp rfl
    exact absurd hk (hall k)
  | some x =>
    obtain ⟨b, c⟩ := x
    obtain ⟨hc, _⟩ := h4 b c rfl
    subst hc
    exact ⟨b, st, h1⟩

/-! ## The claims about `formatstr` -/

theorem le_max_len (conv : Convention) (n : Nat) (h : n ≤ 1073741823) : n ≤ max_len conv := by
  cases conv with
  | c99 =>
    simp only [max_len]
    omega
  | windows => exact h

/-- With the Windows version of `vsnprintf`, every allocation succeeding and a rendering of
`2 ^ 30` bytes or more, the loop of `formatstr` started with a capacity `2 ^ j` has
no result: the capacity is doubled up to `2 ^ 30`, which the rendering does not
fit, and doubling it once more overflows. -/
theorem formatstr_loop_windows_overflow (r : List Nat) (alloc : Nat → Option Nat)
    (hall : ∀ k, alloc k ≠ none) (hlen : 1073741824 ≤ r.length) (fuel : Nat) :
    ∀ (j b : Nat) (st : FmtState), j ≤ 30 →
      formatstr_loop Convention.windows r alloc fuel (some b) (2 ^ j) st = none := by
  have hI : INT_MAX = 2147483647 := rfl
  induction fuel with
  | zero =>
    intro j b st _
    rfl
  | succ f ih =>
    intro j b st hj
    have hp : (2 : Int) ^ j ≤ 2 ^ 30 := pow_le_pow_right₀ (by norm_num) hj
    have h30 : (2 : Int) ^ 30 = 1073741824 := by norm_num
    have hpos : (0 : Int) < 2 ^ j := by positivity
    have hfit : ¬ (r.length : Int) < 2 ^ j := by omega
    by_cases hj30 : j = 30
    · subst hj30
      apply formatstr_loop_overflow _ r alloc f b _ st hfit hpos (by intro h; cases h)
      simp only [next_size]
      omega
    · have hp' : (2 : Int) ^ (j + 1) ≤ 2 ^ 30 := pow_le_pow_right₀ (by norm_num) (by omega)
      have hs : (2 : Int) ^ j * 2 = 2 ^ (j + 1) := (pow_succ 2 j).symm
      rw [formatstr_loop_grow _ r alloc f b _ st hfit hpos
        (by simp only [next_size]; omega)]
      obtain ⟨b', hb'⟩ := Option.ne_none_iff_exists'.mp (hall st.calls)
      rw [hb', if_neg (by simp)]
      simp only [next_size]
      rw [hs]
      exact ih (j + 1) b' _ (by omega)

/-- With the Windows version of `vsnprintf` and every allocation succeeding, `formatstr` has no
result on a rendering of `2 ^ 30` bytes or more. -/
theorem formatstr_windows_overflow (r : List Nat) (alloc : Nat → Option Nat)
    (hall : ∀ k, alloc k ≠ none) (hlen : 1073741824 ≤ r.length) (fuel : Nat) :
    formatstr Convention.windows r alloc fuel = none := by
  obtain ⟨b, hb⟩ := Option.ne_none_iff_exists'.mp (hall 0)
  have h := formatstr_loop_windows_overflow r alloc hall hlen fuel 7 b ⟨[b], [], [], 1⟩
    (by decide)
  have e : (2 : Int) ^ 7 = 128 := by norm_num
  rw [e] at h
  simpa [formatstr, hb] using h

/-- With the C99 version of `vsnprintf` and every allocation succeeding, `formatstr` has no result
on a rendering of `INT_MAX` bytes: the first call returns `INT_MAX`, and `ret + 1`
overflows. -/
theorem formatstr_c99_overflow (r : List Nat) (alloc : Nat → Option Nat)
    (hall : ∀ k, alloc k ≠ none) (hlen : r.length = 2147483647) (fuel : Nat) :
    formatstr Convention.c99 r alloc fuel = none := by
  have hI : INT_MAX = 2147483647 := rfl
  obtain ⟨b, hb⟩ := Option.ne_none_iff_exists'.mp (hall 0)
  cases fuel with
  | zero => simp [formatstr, hb, formatstr_loop]
  | succ f =>
    have h := formatstr_loop_overflow Convention.c99 r alloc f b 128 ⟨[b], [], [], 1⟩
      (by omega) (by norm_num) (by intro _; omega) (by simp only [next_size]; omega)
    simpa [formatstr, hb] using h

/-- Counterexample to C14: with every allocation succeeding, no run of `formatstr` returns the
complete rendering of `2 ^ 30` letters `a` with the Windows version of
`vsnprintf`, nor that of `INT_MAX` letters `a` with the C99 version. -/
theorem formatstr_complete_counterexample :
    (¬ ∃ fuel b st, formatstr Convention.windows (List.replicate 1073741824 97)
        (fun k => some k) fuel = some (some (b, List.replicate 1073741824 97 ++ [0]), st)) ∧
    (¬ ∃ fuel b st, formatstr Convention.c99 (List.replicate 2147483647 97)
        (fun k => some k) fuel = some (some (b, List.replicate 2147483647 97 ++ [0]), st)) := by
  constructor
  · rintro ⟨fuel, b, st, h⟩
    rw [formatstr_windows_overflow _ _ (by intro k; simp)
      (by rw [List.length_replicate]) fuel] at h
    cases h
  · rintro ⟨fuel, b, st, h⟩
    rw [formatstr_c99_overflow _ _ (by intro k; simp)
      (by rw [List.length_replicate]) fuel] at h
    cases h

/-- C14, amended: for every rendering `r` of a template with its arguments of at most `max_len`
bytes (`2 ^ 30 - 1` with the Windows version of `vsnprintf`, `INT_MAX - 1` with the
C99 version), when every allocation succeeds (and the loop has fuel for the length
of `r`) `formatstr` returns a buffer that holds all of `r` followed by the
terminator, a string of `r.length` bytes when `r` has no zero byte.  In particular
the rendering `42-ok` and a rendering of 200 bytes, longer than the first capacity
128, are returned in full. -/
theorem formatstr_complete (conv : Convention) (r : List Nat) (alloc : Nat → Option Nat)
    (fuel : Nat) (hmax : r.length ≤ max_len conv) (hall : ∀ k, alloc k ≠ none)
    (hf : r.length + 1 < fuel) :
    (∃ b st, formatstr conv r alloc fuel = some (some (b, r ++ [0]), st)) ∧
    (0 ∉ r → strlen (r ++ [0]) = some r.length) ∧
    (∃ b st, formatstr conv [52, 50, 45, 111, 107] alloc 7
      = some (some (b, [52, 50, 45, 111, 107, 0]), st)) ∧
    (∃ b st, formatstr conv (List.replicate 200 97) alloc 202
      = some (some (b, List.replicate 200 97 ++ [0]), st)) := by
  refine ⟨formatstr_returns_rendering conv r alloc hmax fuel hall hf,
    fun h0 => strlen_cstr r [] h0,
    formatstr_returns_rendering conv [52, 50, 45, 111, 107] alloc
      (le_max_len conv _ (by decide)) 7 hall (by decide),
    formatstr_returns_rendering conv (List.replicate 200 97) alloc
      (le_max_len conv _ (by rw [List.length_replicate]; decide)) 202 hall
      (by rw [List.length_replicate]; decide)⟩

/-- Witness of C14: the rendering `42-ok` with the Windows version of `vsnprintf`. -/
theorem formatstr_complete_witness :
    ∃ b st, formatstr Convention.windows [52, 50, 45, 111, 107] (fun k => some k) 7
      = some (some (b, [52, 50, 45, 111, 107] ++ [0]), st) :=
  (formatstr_complete Convention.windows [52, 50, 45, 111, 107] (fun k => some k) 7
    (by decide) (by intro k; simp) (by decide)).1

/-- Counterexample to C15: on the rendering of `2 ^ 30` letters `a`, with the Windows version of
`vsnprintf`, no call of `malloc` or `realloc` fails and yet no run of `formatstr`
returns a buffer, or `NULL`: doubling the capacity `2 ^ 30` overflows. -/
theorem formatstr_null_iff_counterexample :
    (∀ k : Nat, (fun k : Nat => some k) k ≠ none) ∧
    ¬ ∃ fuel res st, formatstr Convention.windows (List.replicate 1073741824 97)
        (fun k => some k) fuel = some (res, st) := by
  refine ⟨by intro k; simp, ?_⟩
  rintro ⟨fuel, res, st, h⟩
  rw [formatstr_windows_overflow _ _ (by intro k; simp)
    (by rw [List.length_replicate]) fuel] at h
  cases h

/-- C15, amended: on a rendering of at most `max_len` bytes, whatever the calls of `malloc` and
`realloc` return (`alloc k` for the call number `k`), `formatstr` returns `NULL`
exactly when one of the calls it made returned `NULL`.  It then holds no block:
either the first call failed and nothing was released, or a call of `realloc`
failed and the block held before it, which the call before returned, was handed to
`free`.  When it returns a buffer, that block is the only one held and nothing was
handed to `free`. -/
theorem formatstr_null_iff (conv : Convention) (r : List Nat) (alloc : Nat → Option Nat)
    (fuel : Nat) (hmax : r.length ≤ max_len conv) (hf : r.length + 1 < fuel) :
    ∃ res st, formatstr conv r alloc fuel = some (res, st) ∧
      (res = none ↔ ∃ k, k < st.calls ∧ alloc k = none) ∧
      (res = none → st.held = [] ∧
        ((st.calls = 1 ∧ st.freed = []) ∨
          (2 ≤ st.calls ∧ ∃ b, alloc (st.calls - 2) = some b ∧ st.freed = [b]))) ∧
      (∀ b c, res = some (b, c) → st.held = [b] ∧ st.freed = [] ∧ b ∉ st.freed) := by
  obtain ⟨res, st, h1, h2, h3, h4⟩ := formatstr_spec conv r alloc hmax fuel hf
  refine ⟨res, st, h1, h2, h3, ?_⟩
  intro b c hbc
  obtain ⟨_, k2, k3⟩ := h4 b c hbc
  exact ⟨k2, k3, by rw [k3]; simp⟩

/-- Witness of C15: a rendering of 130 bytes when the first call of `realloc` fails. -/
theorem formatstr_null_iff_witness :
    ∃ res st, formatstr Convention.windows (List.replicate 130 97)
        (fun k => if k = 1 then none else some k) 132 = some (res, st) ∧
      (res = none ↔ ∃ k, k < st.calls ∧ (fun k => if k = 1 then none else some k) k = none) ∧
      (res = none → st.held = [] ∧
        ((st.calls = 1 ∧ st.freed = []) ∨
          (2 ≤ st.calls ∧
            ∃ b, (fun k => if k = 1 then none else some k) (st.calls - 2) = some b ∧
              st.freed = [b]))) ∧
      (∀ b c, res = some (b, c) → st.held = [b] ∧ st.freed = [] ∧ b ∉ st.freed) :=
  formatstr_null_iff Convention.windows (List.replicate 130 97)
    (fun k => if k = 1 then none else some k) 132 (by rw [List.length_replicate]; decide)
    (by rw [List.length_replicate]; decide)

/-- Counterexample to C16: on the rendering of `INT_MAX` letters `a` the C99 version of `vsnprintf`
reports the needed size `ret = INT_MAX`, above the capacity 128, and `ret + 1` is
above `INT_MAX`: no run of `formatstr` has a result, so there is no next capacity
`ret + 1` and no second call that succeeds.  With the Windows version and the
rendering of `2 ^ 30` letters `a`, the turn with the capacity `128 * 2 ^ 23` has no
result either: there is no capacity `128 * 2 ^ 24`. -/
theorem formatstr_capacities_counterexample :
    (vsnprintf Convention.c99 (List.replicate 2147483647 97) 128).1 = 2147483647 ∧
    INT_MAX < 2147483647 + 1 ∧
    (¬ ∃ fuel res st, formatstr Convention.c99 (List.replicate 2147483647 97)
        (fun k => some k) fuel = some (res, st)) ∧
    INT_MAX < 128 * 2 ^ 24 ∧
    (¬ ∃ fuel b st0 res st, formatstr_loop Convention.windows (List.replicate 1073741824 97)
        (fun k => some k) fuel (some b) (128 * 2 ^ 23) st0 = some (res, st)) := by
  refine ⟨?_, by decide, ?_, by decide, ?_⟩
  · simp only [vsnprintf, List.length_replicate]
    rw [if_neg (by norm_num), if_pos (by decide)]
    rfl
  · rintro ⟨fuel, res, st, h⟩
    rw [formatstr_c99_overflow _ _ (by intro k; simp)
      (by rw [List.length_replicate]) fuel] at h
    cases h
  · rintro ⟨fuel, b, st0, res, st, h⟩
    have e : (128 : Int) * 2 ^ 23 = 2 ^ 30 := by norm_num
    rw [e, formatstr_loop_windows_overflow _ _ (by intro k; simp)
      (by rw [List.length_replicate]) fuel 30 b st0 (le_refl _)] at h
    cases h

/-- C16, amended: whatever the calls of `malloc` and `realloc` return, with the Windows version of
`vsnprintf`, which returns `-1` on truncation, and a rendering of at most
`2 ^ 30 - 1` bytes, the capacities it is called with are 128, 256, 512, ...: the
one number `i` is `128 * 2 ^ i`.  With the C99 version and a rendering of at most
`INT_MAX - 1` bytes it is called at most twice, first with 128, and a second call
is with the capacity `ret + 1`, the length of the rendering plus one, and returns
the complete rendering. -/
theorem formatstr_capacities (r : List Nat) (alloc : Nat → Option Nat) (fuel : Nat)
    (hf : r.length + 1 < fuel) :
    (r.length ≤ max_len Convention.windows →
      ∃ res st, formatstr Convention.windows r alloc fuel = some (res, st) ∧
        ∀ (i : Nat) (s : Int), st.sizes.reverse[i]? = some s → s = 128 * 2 ^ i) ∧
    (r.length ≤ max_len Convention.c99 →
      ∃ res st, formatstr Convention.c99 r alloc fuel = some (res, st) ∧
        st.sizes.length ≤ 2 ∧
        (∀ s, st.sizes.reverse[0]? = some s → s = 128) ∧
        (∀ s, st.sizes.reverse[1]? = some s →
          s = (r.length : Int) + 1 ∧ 128 ≤ r.length ∧ ∃ b, res = some (b, r ++ [0]))) := by
  constructor
  · intro hmax
    cases ha : alloc 0 with
    | none =>
      obtain ⟨g, rfl⟩ : ∃ g, fuel = g + 1 := ⟨fuel - 1, by omega⟩
      refine ⟨none, ⟨[], [], [], 1⟩, by simp [formatstr, ha, formatstr_loop], ?_⟩
      intro i s hs
      simp at hs
    | some b =>
      obtain ⟨res, st, extra, h1, h2, h3⟩ := formatstr_loop_sizes_windows r alloc hmax r.length
        fuel b 128 ⟨[b], [], [], 1⟩ hf (length_lt_capacity r) (by norm_num)
      refine ⟨res, st, by simpa [formatstr, ha] using h1, ?_⟩
      intro i s hs
      rw [h2] at hs
      exact h3 i s (by simpa using hs)
  · intro hmax
    cases ha : alloc 0 with
    | none =>
      obtain ⟨g, rfl⟩ : ∃ g, fuel = g + 1 := ⟨fuel - 1, by omega⟩
      refine ⟨none, ⟨[], [], [], 1⟩, by simp [formatstr, ha, formatstr_loop], by simp,
        by simp, by simp⟩
    | some b =>
      by_cases hfuel : 2 < fuel
      · obtain ⟨res, st, h1, h2⟩ := formatstr_loop_sizes_c99 r alloc hmax fuel b 128
          ⟨[b], [], [], 1⟩ hfuel (by norm_num)
        refine ⟨res, st, by simpa [formatstr, ha] using h1, ?_⟩
        rcases h2 with h2 | ⟨h2, h3, h4⟩
        · rw [h2]
          simp
        · rw [h2]
          refine ⟨by simp, by simp, ?_⟩
          intro s hs
          simp only [List.reverse_cons, List.reverse_nil, List.nil_append, List.singleton_append,
            List.getElem?_cons_succ, List.getElem?_cons_zero, Option.some.injEq] at hs
          exact ⟨hs.symm, by omega, h4⟩
      · have hr : r = [] := by
          have : r.length = 0 := by omega
          exact List.length_eq_zero.mp this
        subst hr
        obtain ⟨g, rfl⟩ : ∃ g, fuel = g + 1 := ⟨fuel - 1, by omega⟩
        have hfit : (([] : List Nat).length : Int) < 128 := by simp
        have h1 := formatstr_loop_fit Convention.c99 [] alloc g b 128 ⟨[b], [], [], 1⟩ hfit
        refine ⟨_, _, by simpa [formatstr, ha] using h1, by simp, by simp, by simp⟩

/-- Witness of C16: a rendering of 300 bytes. -/
theorem formatstr_capacities_witness :
    (∃ res st, formatstr Convention.windows (List.replicate 300 97) (fun k => some k) 302
        = some (res, st) ∧
      ∀ (i : Nat) (s : Int), st.sizes.reverse[i]? = some s → s = 128 * 2 ^ i) ∧
    (∃ res st, formatstr Convention.c99 (List.replicate 300 97) (fun k => some k) 302
        = some (res, st) ∧
      st.sizes.length ≤ 2 ∧
      (∀ s, st.sizes.reverse[0]? = some s → s = 128) ∧
      (∀ s, st.sizes.reverse[1]? = some s →
        s = ((List.replicate 300 97).length : Int) + 1 ∧ 128 ≤ (List.replicate 300 97).length ∧
          ∃ b, res = some (b, List.replicate 300 97 ++ [0]))) :=
  ⟨(formatstr_capacities (List.replicate 300 97) (fun k => some k) 302
      (by rw [List.length_replicate]; decide)).1 (by rw [List.length_replicate]; decide),
    (formatstr_capacities (List.replicate 300 97) (fun k => some k) 302
      (by rw [List.length_replicate]; decide)).2 (by rw [List.length_replicate]; decide)⟩

/-! ## `trim` on a string of `UINT_MAX + 1` bytes -/

/-- More fuel does not change the result of the copying loop. -/
theorem trim_copy_mono (f f' : Nat) (m : Mem) (p : Int) (i : Nat) (r : Mem)
    (h : trim_copy f m p i = some r) (hf : f ≤ f') : trim_copy f' m p i = some r := by
  induction f generalizing f' m i with
  | zero => simp [trim_copy] at h
  | succ f ih =>
    obtain ⟨g, rfl⟩ : ∃ g, f' = g + 1 := ⟨f' - 1, by omega⟩
    simp only [trim_copy, Option.bind_eq_bind] at h ⊢
    cases h1 : m.strlen p with
    | none => simp [h1] at h
    | some nm =>
      obtain ⟨n, m1⟩ := nm
      simp only [h1] at h ⊢
      simp only [Option.some_bind] at h ⊢
      by_cases hi : i ≤ n
      · rw [if_pos hi] at h ⊢
        cases h2 : m1.read (p + (i : Int)) with
        | none => simp [h2] at h
        | some cm =>
          obtain ⟨c, m2⟩ := cm
          simp only [h2] at h ⊢
          simp only [Option.some_bind] at h ⊢
          cases h3 : m2.write (i : Int) c with
          | none => simp [h3] at h
          | some m3 =>
            simp only [h3] at h ⊢
            simp only [Option.some_bind] at h ⊢
            exact ih g m3 _ h (by omega)
      · rw [if_neg hi] at h ⊢
        exact h

/-- One turn of the copying loop, the counter at most the length of the string to move. -/
theorem trim_copy_step (orig : List Nat) (n k : Nat) (hk : 0 < k) (hkn : k ≤ n)
    (hnz : ∀ i, i < n → ∃ c, orig[i]? = some c ∧ c ≠ 0) (hn : orig[n]? = some 0)
    (i f : Nat) (B : List Nat) (log : List Int) (him : i ≤ n - k)
    (hlen : B.length = orig.length)
    (hB : ∀ j, B[j]? = if j < i then orig[k + j]? else orig[j]?) :
    ∃ B' log', trim_copy (f + 1) ⟨B, log⟩ (k : Int) i
        = trim_copy f ⟨B', log'⟩ (k : Int) ((i + 1) % (UINT_MAX + 1)) ∧
      B'.length = orig.length ∧
      ∀ j, B'[j]? = if j < i + 1 then orig[k + j]? else orig[j]? := by
  have hs : Util.strlen (B.drop k) = some (n - k) := by
    apply strlen_drop_of_getElem?
    · intro j hj
      rw [hB]
      split
      · exact hnz _ (by omega)
      · exact hnz _ (by omega)
    · rw [hB, if_neg (by omega), show k + (n - k) = n by omega]
      exact hn
  have hread : ∃ c, orig[k + i]? = some c := by
    by_cases h : k + i < n
    · obtain ⟨c, hc, _⟩ := hnz _ h
      exact ⟨c, hc⟩
    · exact ⟨0, by rw [show k + i = n by omega]; exact hn⟩
  obtain ⟨c, hc⟩ := hread
  have hBc : B[k + i]? = some c := by rw [hB, if_neg (by omega)]; exact hc
  have hnlen : n < orig.length := (List.getElem?_eq_some.mp hn).1
  have hi : i < B.length := by omega
  refine ⟨B.set i c, ((i : Nat) : Int) :: ((k + i : Nat) : Int) ::
      (((List.range (n - k + 1)).map (fun j : Nat => (k : Int) + (j : Int))).reverse ++ log),
    ?_, by simpa using hlen, ?_⟩
  · have hcast : ((k : Int) + (i : Int)) = ((k + i : Nat) : Int) := by push_cast; rfl
    simp only [trim_copy, Mem.strlen_nat B log k (n - k) hs, Option.bind_eq_bind,
      Option.some_bind, if_pos him, hcast, Mem.read_nat B _ (k + i) c hBc,
      Mem.write_nat B _ i c hi]
  · intro j
    rw [List.getElem?_set]
    by_cases hij : i = j
    · subst hij
      simp [hi, hc]
    · rw [if_neg hij, hB]
      by_cases hlt : j < i
      · rw [if_pos hlt, if_pos (by omega)]
      · rw [if_neg hlt, if_neg (by omega)]

/-- The copying loop on a string to move of exactly `UINT_MAX` bytes: after the turn that
moves the terminator, the counter is `0` again and the loop goes on, over the
buffer that the first pass leaves. -/
theorem trim_copy_wrap (orig : List Nat) (n k : Nat) (hk : 0 < k) (hkn : n = k + UINT_MAX)
    (hnz : ∀ i, i < n → ∃ c, orig[i]? = some c ∧ c ≠ 0) (hn : orig[n]? = some 0)
    (d i fuel : Nat) (B : List Nat) (log : List Int)
    (hd : i + d = UINT_MAX) (hf : d < fuel) (hlen : B.length = orig.length)
    (hB : ∀ j, B[j]? = if j < i then orig[k + j]? else orig[j]?) :
    ∃ F log', trim_copy fuel ⟨B, log⟩ (k : Int) i
        = trim_copy (fuel - (d + 1)) ⟨F, log'⟩ (k : Int) 0 ∧
      F.length = orig.length ∧
      ∀ j, F[j]? = if j < UINT_MAX + 1 then orig[k + j]? else orig[j]? := by
  induction d generalizing i fuel B log with
  | zero =>
    obtain ⟨f, rfl⟩ : ∃ f, fuel = f + 1 := ⟨fuel - 1, by omega⟩
    obtain ⟨B', log', h1, h2, h3⟩ := trim_copy_step orig n k hk (by omega) hnz hn i f B log
      (by omega) hlen hB
    have hi : i = UINT_MAX := by omega
    subst hi
    rw [Nat.mod_self] at h1
    exact ⟨B', log', h1, h2, h3⟩
  | succ d ih =>
    obtain ⟨f, rfl⟩ : ∃ f, fuel = f + 1 := ⟨fuel - 1, by omega⟩
    obtain ⟨B', log', h1, h2, h3⟩ := trim_copy_step orig n k hk (by omega) hnz hn i f B log
      (by omega) hlen hB
    rw [Nat.mod_eq_of_lt (by omega)] at h1
    obtain ⟨F, log'', k1, k2, k3⟩ := ih (i + 1) f B' log' (by omega) (by omega) h2 h3
    refine ⟨F, log'', ?_, k2, k3⟩
    rw [h1, k1, show f + 1 - (d + 1 + 1) = f - (d + 1) by omega]

/-- The backward scan over white space down to offset `0` reads offset `-1`: it has no
result, whatever the fuel. -/
theorem trim_back_underread (buf : List Nat) (q : Nat)
    (hsp : ∀ j, j ≤ q → ∃ c, buf[j]? = some c ∧ isspace c = true)
    (fuel : Nat) (log : List Int) : trim_back fuel ⟨buf, log⟩ (q : Int) = none := by
  induction q generalizing fuel log with
  | zero =>
    obtain ⟨c, hc, hcs⟩ := hsp 0 (le_refl _)
    cases fuel with
    | zero => rfl
    | succ f =>
      simp only [trim_back, Mem.read_nat buf log 0 c hc, hcs, Option.bind_eq_bind,
        Option.some_bind, if_true]
      cases f with
      | zero => rfl
      | succ g => simp [trim_back, Mem.read]
  | succ q ih =>
    obtain ⟨c, hc, hcs⟩ := hsp (q + 1) (le_refl _)
    cases fuel with
    | zero => rfl
    | succ f =>
      have hcast : (((q + 1 : Nat) : Int) - 1) = (q : Int) := by push_cast; omega
      simp only [trim_back, Mem.read_nat buf log (q + 1) c hc, hcs, hcast, Option.bind_eq_bind,
        Option.some_bind, if_true]
      exact ih (fun j hj => hsp j (by omega)) f _

theorem spaced_x_length (w : Nat) : (spaced_x w).length = w + 3 := by
  simp [spaced_x]

theorem spaced_x_getElem? (w j : Nat) :
    (spaced_x w)[j]? = if j = 0 then some 32 else if j = 1 then some 120
      else if j < w + 2 then some 32 else if j = w + 2 then some 0 else none := by
  unfold spaced_x
  match j with
  | 0 => simp
  | 1 => simp
  | j + 2 =>
    rw [if_neg (by omega), if_neg (by omega), List.getElem?_cons_succ, List.getElem?_cons_succ]
    by_cases h1 : j < w
    · rw [if_pos (by omega), List.getElem?_append_left (by simpa using h1)]
      simp [List.getElem?_replicate, h1]
    · rw [if_neg (by omega), List.getElem?_append_right (by simpa using h1)]
      by_cases h2 : j = w
      · subst h2
        simp
      · rw [if_neg (by omega)]
        rw [List.getElem?_eq_none]
        simp
        omega

theorem spaces_zeros_getElem? (w j : Nat) :
    (List.replicate w 32 ++ [0, 0, 0])[j]?
      = if j < w then some 32 else if j < w + 3 then some 0 else none := by
  by_cases h1 : j < w
  · rw [if_pos h1, List.getElem?_append_left (by simpa using h1)]
    simp [List.getElem?_replicate, h1]
  · rw [if_neg h1, List.getElem?_append_right (by simpa using h1), List.length_replicate]
    by_cases h2 : j < w + 3
    · rw [if_pos h2]
      obtain ⟨e, rfl⟩ : ∃ e, j = w + e := ⟨j - w, by omega⟩
      rw [Nat.add_sub_cancel_left]
      have he : e = 0 ∨ e = 1 ∨ e = 2 := by omega
      rcases he with rfl | rfl | rfl <;> rfl
    · rw [if_neg h2, List.getElem?_eq_none]
      simp
      omega

/-- The copying loop of `trim` on `" x"` followed by `UINT_MAX - 1` spaces, a string to move of
`UINT_MAX` bytes: the counter wraps around after the first pass, the loop moves the
bytes down a second time, and the letter is gone from the buffer. -/
theorem trim_copy_spaced_x (w : Nat) (hw : w + 1 = UINT_MAX) (fuel : Nat)
    (hf : 2 * UINT_MAX + 2 ≤ fuel) (log : List Int) :
    ∃ log', trim_copy fuel ⟨spaced_x w, log⟩ 1 0
      = some ⟨List.replicate w 32 ++ [0, 0, 0], log'⟩ := by
  have hU : UINT_MAX = 4294967295 := rfl
  have hnz : ∀ i, i < w + 2 → ∃ c, (spaced_x w)[i]? = some c ∧ c ≠ 0 := by
    intro i hi
    rw [spaced_x_getElem?]
    by_cases h0 : i = 0
    · exact ⟨32, by rw [if_pos h0], by decide⟩
    · by_cases h1 : i = 1
      · exact ⟨120, by rw [if_neg h0, if_pos h1], by decide⟩
      · exact ⟨32, by rw [if_neg h0, if_neg h1, if_pos hi], by decide⟩
  have hn : (spaced_x w)[w + 2]? = some 0 := by
    rw [spaced_x_getElem?, if_neg (by omega), if_neg (by omega), if_neg (by omega), if_pos rfl]
  -- the first pass, up to the turn that moves the terminator
  obtain ⟨F, log1, h1, hFlen, hF⟩ := trim_copy_wrap (spaced_x w) (w + 2) 1 (by omega)
    (by omega) hnz hn UINT_MAX 0 fuel (spaced_x w) log (by omega) (by omega) rfl (by simp)
  -- the second pass
  have hnzF : ∀ i, i < UINT_MAX → ∃ c, F[i]? = some c ∧ c ≠ 0 := by
    intro i hi
    rw [hF, if_pos (by omega)]
    exact hnz _ (by omega)
  have hnF : F[UINT_MAX]? = some 0 := by
    rw [hF, if_pos (by omega), show 1 + UINT_MAX = w + 2 by omega]
    exact hn
  obtain ⟨F2, log2, h2, hF2len, hF2, _⟩ := trim_copy_spec F UINT_MAX 1 (by omega) (by omega)
    (by omega) hnzF hnF UINT_MAX 0 (fuel - (UINT_MAX + 1)) F log1 (by omega) (by omega) rfl
    (by simp)
  have hbuf : F2 = List.replicate w 32 ++ [0, 0, 0] := by
    apply List.ext_getElem?
    intro j
    simp only [hF2, hF, spaced_x_getElem?, spaces_zeros_getElem?]
    split_ifs <;> first | rfl | (exfalso; omega)
  refine ⟨log2, ?_⟩
  have e1 : ((1 : Nat) : Int) = 1 := rfl
  rw [e1] at h1 h2
  rw [h1, h2, hbuf]

/-- The forward scan of `trim` on `" x..."`: it stops at the letter, offset `1`, when it has fuel
for two turns. -/
theorem trim_skip_spaced_x (w g : Nat) :
    trim_skip (g + 2) ⟨spaced_x w, []⟩ 0 = some (1, ⟨spaced_x w, [1, 0]⟩) := by
  have h0 := Mem.read_nat (spaced_x w) [] 0 32 (by rw [spaced_x_getElem?, if_pos rfl])
  have h1 := Mem.read_nat (spaced_x w) [0] 1 120
    (by rw [spaced_x_getElem?, if_neg (by omega), if_pos rfl])
  simp only [Nat.cast_zero, Nat.cast_one] at h0 h1
  have hs : isspace 32 = true := by decide
  have hx : isspace 120 = false := by decide
  simp only [trim_skip, h0, Option.bind_eq_bind, Option.some_bind, hs, if_true, zero_add, h1, hx]
  rfl

/-- The function `trim` on `" x"` followed by `UINT_MAX - 1` spaces has no result, whatever the
fuel: after the copying loop the buffer holds spaces only, and the backward scan
reads them down to offset `0` and then reads offset `-1`. -/
theorem trim_spaced_x_none (w : Nat) (hw : w + 1 = UINT_MAX) (fuel : Nat) :
    trim fuel (spaced_x w) = none := by
  have hU : UINT_MAX = 4294967295 := rfl
  match fuel with
  | 0 => rfl
  | 1 =>
    have h0 := Mem.read_nat (spaced_x w) [] 0 32 (by rw [spaced_x_getElem?, if_pos rfl])
    simp only [Nat.cast_zero] at h0
    have hs : isspace 32 = true := by decide
    simp only [trim, trim_skip, h0, Option.bind_eq_bind, Option.some_bind, hs, if_true]
    rfl
  | g + 2 =>
    simp only [trim, trim_skip_spaced_x w g, Option.bind_eq_bind, Option.some_bind]
    rw [if_pos (by decide)]
    cases hc : trim_copy (g + 2) ⟨spaced_x w, [1, 0]⟩ 1 0 with
    | none => rfl
    | some M =>
      obtain ⟨log', hbig⟩ := trim_copy_spaced_x w hw (max (g + 2) (2 * UINT_MAX + 2))
        (le_max_right _ _) [1, 0]
      have hmono := trim_copy_mono _ (max (g + 2) (2 * UINT_MAX + 2)) _ _ _ _ hc
        (le_max_left _ _)
      rw [hbig] at hmono
      cases hmono
      have hs : Util.strlen ((List.replicate w 32 ++ [0, 0, 0]).drop 0) = some w := by
        apply strlen_drop_of_getElem?
        · intro j hj
          rw [Nat.zero_add, spaces_zeros_getElem?, if_pos hj]
          exact ⟨32, rfl, by decide⟩
        · rw [Nat.zero_add, spaces_zeros_getElem?, if_neg (by omega), if_pos (by omega)]
      have h3 := Mem.strlen_nat (List.replicate w 32 ++ [0, 0, 0]) log' 0 w hs
      simp only [Nat.cast_zero] at h3
      simp only [Option.some_bind, h3]
      rw [if_pos (by omega)]
      have hcast : ((w : Int) - 1) = ((w - 1 : Nat) : Int) := by omega
      rw [hcast, trim_back_underread _ (w - 1) (by
        intro j hj
        rw [spaces_zeros_getElem?, if_pos (by omega)]
        exact ⟨32, rfl, by decide⟩)]
      rfl

theorem dropWhile_spaces_x (w : Nat) :
    List.dropWhile isspace (List.replicate w 32 ++ [120]) = [120] := by
  induction w with
  | zero => rfl
  | succ w ih =>
    rw [List.replicate_succ, List.cons_append, List.dropWhile_cons, if_pos (by decide)]
    exact ih

/-- The string `" x"` followed by `w` spaces, trimmed, is `"x"`. -/
theorem trimmed_spaced_x (w : Nat) : trimmed (32 :: 120 :: List.replicate w 32) = [120] := by
  have h1 : List.dropWhile isspace (32 :: 120 :: List.replicate w 32)
      = 120 :: List.replicate w 32 := by
    rw [List.dropWhile_cons, if_pos (by decide), List.dropWhile_cons, if_neg (by decide)]
  unfold trimmed
  rw [h1]
  unfold List.rdropWhile
  rw [List.reverse_cons, List.reverse_replicate, dropWhile_spaces_x]
  rfl

/-! ## The claims about `trim` -/

/-- C4, at a string of `UINT_MAX + 1` bytes: the buffer `spaced_x 4294967294` holds the string
`" x"` followed by `4294967294` spaces, which trimmed is `"x"`.  The forward scan
stops at the letter and the copying loop, its `unsigned int` counter wrapping
around after the pass that moves the terminator, moves the bytes down twice: it
leaves a buffer of `4294967294` spaces and three zero bytes, without the letter.
No run of `trim`, whatever the fuel, returns `str` with the buffer holding `"x"`
and a terminator. -/
theorem trim_long_string_loses_text :
    spaced_x 4294967294 = (32 :: 120 :: List.replicate 4294967294 32) ++ 0 :: [] ∧
    trimmed (32 :: 120 :: List.replicate 4294967294 32) = [120] ∧
    (∃ fuel log,
      trim_skip fuel ⟨spaced_x 4294967294, []⟩ 0 = some (1, ⟨spaced_x 4294967294, [1, 0]⟩) ∧
      trim_copy fuel ⟨spaced_x 4294967294, [1, 0]⟩ 1 0
        = some ⟨List.replicate 4294967294 32 ++ [0, 0, 0], log⟩) ∧
    ¬ ∃ fuel M rest', trim fuel (spaced_x 4294967294) = some (0, M) ∧
        M.buf = [120] ++ 0 :: rest' := by
  refine ⟨rfl, trimmed_spaced_x 4294967294, ?_, ?_⟩
  · obtain ⟨log, h⟩ := trim_copy_spaced_x 4294967294 rfl (8589934590 + 2) (by decide) [1, 0]
    exact ⟨8589934590 + 2, log, trim_skip_spaced_x 4294967294 8589934590, h⟩
  · rintro ⟨fuel, M, rest', h, _⟩
    rw [trim_spaced_x_none 4294967294 rfl fuel] at h
    cases h

/-- C5, at a string of `UINT_MAX + 1` bytes: on the buffer `spaced_x 4294967294` (the string
`" x"` followed by `4294967294` spaces) the copying loop leaves `4294967294`
spaces and a terminator.  The backward scan starts at offset `4294967293`, finds
white space at every offset down to `0` and has no result, whatever its fuel: its
next read is at offset `-1`, before the start of the buffer, where no read has a
result.  So `trim` has no result on this buffer, whatever the fuel. -/
theorem trim_long_string_underreads :
    (∃ fuel log, trim_copy fuel ⟨spaced_x 4294967294, [1, 0]⟩ 1 0
        = some ⟨List.replicate 4294967294 32 ++ [0, 0, 0], log⟩ ∧
      Mem.strlen ⟨List.replicate 4294967294 32 ++ [0, 0, 0], log⟩ 0
        = some (4294967294, ⟨List.replicate 4294967294 32 ++ [0, 0, 0],
            ((List.range (4294967294 + 1)).map (fun j : Nat => (0 : Int) + (j : Int))).reverse
              ++ log⟩)) ∧
    (∀ j, j ≤ 4294967293 → (List.replicate 4294967294 32 ++ [0, 0, 0])[j]? = some 32) ∧
    (∀ fuel log, trim_back fuel ⟨List.replicate 4294967294 32 ++ [0, 0, 0], log⟩ 4294967293
      = none) ∧
    (∀ m : Mem, m.read (-1) = none) ∧
    ¬ ∃ fuel r, trim fuel (spaced_x 4294967294) = some r := by
  have hsp : ∀ j, j ≤ 4294967293 →
      (List.replicate 4294967294 32 ++ [0, 0, 0])[j]? = some 32 := by
    intro j hj
    rw [spaces_zeros_getElem?, if_pos (by omega)]
  refine ⟨?_, hsp, ?_, ?_, ?_⟩
  · obtain ⟨log, h⟩ := trim_copy_spaced_x 4294967294 rfl 8589934592 (by decide) [1, 0]
    refine ⟨8589934592, log, h, ?_⟩
    have hs : Util.strlen ((List.replicate 4294967294 32 ++ [0, 0, 0]).drop 0)
        = some 4294967294 := by
      apply strlen_drop_of_getElem?
      · intro j hj
        rw [Nat.zero_add, spaces_zeros_getElem?, if_pos hj]
        exact ⟨32, rfl, by decide⟩
      · rw [Nat.zero_add, spaces_zeros_getElem?, if_neg (by omega), if_pos (by omega)]
    have h3 := Mem.strlen_nat (List.replicate 4294967294 32 ++ [0, 0, 0]) log 0 4294967294 hs
    simp only [Nat.cast_zero] at h3
    exact h3
  · intro fuel log
    exact trim_back_underread _ 4294967293 (fun j hj => ⟨32, hsp j hj, by decide⟩) fuel log
  · intro m
    simp [Mem.read]
  · rintro ⟨fuel, r, h⟩
    rw [trim_spaced_x_none 4294967294 rfl fuel] at h
    cases h

/-- C18, at a string of `UINT_MAX + 1` bytes: on the buffer `spaced_x 4294967294` (the string
`" x"` followed by `4294967294` spaces) the first call of `trim` has no result,
whatever the fuel, so there is no trimmed buffer that a second call could leave
unchanged. -/
theorem trim_long_string_not_idempotent :
    ¬ ∃ fuel M M2, trim fuel (spaced_x 4294967294) = some (0, M) ∧
        trim fuel M.buf = some (0, M2) ∧ M2.buf = M.buf := by
  rintro ⟨fuel, M, M2, h, _⟩
  rw [trim_spaced_x_none 4294967294 rfl fuel] at h
  cases h

end Util
